import Mathlib

/-!
VersionControlSystem_rp: the in-memory engine.

A shallow embedding of `models/*.go` and `engine/engine.go`.

* A Go `map[K]V` is an association list read by first match (`GoMap.get?`),
  written by replace-or-append (`GoMap.set`) and iterated once per key
  (`GoMap.range`).  Go leaves the iteration order unspecified; the embedding
  fixes insertion order and no theorem below depends on it.
* Pointers are flattened: `map[CommitID]*Commit` holds commits, `map[BranchName]*Branch`
  holds branches, no two keys share a pointer, and a `nil` pointer is an absent value
  (`Option`).  The engine is taken with a non-nil `repo`.  A commit keeps its own `id`
  field next to the key it is stored under, and a branch its own `name`, as in the source.
* `time.Time` is an integer; the clock reading and the identity generator's
  behaviour at a call are arguments of `Commit`; `regexp.Compile` is an argument
  of `Add`.
* A call either returns normally, returns an error, or panics (nil dereference
  in `Reset`); the first two carry the repository as it is when the call returns.
* The loop of `Log` is run with a bound on its iterations (`LogLoop`); what is proved
  about `Log` says for which bounds it returns.
* A sequence of calls is a list of `Op` steps from `NewRepo` (`Reachable`), which also keeps
  the ids the generator has returned, so that "the generator never repeats an id" is a
  property of that list.
-/

namespace VCS

/-! ## Go maps -/

/-- A Go map as an association list; the first entry of a key is its value. -/
abbrev GoMap (κ ν : Type) := List (κ × ν)

namespace GoMap

variable {κ ν : Type} [DecidableEq κ]

/-- The lookup `v, ok := m[k]`. -/
def get? : GoMap κ ν → κ → Option ν
  | [], _ => none
  | (k', v) :: m, k => if k' = k then some v else get? m k

/-- The assignment `m[k] = v`. -/
def set : GoMap κ ν → κ → ν → GoMap κ ν
  | [], k, v => [(k, v)]
  | (k', v') :: m, k, v => if k' = k then (k, v) :: m else (k', v') :: set m k v

/-- The entries visited by `for k, v := range m`: every key once, with its value. -/
def range : GoMap κ ν → List (κ × ν)
  | [] => []
  | (k, v) :: m => (k, v) :: (range m).filter (fun e => !decide (e.1 = k))

/-- The builtin `len(m)`: the number of keys. -/
def len (m : GoMap κ ν) : Nat := (range m).length

/-- The loop `for k, v := range src { dst[k] = v }`. -/
def copyInto (dst src : GoMap κ ν) : GoMap κ ν :=
  (range src).foldl (fun acc e => set acc e.1 e.2) dst

/-- The loop `for k := range src { dst[k] = struct{}{} }`. -/
def keysInto {μ : Type} (dst : GoMap κ Unit) (src : GoMap κ μ) : GoMap κ Unit :=
  (range src).foldl (fun acc e => set acc e.1 ()) dst

end GoMap

/-! ## models -/

abbrev CommitID := String
abbrev BranchName := String
/-- A `time.Time` value; the engine only stores and returns it. -/
abbrev Timestamp := Int
/-- A tree, the Index entries and the working directory files: `map[string]string`. -/
abbrev Files := GoMap String String

structure Commit where
  id : CommitID
  parents : List CommitID
  message : String
  timestamp : Timestamp
  tree : Files
deriving DecidableEq, Repr

structure Branch where
  name : BranchName
  target : CommitID
deriving DecidableEq, Repr

def Branch.SetTarget (b : Branch) (target : CommitID) : Branch := { b with target := target }

def DefaultBranchName : BranchName := "main"

structure Head where
  branchName : Option BranchName
  commitID : Option CommitID
deriving DecidableEq, Repr

structure Index where
  entries : Files
deriving DecidableEq, Repr

def NewIndex : Index := { entries := [] }

def Index.AddEntry (i : Index) (path content : String) : Index :=
  { entries := GoMap.set i.entries path content }

def Index.Clear (_i : Index) : Index := { entries := [] }

structure WorkingDirectory where
  files : Files
deriving DecidableEq, Repr

def NewWorkingDirectory : WorkingDirectory := { files := [] }

def WorkingDirectory.AddFile (wd : WorkingDirectory) (path content : String) : WorkingDirectory :=
  { files := GoMap.set wd.files path content }

def WorkingDirectory.Clear (_wd : WorkingDirectory) : WorkingDirectory := { files := [] }

structure Repo where
  commits : GoMap CommitID Commit
  branches : GoMap BranchName Branch
  head : Head
  index : Index
  workingDirectory : WorkingDirectory
deriving DecidableEq, Repr

def Repo.AddCommit (r : Repo) (id : CommitID) (commit : Commit) : Repo :=
  { r with commits := GoMap.set r.commits id commit }

def Repo.GetCommit (r : Repo) (id : CommitID) : Option Commit := GoMap.get? r.commits id

def Repo.AddBranch (r : Repo) (name : BranchName) (branch : Branch) : Repo :=
  { r with branches := GoMap.set r.branches name branch }

def Repo.GetBranch (r : Repo) (name : BranchName) : Option Branch := GoMap.get? r.branches name

def NewRepo : Repo :=
  let r : Repo :=
    { commits := [], branches := [], head := { branchName := none, commitID := none },
      index := NewIndex, workingDirectory := NewWorkingDirectory }
  let r := r.AddBranch DefaultBranchName { name := DefaultBranchName, target := "" }
  { r with head := { branchName := some DefaultBranchName, commitID := none } }

/-! ## engine -/

structure FileStatus where
  Path : String
  Staged : Bool
  Modified : Bool
  Untracked : Bool
deriving DecidableEq, Repr

structure StatusResult where
  HeadDescription : String
  Files : List FileStatus
deriving DecidableEq, Repr

structure LogEntry where
  ID : CommitID
  Message : String
  Timestamp : Timestamp
  Parents : List CommitID
deriving DecidableEq, Repr

def errMsgNoSuchBranch : String := "no such branch"
def errMsgNoSuchCommit : String := "no such commit"
def errMsgNothingToCommit : String := "nothing to commit"
def errMsgNoMatchesForAdd : String := "no files matched add pattern"
def errMsgBranchExists : String := "branch already exists"
def errMsgNoCurrentCommit : String := "no current commit to base branch on"
def errMsgResetDetachedHead : String := "cannot reset in detached HEAD state"

/-- An `error` value: one made by `errors.New`, or the one `regexp.Compile` returns. -/
inductive Error where
  | New (msg : String)
  | regexpCompile (pattern : String)
deriving DecidableEq, Repr

/-- How a call of an engine method ends: with a value, with an error, or in a
nil-pointer panic.  The repository is the one the caller sees afterwards. -/
inductive Outcome (α : Type) where
  | ok (value : α) (repo : Repo)
  | err (e : Error) (repo : Repo)
  | panic
deriving DecidableEq, Repr

/-- The repository a call leaves behind when it returns, with a value or with an error. -/
def Outcome.after {α : Type} : Outcome α → Option Repo
  | .ok _ repo => some repo
  | .err _ repo => some repo
  | .panic => none

/-- The identity generator's answer at one call: `NewCommitID(tree, parents, t)`. -/
abbrev CommitIDGenerator := Files → List CommitID → Timestamp → CommitID

/-- The library call `regexp.Compile`: `none` is a syntax error, otherwise `MatchString`. -/
abbrev RegexpCompile := String → Option (String → Bool)

def currentCommit (repo : Repo) : CommitID × Files :=
  match repo.head.branchName with
  | none => ("", [])
  | some branchName =>
    match repo.GetBranch branchName with
    | none => ("", [])
    | some branch =>
      if branch.target = "" then ("", [])
      else
        match repo.GetCommit branch.target with
        | none => ("", [])
        | some commit => (commit.id, commit.tree)

def applyCommitToWorkingDirectory (repo : Repo) (id : CommitID) : Repo :=
  let wd := repo.workingDirectory.Clear
  if id = "" then { repo with workingDirectory := wd }
  else
    match repo.GetCommit id with
    | none => { repo with workingDirectory := wd }
    | some commit =>
      { repo with workingDirectory :=
          (GoMap.range commit.tree).foldl (fun w e => w.AddFile e.1 e.2) wd }

def describeHead (repo : Repo) : String × Option Commit :=
  match repo.head.branchName with
  | none => ("", none)
  | some branchName =>
    match repo.GetBranch branchName with
    | none => (branchName, none)
    | some branch =>
      if branch.target = "" then (branchName, none)
      else
        match repo.GetCommit branch.target with
        | none => (branchName, none)
        | some commit => (branchName, some commit)

namespace InMemoryEngine

def AddFileToWorkingDirectory (path content : String) (repo : Repo) : Outcome Unit :=
  .ok () { repo with workingDirectory := repo.workingDirectory.AddFile path content }

def Add (compile : RegexpCompile) (pattern : String) (repo : Repo) : Outcome Unit :=
  let wdFiles := repo.workingDirectory.files
  let staged : Option (Index × Bool) :=
    match GoMap.get? wdFiles pattern with
    | some content => some (repo.index.AddEntry pattern content, true)
    | none =>
      match compile pattern with
      | none => none
      | some r =>
        some ((GoMap.range wdFiles).foldl
          (fun s e => if r e.1 then (s.1.AddEntry e.1 e.2, true) else s) (repo.index, false))
  match staged with
  | none => .err (.regexpCompile pattern) repo
  | some (index, matched) =>
    if !matched then .err (.New errMsgNoMatchesForAdd) { repo with index := index }
    else .ok () { repo with index := index }

def Commit (idGen : CommitIDGenerator) (now : Timestamp) (message : String) (repo : Repo) :
    Outcome CommitID :=
  let indexEntries := repo.index.entries
  if GoMap.len indexEntries = 0 then .err (.New errMsgNothingToCommit) repo
  else
    let (parentID, parentTree) := currentCommit repo
    let tree : Files := GoMap.copyInto (GoMap.copyInto [] parentTree) indexEntries
    let parents : List CommitID := if parentID ≠ "" then [parentID] else []
    let id := idGen tree parents now
    let commit : VCS.Commit :=
      { id := id, parents := parents, message := message, timestamp := now, tree := tree }
    let repo := repo.AddCommit id commit
    let repo := { repo with index := repo.index.Clear }
    match repo.head.branchName with
    | none => .ok id repo
    | some branchName =>
      match repo.GetBranch branchName with
      | none => .ok id repo
      | some branch =>
        .ok id { repo with branches := GoMap.set repo.branches branchName (branch.SetTarget id) }

def CheckoutBranch (name : BranchName) (repo : Repo) : Outcome Unit :=
  match repo.GetBranch name with
  | none => .err (.New errMsgNoSuchBranch) repo
  | some branch =>
    let repo := applyCommitToWorkingDirectory repo branch.target
    let repo := { repo with head := { branchName := some name, commitID := none } }
    .ok () { repo with index := repo.index.Clear }

def CreateBranch (name : BranchName) (repo : Repo) : Outcome Unit :=
  match repo.GetBranch name with
  | some _ => .err (.New errMsgBranchExists) repo
  | none =>
    let id := (currentCommit repo).1
    if id = "" then .err (.New errMsgNoCurrentCommit) repo
    else .ok () (repo.AddBranch name { name := name, target := id })

def Status (repo : Repo) : Outcome StatusResult :=
  let (headDescription, baseCommit) := describeHead repo
  let commitTree : Files :=
    match baseCommit with
    | some c => GoMap.copyInto [] c.tree
    | none => []
  let pathsSet : GoMap String Unit := GoMap.keysInto [] commitTree
  let indexEntries := repo.index.entries
  let pathsSet := GoMap.keysInto pathsSet indexEntries
  let wdFiles := repo.workingDirectory.files
  let pathsSet := GoMap.keysInto pathsSet wdFiles
  let paths : List String := (GoMap.range pathsSet).map Prod.fst
  let files : List FileStatus := paths.map fun path =>
    let wd := GoMap.get? wdFiles path
    let ix := GoMap.get? indexEntries path
    let cm := GoMap.get? commitTree path
    let inWD := wd.isSome
    let inIndex := ix.isSome
    let inCommit := cm.isSome
    let wdContent := wd.getD ""
    let indexContent := ix.getD ""
    let commitContent := cm.getD ""
    let staged := inIndex
    let untracked := inWD && !inCommit && !inIndex
    let modified :=
      if inIndex then (if inWD && wdContent != indexContent then true else false)
      else if inWD then (if !inCommit || commitContent != wdContent then true else false)
      else false
    { Path := path, Staged := staged, Modified := modified, Untracked := untracked }
  .ok { HeadDescription := headDescription, Files := files } repo

/-- The loop of `Log`, with a bound on the number of iterations; `none` when the
bound is reached before the loop exits. -/
def LogLoop (repo : Repo) : Nat → VCS.Commit → List LogEntry → Option (List LogEntry)
  | 0, _, _ => none
  | fuel + 1, current, entries =>
    let entry : LogEntry :=
      { ID := current.id, Message := current.message, Timestamp := current.timestamp,
        Parents := current.parents }
    let entries := entries ++ [entry]
    match current.parents with
    | [] => some entries
    | p :: _ =>
      match repo.GetCommit p with
      | none => some entries
      | some next => LogLoop repo fuel next entries

def Log (fuel : Nat) (repo : Repo) : Option (Outcome (List LogEntry)) :=
  match (describeHead repo).2 with
  | none => some (.ok [] repo)
  | some baseCommit =>
    match LogLoop repo fuel baseCommit [] with
    | none => none
    | some entries => some (.ok entries repo)

def Reset (commitID : CommitID) (repo : Repo) : Outcome Unit :=
  match repo.head.branchName with
  | none => .err (.New errMsgResetDetachedHead) repo
  | some branchName =>
    match repo.GetCommit commitID with
    | none => .err (.New errMsgNoSuchCommit) repo
    | some _ =>
      match repo.GetBranch branchName with
      | none => .panic
      | some branch =>
        let repo :=
          { repo with branches := GoMap.set repo.branches branchName (branch.SetTarget commitID) }
        let repo := applyCommitToWorkingDirectory repo commitID
        .ok () { repo with index := repo.index.Clear }

end InMemoryEngine

/-! ## What `Commit` and `Status` compute, named -/

/-- The commit `Commit` constructs from a repository, before it is stored. -/
def builtCommit (idGen : CommitIDGenerator) (now : Timestamp) (message : String) (repo : Repo) :
    VCS.Commit :=
  let tree : Files := GoMap.copyInto (GoMap.copyInto [] (currentCommit repo).2) repo.index.entries
  let parents : List CommitID :=
    if (currentCommit repo).1 ≠ "" then [(currentCommit repo).1] else []
  { id := idGen tree parents now, parents := parents, message := message, timestamp := now,
    tree := tree }

/-- The branch map `Commit` leaves behind: the HEAD branch, when HEAD names an
existing branch, is retargeted to the new id. -/
def branchesAfterCommit (repo : Repo) (id : CommitID) : GoMap BranchName Branch :=
  match repo.head.branchName with
  | none => repo.branches
  | some branchName =>
    match repo.GetBranch branchName with
    | none => repo.branches
    | some branch => GoMap.set repo.branches branchName (branch.SetTarget id)

/-- The copy of the current commit's tree that `Status` works on. -/
def statusCommitTree (repo : Repo) : Files :=
  match (describeHead repo).2 with
  | some c => GoMap.copyInto [] c.tree
  | none => []

/-- The paths `Status` collects, in the order it reports them. -/
def statusPaths (repo : Repo) : List String :=
  (GoMap.range
    (GoMap.keysInto
      (GoMap.keysInto (GoMap.keysInto [] (statusCommitTree repo)) repo.index.entries)
      repo.workingDirectory.files)).map Prod.fst

/-- The entry `Status` builds for one path. -/
def statusEntry (wdFiles indexEntries commitTree : Files) (path : String) : FileStatus :=
  let wd := GoMap.get? wdFiles path
  let ix := GoMap.get? indexEntries path
  let cm := GoMap.get? commitTree path
  { Path := path
    Staged := ix.isSome
    Modified :=
      if ix.isSome then (if wd.isSome && wd.getD "" != ix.getD "" then true else false)
      else if wd.isSome then (if !cm.isSome || cm.getD "" != wd.getD "" then true else false)
      else false
    Untracked := wd.isSome && !cm.isSome && !ix.isSome }

/-! ## Sample states -/

/-- A generator that numbers commits by the size of the parent list and the time. -/
def sampleIdGen : CommitIDGenerator := fun _ parents t =>
  if parents.isEmpty then "root-" ++ toString t else "child-" ++ toString t

/-- No pattern is valid and nothing matches: only literal paths can be added. -/
def literalOnly : RegexpCompile := fun _ => none

/-- Every pattern is valid and matches the paths that end with it. -/
def suffixRegexp : RegexpCompile := fun pat => some (fun path => pat.data.isSuffixOf path.data)

/-- One commit `c1` with `a.txt` and `b.txt`, HEAD on `main`, an edit of `a.txt` and a new
`c.txt` staged, one more unstaged edit of `a.txt` in the working directory and an
untracked `d.txt`. -/
def sampleRepo : Repo :=
  { commits :=
      [("c1", { id := "c1", parents := [], message := "first", timestamp := 1,
                tree := [("a.txt", "1"), ("b.txt", "2")] })]
    branches := [("main", { name := "main", target := "c1" })]
    head := { branchName := some "main", commitID := none }
    index := { entries := [("a.txt", "9"), ("c.txt", "3")] }
    workingDirectory :=
      { files := [("a.txt", "10"), ("b.txt", "2"), ("c.txt", "3"), ("d.txt", "4")] } }

/-- The state of `sampleRepo` with nothing staged. -/
def sampleRepoUnstaged : Repo := { sampleRepo with index := { entries := [] } }

/-- A generator that answers `c2` whatever it is given. -/
def constIdGen : CommitIDGenerator := fun _ _ _ => "c2"

/-- The state of `sampleRepo` after `Commit` with the generator `constIdGen` at time 2. -/
def sampleRepoCommitted : Repo :=
  { commits :=
      [("c1", { id := "c1", parents := [], message := "first", timestamp := 1,
                tree := [("a.txt", "1"), ("b.txt", "2")] }),
       ("c2", { id := "c2", parents := ["c1"], message := "second", timestamp := 2,
                tree := [("a.txt", "9"), ("b.txt", "2"), ("c.txt", "3")] })]
    branches := [("main", { name := "main", target := "c2" })]
    head := { branchName := some "main", commitID := none }
    index := { entries := [] }
    workingDirectory :=
      { files := [("a.txt", "10"), ("b.txt", "2"), ("c.txt", "3"), ("d.txt", "4")] } }

/-- A generator that answers the empty id. -/
def emptyIdGen : CommitIDGenerator := fun _ _ _ => ""

/-- The state after `AddFileToWorkingDirectory("a.txt", "1")`, `Add("a.txt")` on `NewRepo`. -/
def stagedFirstRepo : Repo :=
  { NewRepo with
    index := { entries := [("a.txt", "1")] }
    workingDirectory := { files := [("a.txt", "1")] } }

/-- The state after `Commit("first")` on `stagedFirstRepo` when the generator answers the
empty id: the commit is stored under the empty key and `main` still has the empty target. -/
def emptyIdRepo : Repo :=
  { commits :=
      [("", { id := "", parents := [], message := "first", timestamp := 1,
              tree := [("a.txt", "1")] })]
    branches := [("main", { name := "main", target := "" })]
    head := { branchName := some "main", commitID := none }
    index := { entries := [] }
    workingDirectory := { files := [("a.txt", "1")] } }

/-- A fresh repository whose working directory has `x1.go`, `x2.go` and `readme.md`. -/
def goFilesRepo : Repo :=
  { NewRepo with
    workingDirectory := { files := [("x1.go", "a"), ("x2.go", "b"), ("readme.md", "c")] } }

/-- The state of `goFilesRepo` with the two `.go` files staged. -/
def goFilesStaged : Repo :=
  { goFilesRepo with index := { entries := [("x1.go", "a"), ("x2.go", "b")] } }

/-- The state of `sampleRepo` after `CheckoutBranch("main")`: the staged and unstaged edits
are gone. -/
def sampleRepoCheckedOut : Repo :=
  { sampleRepo with
    index := { entries := [] }
    workingDirectory := { files := [("a.txt", "1"), ("b.txt", "2")] } }

/-! ## The first-parent chain -/

/-- The entry `Log` emits for a commit: its id, message, timestamp and parents. -/
def LogEntry.ofCommit (c : VCS.Commit) : LogEntry :=
  { ID := c.id, Message := c.message, Timestamp := c.timestamp, Parents := c.parents }

/-- The first-parent chain from a commit, as the specification words it: the commit itself,
then the commit named by `parents[0]` of the previous one, stopping at a commit with no
parents or whose `parents[0]` is not in the graph. -/
inductive FirstParentChain (repo : Repo) : VCS.Commit → List VCS.Commit → Prop where
  | root (c : VCS.Commit) : c.parents = [] → FirstParentChain repo c [c]
  | unresolved (c : VCS.Commit) (p : CommitID) (rest : List CommitID) :
      c.parents = p :: rest → repo.GetCommit p = none → FirstParentChain repo c [c]
  | step (c : VCS.Commit) (p : CommitID) (rest : List CommitID) (next : VCS.Commit)
      (chain : List VCS.Commit) :
      c.parents = p :: rest → repo.GetCommit p = some next → FirstParentChain repo next chain →
      FirstParentChain repo c (c :: chain)

/-- The keys the first-parent walk resolves after the commit `c`, at most `n` of them. -/
def parentKeys (repo : Repo) : Nat → VCS.Commit → List CommitID
  | 0, _ => []
  | n + 1, c =>
    match c.parents with
    | [] => []
    | p :: _ =>
      match repo.GetCommit p with
      | none => []
      | some next => p :: parentKeys repo n next

/-! ## Sequences of engine calls -/

/-- One call of an engine method. `Commit` comes with what the identity generator and the
clock answer during the call, `Add` with the regexp library, `Log` with the number of
iterations its loop is allowed. -/
inductive Op where
  | AddFileToWorkingDirectory (path content : String)
  | Add (compile : RegexpCompile) (pattern : String)
  | Commit (idGen : CommitIDGenerator) (now : Timestamp) (message : String)
  | CheckoutBranch (name : BranchName)
  | CreateBranch (name : BranchName)
  | Status
  | Log (fuel : Nat)
  | Reset (commitID : CommitID)

/-- The repository after the call, when the call returns (with a value or with an error). -/
def Op.run : Op → Repo → Option Repo
  | .AddFileToWorkingDirectory path content, repo =>
    (InMemoryEngine.AddFileToWorkingDirectory path content repo).after
  | .Add compile pattern, repo => (InMemoryEngine.Add compile pattern repo).after
  | .Commit idGen now message, repo => (InMemoryEngine.Commit idGen now message repo).after
  | .CheckoutBranch name, repo => (InMemoryEngine.CheckoutBranch name repo).after
  | .CreateBranch name, repo => (InMemoryEngine.CreateBranch name repo).after
  | .Status, repo => (InMemoryEngine.Status repo).after
  | .Log fuel, repo => (InMemoryEngine.Log fuel repo).bind Outcome.after
  | .Reset commitID, repo => (InMemoryEngine.Reset commitID repo).after

/-- The ids the identity generator returned during the call: the id of the new commit when
the call is a `Commit` that succeeds, nothing otherwise. -/
def Op.issued : Op → Repo → List CommitID
  | .Commit idGen now message, repo =>
    match InMemoryEngine.Commit idGen now message repo with
    | .ok id _ => [id]
    | _ => []
  | _, _ => []

/-- The states the engine reaches from `NewRepo()` by a sequence of calls, each with the ids
the generator has returned on the way, newest first. -/
inductive Reachable : List CommitID → Repo → Prop where
  | init : Reachable [] NewRepo
  | step (op : Op) {ids : List CommitID} {repo repo' : Repo} :
      Reachable ids repo → op.run repo = some repo' → Reachable (op.issued repo ++ ids) repo'

/-- Reference integrity: HEAD is on an existing branch and has no detached commit id; every
branch target is empty or a key of the graph; every commit is stored under its own id; every
commit has no parent or one parent that is a key of the graph. -/
structure ReferenceIntegrity (repo : Repo) : Prop where
  head_on_branch :
    ∃ B, repo.head = { branchName := some B, commitID := none } ∧
      (repo.GetBranch B).isSome = true
  branch_target :
    ∀ n b, repo.GetBranch n = some b → b.target = "" ∨ (repo.GetCommit b.target).isSome = true
  key_eq_id : ∀ k c, repo.GetCommit k = some c → c.id = k
  parents :
    ∀ k c, repo.GetCommit k = some c →
      c.parents = [] ∨ ∃ p, c.parents = [p] ∧ (repo.GetCommit p).isSome = true

/-- Every path of the Index and every path of the current commit's tree is a path of the
working directory. -/
def TrackedPathsCovered (repo : Repo) : Prop :=
  (∀ p, (GoMap.get? repo.index.entries p).isSome = true →
    (GoMap.get? repo.workingDirectory.files p).isSome = true) ∧
  (∀ p, (GoMap.get? (currentCommit repo).2 p).isSome = true →
    (GoMap.get? repo.workingDirectory.files p).isSome = true)

/-- A commit graph built by appending commits under new keys, each with its first parent,
when it has parents, among the keys already there. -/
inductive Grounded : GoMap CommitID VCS.Commit → Prop where
  | nil : Grounded []
  | snoc (l : GoMap CommitID VCS.Commit) (k : CommitID) (c : VCS.Commit) :
      Grounded l → GoMap.get? l k = none →
      (∀ p rest, c.parents = p :: rest → (GoMap.get? l p).isSome = true) →
      Grounded (l ++ [(k, c)])

/-- The commit stored under `k` names `p` as its first parent. -/
def IsFirstParent (repo : Repo) (k p : CommitID) : Prop :=
  ∃ c rest, repo.GetCommit k = some c ∧ c.parents = p :: rest

/-- The state after `AddFileToWorkingDirectory("a.txt", "1")`, `Add("a.txt")` and
`Commit("first")` at time 1 on `NewRepo`, with the generator `sampleIdGen`. -/
def firstCommitRepo : Repo :=
  { commits :=
      [("root-1", { id := "root-1", parents := [], message := "first", timestamp := 1,
                    tree := [("a.txt", "1")] })]
    branches := [("main", { name := "main", target := "root-1" })]
    head := { branchName := some "main", commitID := none }
    index := { entries := [] }
    workingDirectory := { files := [("a.txt", "1")] } }

/-- The state of `firstCommitRepo` after `AddFileToWorkingDirectory("b.txt", "2")` and
`Add("b.txt")`. -/
def stagedSecondRepo : Repo :=
  { firstCommitRepo with
    index := { entries := [("b.txt", "2")] }
    workingDirectory := { files := [("a.txt", "1"), ("b.txt", "2")] } }

/-- The state of `stagedSecondRepo` after `Commit("second")` at time 2, with the generator
`sampleIdGen`. -/
def secondCommitRepo : Repo :=
  { commits :=
      [("root-1", { id := "root-1", parents := [], message := "first", timestamp := 1,
                    tree := [("a.txt", "1")] }),
       ("child-2", { id := "child-2", parents := ["root-1"], message := "second",
                     timestamp := 2, tree := [("a.txt", "1"), ("b.txt", "2")] })]
    branches := [("main", { name := "main", target := "child-2" })]
    head := { branchName := some "main", commitID := none }
    index := { entries := [] }
    workingDirectory := { files := [("a.txt", "1"), ("b.txt", "2")] } }

/-! ## Facts about Go maps -/

namespace GoMap

variable {κ ν μ : Type} [DecidableEq κ]

theorem get?_set_self (m : GoMap κ ν) (k : κ) (v : ν) : get? (set m k v) k = some v := by
  induction m with
  | nil => simp [set, get?]
  | cons e m ih =>
    obtain ⟨k', v'⟩ := e
    by_cases h : k' = k
    · simp [set, get?, h]
    · simp [set, get?, h, ih]

theorem get?_set_ne (m : GoMap κ ν) {k p : κ} (v : ν) (h : k ≠ p) :
    get? (set m k v) p = get? m p := by
  induction m with
  | nil => simp [set, get?, h]
  | cons e m ih =>
    obtain ⟨k', v'⟩ := e
    by_cases hk : k' = k
    · subst hk
      simp [set, get?, h]
    · by_cases hp : k' = p
      · subst hp
        simp [set, get?, hk]
      · simp [set, get?, hk, hp, ih]

theorem get?_eq_none_iff (m : GoMap κ ν) (p : κ) :
    get? m p = none ↔ p ∉ m.map Prod.fst := by
  induction m with
  | nil => simp [get?]
  | cons e m ih =>
    obtain ⟨k, v⟩ := e
    by_cases h : k = p
    · simp [get?, h]
    · have h' : ¬ p = k := fun hh => h hh.symm
      simp [get?, h, h', ih]

theorem get?_filter_ne (l : GoMap κ ν) {k p : κ} (h : p ≠ k) :
    get? (l.filter (fun e => !decide (e.1 = k))) p = get? l p := by
  induction l with
  | nil => rfl
  | cons e l ih =>
    obtain ⟨k', v'⟩ := e
    by_cases hk : k' = k
    · have hp : ¬ k' = p := fun hh => h (hh.symm.trans hk)
      rw [List.filter_cons]
      simp only [hk, decide_True, Bool.not_true, Bool.false_eq_true, if_false]
      rw [ih]
      subst hk
      simp [get?, hp]
    · rw [List.filter_cons]
      simp only [hk, decide_False, Bool.not_false, if_true]
      by_cases hp : k' = p
      · simp [get?, hp]
      · simp [get?, hp, ih]

theorem get?_range (m : GoMap κ ν) (p : κ) : get? (range m) p = get? m p := by
  induction m with
  | nil => rfl
  | cons e m ih =>
    obtain ⟨k, v⟩ := e
    by_cases h : k = p
    · simp [range, get?, h]
    · have h' : p ≠ k := fun hh => h hh.symm
      simp [range, get?, h, get?_filter_ne _ h', ih]

theorem range_nodupKeys (m : GoMap κ ν) : ((range m).map Prod.fst).Nodup := by
  induction m with
  | nil => simp [range]
  | cons e m ih =>
    obtain ⟨k, v⟩ := e
    simp only [range, List.map_cons, List.nodup_cons]
    refine ⟨?_, ?_⟩
    · simp [List.mem_map, List.mem_filter]
    · exact (ih.sublist ((List.filter_sublist _).map Prod.fst))

theorem mem_keys_range_iff (m : GoMap κ ν) (p : κ) :
    p ∈ (range m).map Prod.fst ↔ (get? m p).isSome = true := by
  have h := get?_eq_none_iff (range m) p
  rw [get?_range] at h
  cases hg : get? m p with
  | none => simp [h.mp hg]
  | some v =>
    simp only [Option.isSome_some, iff_true]
    by_contra hc
    rw [h.mpr hc] at hg
    cases hg

theorem len_eq_zero_iff (m : GoMap κ ν) : len m = 0 ↔ m = [] := by
  cases m with
  | nil => simp [len, range]
  | cons e m => obtain ⟨k, v⟩ := e; simp [len, range]

/-- Writing the entries of a list with distinct keys into a map, one after the other. -/
theorem get?_foldl_set (g : μ → ν) (l : List (κ × μ)) (hl : (l.map Prod.fst).Nodup)
    (dst : GoMap κ ν) (p : κ) :
    get? (l.foldl (fun acc e => set acc e.1 (g e.2)) dst) p =
      match get? l p with
      | some v => some (g v)
      | none => get? dst p := by
  induction l generalizing dst with
  | nil => simp [get?]
  | cons e l ih =>
    obtain ⟨k, v⟩ := e
    simp only [List.map_cons, List.nodup_cons] at hl
    simp only [List.foldl_cons]
    rw [ih hl.2]
    by_cases h : k = p
    · subst h
      have hn : get? l k = none := (get?_eq_none_iff l k).mpr hl.1
      simp [get?, hn, get?_set_self]
    · simp [get?, h, get?_set_ne _ _ h]

theorem get?_copyInto (dst src : GoMap κ ν) (p : κ) :
    get? (copyInto dst src) p =
      match get? src p with
      | some v => some v
      | none => get? dst p := by
  have h := get?_foldl_set (fun v : ν => v) (range src) (range_nodupKeys src) dst p
  rw [get?_range] at h
  exact h

theorem get?_copyInto_nil (src : GoMap κ ν) (p : κ) :
    get? (copyInto ([] : GoMap κ ν) src) p = get? src p := by
  rw [get?_copyInto]
  cases get? src p <;> rfl

theorem isSome_get?_keysInto (dst : GoMap κ Unit) (src : GoMap κ μ) (p : κ) :
    (get? (keysInto dst src) p).isSome = ((get? src p).isSome || (get? dst p).isSome) := by
  have h := get?_foldl_set (fun _ : μ => ()) (range src) (range_nodupKeys src) dst p
  rw [get?_range] at h
  unfold keysInto
  rw [h]
  cases get? src p <;> simp

theorem set_eq_append_of_get?_eq_none (m : GoMap κ ν) (k : κ) (v : ν) (h : get? m k = none) :
    set m k v = m ++ [(k, v)] := by
  induction m with
  | nil => rfl
  | cons e m ih =>
    obtain ⟨k', v'⟩ := e
    by_cases hk : k' = k
    · simp [get?, hk] at h
    · simp only [get?, hk, if_false] at h
      simp [set, hk, ih h]

theorem range_append_of_get?_eq_none (m : GoMap κ ν) (k : κ) (v : ν) (h : get? m k = none) :
    range (m ++ [(k, v)]) = range m ++ [(k, v)] := by
  induction m with
  | nil => simp [range]
  | cons e m ih =>
    obtain ⟨k', v'⟩ := e
    by_cases hk : k' = k
    · simp [get?, hk] at h
    · simp only [get?, hk, if_false] at h
      have hk' : ¬ k = k' := fun hh => hk hh.symm
      simp [range, ih h, List.filter_append, hk']

theorem len_set_of_get?_eq_none (m : GoMap κ ν) (k : κ) (v : ν) (h : get? m k = none) :
    len (set m k v) = len m + 1 := by
  rw [set_eq_append_of_get?_eq_none m k v h]
  simp [len, range_append_of_get?_eq_none m k v h]

end GoMap

/-! ## Commit -/

/-- The tree `Commit` builds: the parent tree copied, then the Index entries written over it. -/
theorem get?_commit_tree (parentTree indexEntries : Files) (p : String) :
    GoMap.get? (GoMap.copyInto (GoMap.copyInto [] parentTree) indexEntries) p =
      match GoMap.get? indexEntries p with
      | some v => some v
      | none => GoMap.get? parentTree p := by
  rw [GoMap.get?_copyInto, GoMap.get?_copyInto_nil]
  cases GoMap.get? indexEntries p <;> rfl

/-- With a non-empty Index, `Commit` returns the generated id and the repository
with the new commit stored, the Index cleared and the HEAD branch retargeted. -/
theorem Commit_eq_ok (idGen : CommitIDGenerator) (now : Timestamp) (message : String)
    (repo : Repo) (h : GoMap.len repo.index.entries ≠ 0) :
    InMemoryEngine.Commit idGen now message repo =
      .ok (builtCommit idGen now message repo).id
        { repo with
          commits := GoMap.set repo.commits (builtCommit idGen now message repo).id
            (builtCommit idGen now message repo)
          index := { entries := [] }
          branches := branchesAfterCommit repo (builtCommit idGen now message repo).id } := by
  unfold InMemoryEngine.Commit
  simp only [h, if_false]
  cases hb : repo.head.branchName with
  | none => simp [Repo.AddCommit, Index.Clear, builtCommit, branchesAfterCommit, hb]
  | some bn =>
    cases hg : repo.GetBranch bn with
    | none =>
      simp [Repo.AddCommit, Index.Clear, builtCommit, branchesAfterCommit, hb, hg, Repo.GetBranch]
      simp [Repo.GetBranch] at hg
      simp [hg]
    | some br =>
      simp [Repo.AddCommit, Index.Clear, builtCommit, branchesAfterCommit, hb, hg, Repo.GetBranch]
      simp [Repo.GetBranch] at hg
      simp [hg]

theorem Commit_eq_err (idGen : CommitIDGenerator) (now : Timestamp) (message : String)
    (repo : Repo) (h : GoMap.len repo.index.entries = 0) :
    InMemoryEngine.Commit idGen now message repo = .err (.New errMsgNothingToCommit) repo := by
  unfold InMemoryEngine.Commit
  simp [h]

/-- With a non-empty Index, `Commit` succeeds and the commit it stores under the returned id
has, at every path, the staged content when the path is in the Index, and otherwise what the
tree returned by `currentCommit` has there. -/
theorem Commit_stores_overlay (idGen : CommitIDGenerator) (now : Timestamp) (message : String)
    (repo : Repo) (h : GoMap.len repo.index.entries ≠ 0) :
    ∃ id repo' commit,
      InMemoryEngine.Commit idGen now message repo = .ok id repo' ∧
      repo'.GetCommit id = some commit ∧
      ∀ p : String,
        (∀ v, GoMap.get? repo.index.entries p = some v → GoMap.get? commit.tree p = some v) ∧
        (GoMap.get? repo.index.entries p = none →
          GoMap.get? commit.tree p = GoMap.get? (currentCommit repo).2 p) := by
  refine ⟨_, _, builtCommit idGen now message repo, Commit_eq_ok idGen now message repo h, ?_, ?_⟩
  · simp [Repo.GetCommit, GoMap.get?_set_self]
  · intro p
    have ht := get?_commit_tree (currentCommit repo).2 repo.index.entries p
    constructor
    · intro v hv
      simp only [builtCommit]
      rw [ht, hv]
    · intro hn
      simp only [builtCommit]
      rw [ht, hn]

/-- C2. Empty-commit rejection: with an empty Index, whatever the working directory holds,
`Commit` returns the "nothing to commit" error, and the commit graph and the branches
are what they were. -/
theorem commit_empty_index_rejected (idGen : CommitIDGenerator) (now : Timestamp)
    (message : String) (repo : Repo) (h : GoMap.len repo.index.entries = 0) :
    ∃ repo', InMemoryEngine.Commit idGen now message repo = .err (.New errMsgNothingToCommit) repo' ∧
      repo'.commits = repo.commits ∧ repo'.branches = repo.branches := by
  exact ⟨repo, Commit_eq_err idGen now message repo h, rfl, rfl⟩

theorem commit_empty_index_rejected_witness :
    GoMap.len sampleRepoUnstaged.index.entries = 0 ∧
    ∃ repo', InMemoryEngine.Commit sampleIdGen 2 "second" sampleRepoUnstaged =
        .err (.New errMsgNothingToCommit) repo' ∧
      repo'.commits = sampleRepoUnstaged.commits ∧ repo'.branches = sampleRepoUnstaged.branches :=
  ⟨by decide, commit_empty_index_rejected sampleIdGen 2 "second" sampleRepoUnstaged (by decide)⟩

/-! ## Failure atomicity -/

/-- The staging loop of `Add` never resets `matched`. -/
theorem addLoop_matched (r : String → Bool) (l : List (String × String)) (s : Index × Bool)
    (hs : s.2 = true) :
    (l.foldl (fun s e => if r e.1 then (s.1.AddEntry e.1 e.2, true) else s) s).2 = true := by
  induction l generalizing s with
  | nil => simpa using hs
  | cons e l ih =>
    simp only [List.foldl_cons]
    apply ih
    by_cases hr : r e.1 = true
    · simp [hr]
    · simp [hr, hs]

/-- When the staging loop of `Add` ends with `matched` false it has not written to the Index. -/
theorem addLoop_unmatched (r : String → Bool) (l : List (String × String)) (s : Index × Bool)
    (h : (l.foldl (fun s e => if r e.1 then (s.1.AddEntry e.1 e.2, true) else s) s).2 = false) :
    l.foldl (fun s e => if r e.1 then (s.1.AddEntry e.1 e.2, true) else s) s = s := by
  induction l generalizing s with
  | nil => rfl
  | cons e l ih =>
    simp only [List.foldl_cons] at h ⊢
    by_cases hr : r e.1 = true
    · simp only [hr, if_true] at h
      rw [addLoop_matched r l _ rfl] at h
      cases h
    · simp only [hr] at h ⊢
      exact ih s h

theorem Add_err_unchanged (compile : RegexpCompile) (pattern : String) (repo : Repo)
    (e : Error) (repo' : Repo) (h : InMemoryEngine.Add compile pattern repo = .err e repo') :
    repo' = repo := by
  unfold InMemoryEngine.Add at h
  cases hw : GoMap.get? repo.workingDirectory.files pattern with
  | some content =>
    simp [hw] at h
  | none =>
    cases hc : compile pattern with
    | none =>
      simp [hw, hc] at h
      exact h.2.symm
    | some r =>
      simp only [hw, hc] at h
      by_cases hm : (List.foldl (fun s e => if r e.1 then (s.1.AddEntry e.1 e.2, true) else s)
          (repo.index, false) (GoMap.range repo.workingDirectory.files)).2 = true
      · simp [hm] at h
      · simp only [Bool.not_eq_true] at hm
        have hfold := addLoop_unmatched r (GoMap.range repo.workingDirectory.files)
          (repo.index, false) hm
        simp only [hm, Bool.not_false, if_true, Outcome.err.injEq] at h
        rw [← h.2, hfold]

theorem Commit_err_unchanged (idGen : CommitIDGenerator) (now : Timestamp) (message : String)
    (repo : Repo) (e : Error) (repo' : Repo)
    (h : InMemoryEngine.Commit idGen now message repo = .err e repo') : repo' = repo := by
  by_cases hl : GoMap.len repo.index.entries = 0
  · rw [Commit_eq_err idGen now message repo hl] at h
    simp only [Outcome.err.injEq] at h
    exact h.2.symm
  · rw [Commit_eq_ok idGen now message repo hl] at h
    cases h

theorem CreateBranch_err_unchanged (name : BranchName) (repo : Repo) (e : Error) (repo' : Repo)
    (h : InMemoryEngine.CreateBranch name repo = .err e repo') : repo' = repo := by
  unfold InMemoryEngine.CreateBranch at h
  split at h
  · simp only [Outcome.err.injEq] at h
    exact h.2.symm
  · dsimp only at h
    split at h
    · simp only [Outcome.err.injEq] at h
      exact h.2.symm
    · cases h

theorem CheckoutBranch_err_unchanged (name : BranchName) (repo : Repo) (e : Error) (repo' : Repo)
    (h : InMemoryEngine.CheckoutBranch name repo = .err e repo') : repo' = repo := by
  unfold InMemoryEngine.CheckoutBranch at h
  split at h
  · simp only [Outcome.err.injEq] at h
    exact h.2.symm
  · cases h

theorem Reset_err_unchanged (commitID : CommitID) (repo : Repo) (e : Error) (repo' : Repo)
    (h : InMemoryEngine.Reset commitID repo = .err e repo') : repo' = repo := by
  unfold InMemoryEngine.Reset at h
  split at h
  · simp only [Outcome.err.injEq] at h
    exact h.2.symm
  · split at h
    · simp only [Outcome.err.injEq] at h
      exact h.2.symm
    · split at h <;> cases h

/-- C3. Failure atomicity: whenever `Add`, `Commit`, `CreateBranch`, `CheckoutBranch` or
`Reset` returns an error, the repository the caller is left with (working directory, Index,
commit graph, branches and HEAD) is the one the call started from. -/
theorem failure_atomicity (repo : Repo) :
    (∀ compile pattern e repo', InMemoryEngine.Add compile pattern repo = .err e repo' →
      repo' = repo) ∧
    (∀ idGen now message e repo', InMemoryEngine.Commit idGen now message repo = .err e repo' →
      repo' = repo) ∧
    (∀ name e repo', InMemoryEngine.CreateBranch name repo = .err e repo' → repo' = repo) ∧
    (∀ name e repo', InMemoryEngine.CheckoutBranch name repo = .err e repo' → repo' = repo) ∧
    (∀ commitID e repo', InMemoryEngine.Reset commitID repo = .err e repo' → repo' = repo) :=
  ⟨fun compile pattern e repo' h => Add_err_unchanged compile pattern repo e repo' h,
   fun idGen now message e repo' h => Commit_err_unchanged idGen now message repo e repo' h,
   fun name e repo' h => CreateBranch_err_unchanged name repo e repo' h,
   fun name e repo' h => CheckoutBranch_err_unchanged name repo e repo' h,
   fun commitID e repo' h => Reset_err_unchanged commitID repo e repo' h⟩

theorem failure_atomicity_witness :
    (∃ e repo', InMemoryEngine.Add literalOnly "*.go" sampleRepo = .err e repo' ∧
      repo' = sampleRepo) ∧
    (∃ e repo', InMemoryEngine.Add suffixRegexp ".go" sampleRepo = .err e repo' ∧
      repo' = sampleRepo) ∧
    (∃ e repo', InMemoryEngine.Commit sampleIdGen 2 "second" sampleRepoUnstaged = .err e repo' ∧
      repo' = sampleRepoUnstaged) ∧
    (∃ e repo', InMemoryEngine.CreateBranch "main" sampleRepo = .err e repo' ∧
      repo' = sampleRepo) ∧
    (∃ e repo', InMemoryEngine.CheckoutBranch "feat" sampleRepo = .err e repo' ∧
      repo' = sampleRepo) ∧
    (∃ e repo', InMemoryEngine.Reset "c9" sampleRepo = .err e repo' ∧ repo' = sampleRepo) :=
  ⟨⟨.regexpCompile "*.go", sampleRepo, by decide,
      (failure_atomicity sampleRepo).1 literalOnly "*.go" (.regexpCompile "*.go") sampleRepo
        (by decide)⟩,
   ⟨.New errMsgNoMatchesForAdd, sampleRepo, by decide,
      (failure_atomicity sampleRepo).1 suffixRegexp ".go" (.New errMsgNoMatchesForAdd) sampleRepo
        (by decide)⟩,
   ⟨.New errMsgNothingToCommit, sampleRepoUnstaged, by decide,
      (failure_atomicity sampleRepoUnstaged).2.1 sampleIdGen 2 "second"
        (.New errMsgNothingToCommit) sampleRepoUnstaged (by decide)⟩,
   ⟨.New errMsgBranchExists, sampleRepo, by decide,
      (failure_atomicity sampleRepo).2.2.1 "main" (.New errMsgBranchExists) sampleRepo
        (by decide)⟩,
   ⟨.New errMsgNoSuchBranch, sampleRepo, by decide,
      (failure_atomicity sampleRepo).2.2.2.1 "feat" (.New errMsgNoSuchBranch) sampleRepo
        (by decide)⟩,
   ⟨.New errMsgNoSuchCommit, sampleRepo, by decide,
      (failure_atomicity sampleRepo).2.2.2.2 "c9" (.New errMsgNoSuchCommit) sampleRepo
        (by decide)⟩⟩

/-! ## Commit postcondition -/

/-- What `currentCommit` returns when HEAD is on an existing branch. -/
theorem currentCommit_on_branch (repo : Repo) (B : BranchName) (br : Branch)
    (hB : repo.head.branchName = some B) (hbr : repo.GetBranch B = some br) :
    currentCommit repo =
      if br.target = "" then ("", [])
      else
        match repo.GetCommit br.target with
        | none => ("", [])
        | some pc => (pc.id, pc.tree) := by
  unfold currentCommit
  simp only [hB, hbr]

/-- With HEAD on an existing branch `B` and a non-empty Index, in any state: `Commit` returns
the generated id and stores the new commit under it, with the message, the clock's time and
the parent list made of the id recorded in the commit stored under `B`'s target, when that
target is non-empty, is in the graph and the recorded id is non-empty; `B` targets the new
id; the Index is empty; the working directory, HEAD and every other branch are unchanged. -/
theorem Commit_postcondition_by_recorded_id (idGen : CommitIDGenerator) (now : Timestamp) (message : String)
    (repo : Repo) (B : BranchName) (br : Branch)
    (hB : repo.head.branchName = some B) (hbr : repo.GetBranch B = some br)
    (h : GoMap.len repo.index.entries ≠ 0) :
    ∃ repo' c,
      InMemoryEngine.Commit idGen now message repo = .ok c.id repo' ∧
      c.id = idGen c.tree c.parents now ∧
      repo'.GetCommit c.id = some c ∧
      c.message = message ∧ c.timestamp = now ∧
      c.parents =
        (match repo.GetCommit br.target with
         | some pc => if br.target ≠ "" ∧ pc.id ≠ "" then [pc.id] else []
         | none => []) ∧
      repo'.GetBranch B = some { name := br.name, target := c.id } ∧
      repo'.index.entries = [] ∧
      repo'.workingDirectory = repo.workingDirectory ∧
      repo'.head = repo.head ∧
      ∀ n, n ≠ B → repo'.GetBranch n = repo.GetBranch n := by
  refine ⟨_, builtCommit idGen now message repo, Commit_eq_ok idGen now message repo h,
    rfl, ?_, rfl, rfl, ?_, ?_, rfl, rfl, rfl, ?_⟩
  · simp [Repo.GetCommit, GoMap.get?_set_self]
  · simp only [builtCommit, currentCommit_on_branch repo B br hB hbr]
    by_cases ht : br.target = ""
    · cases repo.GetCommit br.target <;> simp [ht]
    · cases repo.GetCommit br.target with
      | none => simp [ht]
      | some pc => simp [ht]
  · have hbr' : GoMap.get? repo.branches B = some br := hbr
    simp [Repo.GetBranch, branchesAfterCommit, hB, hbr', GoMap.get?_set_self, Branch.SetTarget]
  · intro n hn
    have hbr' : GoMap.get? repo.branches B = some br := hbr
    have hne : B ≠ n := fun hh => hn hh.symm
    simp [Repo.GetBranch, branchesAfterCommit, hB, hbr', GoMap.get?_set_ne _ _ hne]

/-! ## The stores each operation leaves alone -/

theorem applyCommitToWorkingDirectory_commits (repo : Repo) (id : CommitID) :
    (applyCommitToWorkingDirectory repo id).commits = repo.commits := by
  unfold applyCommitToWorkingDirectory
  split
  · rfl
  · split <;> rfl

theorem applyCommitToWorkingDirectory_branches (repo : Repo) (id : CommitID) :
    (applyCommitToWorkingDirectory repo id).branches = repo.branches := by
  unfold applyCommitToWorkingDirectory
  split
  · rfl
  · split <;> rfl

theorem applyCommitToWorkingDirectory_head (repo : Repo) (id : CommitID) :
    (applyCommitToWorkingDirectory repo id).head = repo.head := by
  unfold applyCommitToWorkingDirectory
  split
  · rfl
  · split <;> rfl

theorem AddFileToWorkingDirectory_commits (path content : String) (repo repo' : Repo)
    (h : (InMemoryEngine.AddFileToWorkingDirectory path content repo).after = some repo') :
    repo'.commits = repo.commits := by
  simp only [InMemoryEngine.AddFileToWorkingDirectory, Outcome.after, Option.some.injEq] at h
  rw [← h]

theorem Add_commits (compile : RegexpCompile) (pattern : String) (repo repo' : Repo)
    (h : (InMemoryEngine.Add compile pattern repo).after = some repo') :
    repo'.commits = repo.commits := by
  unfold InMemoryEngine.Add at h
  dsimp only at h
  split at h
  · simp only [Outcome.after, Option.some.injEq] at h
    rw [← h]
  · split at h <;>
    · simp only [Outcome.after, Option.some.injEq] at h
      rw [← h]

theorem CreateBranch_commits (name : BranchName) (repo repo' : Repo)
    (h : (InMemoryEngine.CreateBranch name repo).after = some repo') :
    repo'.commits = repo.commits := by
  unfold InMemoryEngine.CreateBranch at h
  split at h
  · simp only [Outcome.after, Option.some.injEq] at h
    rw [← h]
  · dsimp only at h
    split at h <;>
    · simp only [Outcome.after, Option.some.injEq] at h
      rw [← h]
      try rfl

theorem CheckoutBranch_commits (name : BranchName) (repo repo' : Repo)
    (h : (InMemoryEngine.CheckoutBranch name repo).after = some repo') :
    repo'.commits = repo.commits := by
  unfold InMemoryEngine.CheckoutBranch at h
  split at h
  · simp only [Outcome.after, Option.some.injEq] at h
    rw [← h]
  · simp only [Outcome.after, Option.some.injEq] at h
    rw [← h]
    exact applyCommitToWorkingDirectory_commits repo _

theorem Reset_commits (commitID : CommitID) (repo repo' : Repo)
    (h : (InMemoryEngine.Reset commitID repo).after = some repo') :
    repo'.commits = repo.commits := by
  unfold InMemoryEngine.Reset at h
  split at h
  · simp only [Outcome.after, Option.some.injEq] at h
    rw [← h]
  · split at h
    · simp only [Outcome.after, Option.some.injEq] at h
      rw [← h]
    · split at h
      · simp [Outcome.after] at h
      · simp only [Outcome.after, Option.some.injEq] at h
        rw [← h]
        exact applyCommitToWorkingDirectory_commits _ _

theorem Status_after (repo : Repo) : (InMemoryEngine.Status repo).after = some repo := by
  unfold InMemoryEngine.Status
  rfl

theorem Log_after (fuel : Nat) (repo : Repo) (out : Outcome (List LogEntry))
    (h : InMemoryEngine.Log fuel repo = some out) : out.after = some repo := by
  unfold InMemoryEngine.Log at h
  split at h
  · simp only [Option.some.injEq] at h
    rw [← h]
    rfl
  · split at h
    · cases h
    · simp only [Option.some.injEq] at h
      rw [← h]
      rfl

/-- C5. Append-only commit graph: when the ids the generator returns are not yet keys of
the graph, a successful `Commit` stores its commit under a new key, keeps every earlier
entry as it was and makes the graph one entry larger; a failing `Commit` and every other
operation (`AddFileToWorkingDirectory`, `Add`, `CreateBranch`, `CheckoutBranch`, `Reset`,
`Status`, `Log`) leave the graph exactly as it was. -/
theorem commit_graph_append_only (repo : Repo) (idGen : CommitIDGenerator)
    (hfresh : ∀ tree parents t, repo.GetCommit (idGen tree parents t) = none) :
    (∀ now message id repo', InMemoryEngine.Commit idGen now message repo = .ok id repo' →
      repo.GetCommit id = none ∧ (repo'.GetCommit id).isSome = true ∧
      (∀ k c, repo.GetCommit k = some c → repo'.GetCommit k = some c) ∧
      (∀ k, k ≠ id → repo'.GetCommit k = repo.GetCommit k) ∧
      GoMap.len repo'.commits = GoMap.len repo.commits + 1) ∧
    (∀ now message e repo', InMemoryEngine.Commit idGen now message repo = .err e repo' →
      repo'.commits = repo.commits) ∧
    (∀ path content repo',
      (InMemoryEngine.AddFileToWorkingDirectory path content repo).after = some repo' →
      repo'.commits = repo.commits) ∧
    (∀ compile pattern repo', (InMemoryEngine.Add compile pattern repo).after = some repo' →
      repo'.commits = repo.commits) ∧
    (∀ name repo', (InMemoryEngine.CreateBranch name repo).after = some repo' →
      repo'.commits = repo.commits) ∧
    (∀ name repo', (InMemoryEngine.CheckoutBranch name repo).after = some repo' →
      repo'.commits = repo.commits) ∧
    (∀ commitID repo', (InMemoryEngine.Reset commitID repo).after = some repo' →
      repo'.commits = repo.commits) ∧
    (∀ repo', (InMemoryEngine.Status repo).after = some repo' → repo'.commits = repo.commits) ∧
    (∀ fuel out repo', InMemoryEngine.Log fuel repo = some out → out.after = some repo' →
      repo'.commits = repo.commits) := by
  refine ⟨?_, ?_, fun path content => AddFileToWorkingDirectory_commits path content repo,
    fun compile pattern => Add_commits compile pattern repo,
    fun name => CreateBranch_commits name repo, fun name => CheckoutBranch_commits name repo,
    fun commitID => Reset_commits commitID repo, ?_, ?_⟩
  · intro now message id repo' h
    by_cases hl : GoMap.len repo.index.entries = 0
    · rw [Commit_eq_err idGen now message repo hl] at h
      cases h
    · rw [Commit_eq_ok idGen now message repo hl] at h
      simp only [Outcome.ok.injEq] at h
      obtain ⟨hid, hrepo⟩ := h
      have hnew : repo.GetCommit id = none := by
        rw [← hid]
        exact hfresh _ _ _
      have hnew' : GoMap.get? repo.commits id = none := hnew
      have hc : repo'.commits = GoMap.set repo.commits id (builtCommit idGen now message repo) := by
        rw [← hrepo, hid]
      have hother : ∀ k, k ≠ id → repo'.GetCommit k = repo.GetCommit k := by
        intro k hk
        have hne : id ≠ k := fun hh => hk hh.symm
        simp only [Repo.GetCommit, hc]
        exact GoMap.get?_set_ne _ _ hne
      refine ⟨hnew, ?_, ?_, hother, ?_⟩
      · simp [Repo.GetCommit, hc, GoMap.get?_set_self]
      · intro k c hk
        have hne : k ≠ id := by
          intro hh
          rw [hh, hnew] at hk
          cases hk
        rw [hother k hne]
        exact hk
      · rw [hc]
        exact GoMap.len_set_of_get?_eq_none _ _ _ hnew'
  · intro now message e repo' h
    rw [Commit_err_unchanged idGen now message repo e repo' h]
  · intro repo' h
    rw [Status_after] at h
    simp only [Option.some.injEq] at h
    rw [← h]
  · intro fuel out repo' h h'
    rw [Log_after fuel repo out h] at h'
    simp only [Option.some.injEq] at h'
    rw [← h']

theorem commit_graph_append_only_witness :
    (∀ tree parents t, sampleRepo.GetCommit (constIdGen tree parents t) = none) ∧
    InMemoryEngine.Commit constIdGen 2 "second" sampleRepo = .ok "c2" sampleRepoCommitted ∧
    sampleRepo.GetCommit "c2" = none ∧ (sampleRepoCommitted.GetCommit "c2").isSome = true ∧
    (∀ k c, sampleRepo.GetCommit k = some c → sampleRepoCommitted.GetCommit k = some c) ∧
    (∀ k, k ≠ "c2" → sampleRepoCommitted.GetCommit k = sampleRepo.GetCommit k) ∧
    GoMap.len sampleRepoCommitted.commits = GoMap.len sampleRepo.commits + 1 :=
  ⟨fun _ _ _ => (by decide : sampleRepo.GetCommit "c2" = none), by decide,
    (commit_graph_append_only sampleRepo constIdGen
      (fun _ _ _ => (by decide : sampleRepo.GetCommit "c2" = none))).1 2 "second" "c2"
      sampleRepoCommitted (by decide)⟩

/-! ## Checkout and Reset -/

theorem foldl_AddFile_files (l : List (String × String)) (wd : WorkingDirectory) :
    (l.foldl (fun w e => w.AddFile e.1 e.2) wd).files =
      l.foldl (fun acc e => GoMap.set acc e.1 e.2) wd.files := by
  induction l generalizing wd with
  | nil => rfl
  | cons e l ih =>
    simp only [List.foldl_cons]
    rw [ih]
    rfl

/-- The working directory `applyCommitToWorkingDirectory` leaves: cleared, then filled from
the tree of the commit `id` unless `id` is empty or not in the graph. -/
theorem applyCommitToWorkingDirectory_files (repo : Repo) (id : CommitID) :
    (applyCommitToWorkingDirectory repo id).workingDirectory.files =
      if id = "" then []
      else
        match repo.GetCommit id with
        | none => []
        | some commit => GoMap.copyInto [] commit.tree := by
  unfold applyCommitToWorkingDirectory
  by_cases hid : id = ""
  · simp [hid, WorkingDirectory.Clear]
  · simp only [hid, if_false]
    cases repo.GetCommit id with
    | none => simp [WorkingDirectory.Clear]
    | some commit =>
      simp only [foldl_AddFile_files]
      rfl

theorem applyCommitToWorkingDirectory_index (repo : Repo) (id : CommitID) :
    (applyCommitToWorkingDirectory repo id).index = repo.index := by
  unfold applyCommitToWorkingDirectory
  split
  · rfl
  · split <;> rfl

theorem CheckoutBranch_eq_ok (name : BranchName) (repo : Repo) (br : Branch)
    (hb : repo.GetBranch name = some br) :
    InMemoryEngine.CheckoutBranch name repo =
      .ok () { applyCommitToWorkingDirectory repo br.target with
               head := { branchName := some name, commitID := none }
               index := { entries := [] } } := by
  simp only [InMemoryEngine.CheckoutBranch, hb, Index.Clear]

theorem Reset_eq_ok (commitID : CommitID) (repo : Repo) (B : BranchName) (br : Branch)
    (c : VCS.Commit) (hB : repo.head.branchName = some B) (hbr : repo.GetBranch B = some br)
    (hc : repo.GetCommit commitID = some c) :
    InMemoryEngine.Reset commitID repo =
      .ok () { applyCommitToWorkingDirectory
                 { repo with branches := GoMap.set repo.branches B (br.SetTarget commitID) }
                 commitID with
               index := { entries := [] } } := by
  simp only [InMemoryEngine.Reset, hB, hc, hbr, Index.Clear]

/-- C6. CheckoutBranch contract: `CheckoutBranch(n)` returns an error exactly when `n` is not
a key of Branches, and the error is "no such branch"; otherwise it succeeds, the working
directory is empty when `n` has the empty target and has exactly the entries of the tree of
the commit `n` targets when there is one (and empty when the target is not in the graph),
HEAD is on `n` with no detached commit id, the
Index is empty, and the commit graph and the branches are unchanged. -/
theorem checkout_branch_contract (name : BranchName) (repo : Repo) :
    (repo.GetBranch name = none →
      InMemoryEngine.CheckoutBranch name repo = .err (.New errMsgNoSuchBranch) repo) ∧
    (∀ e repo', InMemoryEngine.CheckoutBranch name repo = .err e repo' →
      repo.GetBranch name = none) ∧
    (∀ br, repo.GetBranch name = some br →
      ∃ repo', InMemoryEngine.CheckoutBranch name repo = .ok () repo' ∧
        (br.target = "" → repo'.workingDirectory.files = []) ∧
        (∀ c, br.target ≠ "" → repo.GetCommit br.target = some c →
          ∀ p, GoMap.get? repo'.workingDirectory.files p = GoMap.get? c.tree p) ∧
        (repo.GetCommit br.target = none → repo'.workingDirectory.files = []) ∧
        repo'.head = { branchName := some name, commitID := none } ∧
        repo'.index.entries = [] ∧
        repo'.commits = repo.commits ∧
        repo'.branches = repo.branches) := by
  refine ⟨?_, ?_, ?_⟩
  · intro h
    simp [InMemoryEngine.CheckoutBranch, h]
  · intro e repo' h
    cases hb : repo.GetBranch name with
    | none => rfl
    | some br => simp [InMemoryEngine.CheckoutBranch, hb] at h
  · intro br hb
    refine ⟨_, CheckoutBranch_eq_ok name repo br hb, ?_, ?_, ?_, rfl, rfl, ?_, ?_⟩
    · intro ht
      simp [applyCommitToWorkingDirectory_files, ht]
    · intro c ht hc p
      simp only [applyCommitToWorkingDirectory_files, ht, if_false, hc]
      exact GoMap.get?_copyInto_nil c.tree p
    · intro hc
      simp [applyCommitToWorkingDirectory_files, hc]
    · exact applyCommitToWorkingDirectory_commits repo br.target
    · exact applyCommitToWorkingDirectory_branches repo br.target

theorem checkout_branch_contract_witness :
    sampleRepo.GetBranch "main" = some { name := "main", target := "c1" } ∧
    ∃ repo', InMemoryEngine.CheckoutBranch "main" sampleRepo = .ok () repo' ∧
      ("c1" = "" → repo'.workingDirectory.files = []) ∧
      (∀ c, "c1" ≠ "" → sampleRepo.GetCommit "c1" = some c →
        ∀ p, GoMap.get? repo'.workingDirectory.files p = GoMap.get? c.tree p) ∧
      (sampleRepo.GetCommit "c1" = none → repo'.workingDirectory.files = []) ∧
      repo'.head = { branchName := some "main", commitID := none } ∧
      repo'.index.entries = [] ∧
      repo'.commits = sampleRepo.commits ∧
      repo'.branches = sampleRepo.branches :=
  ⟨by decide,
    (checkout_branch_contract "main" sampleRepo).2.2 { name := "main", target := "c1" }
      (by decide)⟩

/-- C7, as it holds on the code. Reset contract: `Reset(c)` fails with the detached-HEAD
error when HEAD is not on a branch, and otherwise with "no such commit" when `c` is not in
the graph; otherwise, with HEAD on an existing branch `B`, it succeeds, `B` targets `c`, the
working directory has exactly the entries of the tree of commit `c` when `c` is not the
empty id and is empty when `c` is the empty id, the Index is empty, and HEAD, the commit
graph and every other branch are unchanged. -/
theorem reset_contract (commitID : CommitID) (repo : Repo) :
    (repo.head.branchName = none →
      InMemoryEngine.Reset commitID repo = .err (.New errMsgResetDetachedHead) repo) ∧
    (repo.head.branchName ≠ none → repo.GetCommit commitID = none →
      InMemoryEngine.Reset commitID repo = .err (.New errMsgNoSuchCommit) repo) ∧
    (∀ B br c, repo.head.branchName = some B → repo.GetBranch B = some br →
      repo.GetCommit commitID = some c →
      ∃ repo', InMemoryEngine.Reset commitID repo = .ok () repo' ∧
        repo'.GetBranch B = some { name := br.name, target := commitID } ∧
        (commitID ≠ "" →
          ∀ p, GoMap.get? repo'.workingDirectory.files p = GoMap.get? c.tree p) ∧
        (commitID = "" → repo'.workingDirectory.files = []) ∧
        repo'.index.entries = [] ∧
        repo'.head = repo.head ∧
        repo'.commits = repo.commits ∧
        ∀ n, n ≠ B → repo'.GetBranch n = repo.GetBranch n) := by
  refine ⟨?_, ?_, ?_⟩
  · intro h
    simp [InMemoryEngine.Reset, h]
  · intro hB hc
    cases hb : repo.head.branchName with
    | none => exact absurd hb hB
    | some B => simp [InMemoryEngine.Reset, hb, hc]
  · intro B br c hB hbr hc
    have hc' : GoMap.get? repo.commits commitID = some c := hc
    refine ⟨_, Reset_eq_ok commitID repo B br c hB hbr hc, ?_, ?_, ?_, rfl, ?_, ?_, ?_⟩
    · simp [Repo.GetBranch, applyCommitToWorkingDirectory_branches, GoMap.get?_set_self,
        Branch.SetTarget]
    · intro hne p
      simp only [applyCommitToWorkingDirectory_files, hne, if_false, Repo.GetCommit, hc']
      exact GoMap.get?_copyInto_nil c.tree p
    · intro he
      simp [applyCommitToWorkingDirectory_files, he]
    · simp [applyCommitToWorkingDirectory_head]
    · simp [applyCommitToWorkingDirectory_commits]
    · intro n hn
      have hne : B ≠ n := fun hh => hn hh.symm
      simp [Repo.GetBranch, applyCommitToWorkingDirectory_branches, GoMap.get?_set_ne _ _ hne]

theorem reset_contract_witness :
    sampleRepo.head.branchName = some "main" ∧
    sampleRepo.GetBranch "main" = some { name := "main", target := "c1" } ∧
    sampleRepo.GetCommit "c1" =
      some { id := "c1", parents := [], message := "first", timestamp := 1,
             tree := [("a.txt", "1"), ("b.txt", "2")] } ∧
    ∃ repo', InMemoryEngine.Reset "c1" sampleRepo = .ok () repo' ∧
      repo'.GetBranch "main" = some { name := "main", target := "c1" } ∧
      ("c1" ≠ "" →
        ∀ p, GoMap.get? repo'.workingDirectory.files p =
          GoMap.get? [("a.txt", "1"), ("b.txt", "2")] p) ∧
      ("c1" = "" → repo'.workingDirectory.files = []) ∧
      repo'.index.entries = [] ∧
      repo'.head = sampleRepo.head ∧
      repo'.commits = sampleRepo.commits ∧
      ∀ n, n ≠ "main" → repo'.GetBranch n = sampleRepo.GetBranch n :=
  ⟨by decide, by decide, by decide,
    (reset_contract "c1" sampleRepo).2.2 "main" { name := "main", target := "c1" }
      { id := "c1", parents := [], message := "first", timestamp := 1,
        tree := [("a.txt", "1"), ("b.txt", "2")] }
      (by decide) (by decide) (by decide)⟩

/-- C7, as stated, fails: `emptyIdRepo` is what the engine reaches from `NewRepo` when the
generator answers the empty id; there HEAD is on the existing branch `main` and the empty id
is a key of the graph, whose commit has `a.txt` in its tree, yet `Reset("")` succeeds and
leaves the working directory empty. -/
theorem reset_contract_counterexample :
    InMemoryEngine.AddFileToWorkingDirectory "a.txt" "1" NewRepo =
      .ok () { NewRepo with workingDirectory := { files := [("a.txt", "1")] } } ∧
    InMemoryEngine.Add literalOnly "a.txt"
      { NewRepo with workingDirectory := { files := [("a.txt", "1")] } } =
      .ok () stagedFirstRepo ∧
    InMemoryEngine.Commit emptyIdGen 1 "first" stagedFirstRepo = .ok "" emptyIdRepo ∧
    emptyIdRepo.head.branchName = some "main" ∧
    (emptyIdRepo.GetBranch "main").isSome = true ∧
    emptyIdRepo.GetCommit "" =
      some { id := "", parents := [], message := "first", timestamp := 1,
             tree := [("a.txt", "1")] } ∧
    InMemoryEngine.Reset "" emptyIdRepo =
      .ok () { emptyIdRepo with workingDirectory := { files := [] } } ∧
    GoMap.get? ([] : Files) "a.txt" ≠ GoMap.get? [("a.txt", "1")] "a.txt" := by
  refine ⟨by decide, by decide, by decide, by decide, by decide, by decide, by decide, by decide⟩

/-! ## CreateBranch -/

/-- In any state: `CreateBranch(n)` fails with "branch already exists" when `n` is a key of
Branches; otherwise it fails with "no current commit" unless HEAD is on an existing branch
whose target is non-empty and is the key of a stored commit that records a non-empty id; in
that last case it succeeds, Branches gains exactly the entry `n`, targeting the id recorded in
that commit, and everything else is unchanged. -/
theorem CreateBranch_by_recorded_id (name : BranchName) (repo : Repo) :
    (∀ b, repo.GetBranch name = some b →
      InMemoryEngine.CreateBranch name repo = .err (.New errMsgBranchExists) repo) ∧
    (repo.GetBranch name = none →
      (¬ ∃ B br pc, repo.head.branchName = some B ∧ repo.GetBranch B = some br ∧
          br.target ≠ "" ∧ repo.GetCommit br.target = some pc ∧ pc.id ≠ "") →
      InMemoryEngine.CreateBranch name repo = .err (.New errMsgNoCurrentCommit) repo) ∧
    (repo.GetBranch name = none →
      ∀ B br pc, repo.head.branchName = some B → repo.GetBranch B = some br →
        br.target ≠ "" → repo.GetCommit br.target = some pc → pc.id ≠ "" →
        ∃ repo', InMemoryEngine.CreateBranch name repo = .ok () repo' ∧
          repo'.GetBranch name = some { name := name, target := pc.id } ∧
          (∀ n, n ≠ name → repo'.GetBranch n = repo.GetBranch n) ∧
          GoMap.len repo'.branches = GoMap.len repo.branches + 1 ∧
          repo'.head = repo.head ∧
          repo'.workingDirectory = repo.workingDirectory ∧
          repo'.index = repo.index ∧
          repo'.commits = repo.commits) := by
  refine ⟨?_, ?_, ?_⟩
  · intro b hb
    simp [InMemoryEngine.CreateBranch, hb]
  · intro hn hno
    have hid : (currentCommit repo).1 = "" := by
      cases hB : repo.head.branchName with
      | none => simp [currentCommit, hB]
      | some B =>
        cases hbr : repo.GetBranch B with
        | none => simp [currentCommit, hB, hbr]
        | some br =>
          rw [currentCommit_on_branch repo B br hB hbr]
          by_cases ht : br.target = ""
          · simp [ht]
          · cases hc : repo.GetCommit br.target with
            | none => simp [ht]
            | some pc =>
              simp only [ht, if_false]
              by_contra hne
              exact hno ⟨B, br, pc, hB, hbr, ht, hc, hne⟩
    simp [InMemoryEngine.CreateBranch, hn, hid]
  · intro hn B br pc hB hbr ht hc hne
    have hcur : currentCommit repo = (pc.id, pc.tree) := by
      rw [currentCommit_on_branch repo B br hB hbr]
      simp [ht, hc]
    have hn' : GoMap.get? repo.branches name = none := hn
    refine ⟨repo.AddBranch name { name := name, target := pc.id }, ?_, ?_, ?_, ?_,
      rfl, rfl, rfl, rfl⟩
    · simp [InMemoryEngine.CreateBranch, hn, hcur, hne]
    · simp [Repo.GetBranch, Repo.AddBranch, GoMap.get?_set_self]
    · intro n hnn
      have hne' : name ≠ n := fun hh => hnn hh.symm
      simp [Repo.GetBranch, Repo.AddBranch, GoMap.get?_set_ne _ _ hne']
    · exact GoMap.len_set_of_get?_eq_none _ _ _ hn'

/-! ## Status -/

theorem Status_eq (repo : Repo) :
    InMemoryEngine.Status repo =
      .ok { HeadDescription := (describeHead repo).1
            Files := (statusPaths repo).map
              (statusEntry repo.workingDirectory.files repo.index.entries
                (statusCommitTree repo)) } repo := by
  rfl

/-- The tree `Status` reads is, path by path, the tree `currentCommit` returns. -/
theorem get?_statusCommitTree (repo : Repo) (p : String) :
    GoMap.get? (statusCommitTree repo) p = GoMap.get? (currentCommit repo).2 p := by
  unfold statusCommitTree describeHead currentCommit
  cases hB : repo.head.branchName with
  | none => rfl
  | some B =>
    cases hbr : repo.GetBranch B with
    | none => simp only [hbr]
    | some br =>
      by_cases ht : br.target = ""
      · simp only [hbr, ht, if_true]
      · cases hc : repo.GetCommit br.target with
        | none => simp only [hbr, ht, if_false, hc]
        | some c =>
          simp only [hbr, ht, if_false, hc]
          exact GoMap.get?_copyInto_nil c.tree p

/-- C9. Status flag definitions: `Status` returns, and for every entry `f` it lists, with
path `p`: `Staged` holds iff `p` is in the Index; `Untracked` holds iff `p` is in the working
directory and in neither the current commit's tree nor the Index; `Modified` holds iff `p`
is staged and the working directory has `p` with other content than the staged one, or `p`
is not staged, the working directory has `p`, and the current tree lacks `p` or has other
content for it. -/
theorem status_flags (repo : Repo) :
    ∃ res, InMemoryEngine.Status repo = .ok res repo ∧
      ∀ f, f ∈ res.Files →
        (f.Staged = true ↔ (GoMap.get? repo.index.entries f.Path).isSome = true) ∧
        (f.Untracked = true ↔
          (GoMap.get? repo.workingDirectory.files f.Path).isSome = true ∧
          GoMap.get? (currentCommit repo).2 f.Path = none ∧
          GoMap.get? repo.index.entries f.Path = none) ∧
        (f.Modified = true ↔
          (∃ s w, GoMap.get? repo.index.entries f.Path = some s ∧
            GoMap.get? repo.workingDirectory.files f.Path = some w ∧ w ≠ s) ∨
          (GoMap.get? repo.index.entries f.Path = none ∧
            ∃ w, GoMap.get? repo.workingDirectory.files f.Path = some w ∧
              (GoMap.get? (currentCommit repo).2 f.Path = none ∨
               ∃ t, GoMap.get? (currentCommit repo).2 f.Path = some t ∧ w ≠ t))) := by
  refine ⟨_, Status_eq repo, ?_⟩
  intro f hf
  simp only [List.mem_map] at hf
  obtain ⟨path, -, rfl⟩ := hf
  simp only [statusEntry, get?_statusCommitTree]
  cases GoMap.get? repo.index.entries path with
  | none =>
    cases GoMap.get? repo.workingDirectory.files path with
    | none => simp
    | some w =>
      cases GoMap.get? (currentCommit repo).2 path with
      | none => simp
      | some t =>
        simp only [Option.isSome_some, Option.isSome_none, Option.getD_some]
        constructor
        · simp
        · constructor
          · simp
          · simp
            exact ⟨fun h hh => h hh.symm, fun h hh => h hh.symm⟩
  | some s =>
    cases GoMap.get? repo.workingDirectory.files path with
    | none => simp
    | some w => simp

/-- C10. Status path completeness: `Status` returns, no path occurs twice among its entries,
and a path occurs among them iff it is in the current commit's tree, in the Index or in the
working directory. -/
theorem status_paths_complete (repo : Repo) :
    ∃ res, InMemoryEngine.Status repo = .ok res repo ∧
      (res.Files.map FileStatus.Path).Nodup ∧
      ∀ p, p ∈ res.Files.map FileStatus.Path ↔
        ((GoMap.get? (currentCommit repo).2 p).isSome = true ∨
         (GoMap.get? repo.index.entries p).isSome = true ∨
         (GoMap.get? repo.workingDirectory.files p).isSome = true) := by
  have hpaths : ((statusPaths repo).map
      (statusEntry repo.workingDirectory.files repo.index.entries
        (statusCommitTree repo))).map FileStatus.Path = statusPaths repo := by
    rw [List.map_map]
    have : (FileStatus.Path ∘ statusEntry repo.workingDirectory.files repo.index.entries
        (statusCommitTree repo)) = id := by
      funext path
      rfl
    rw [this, List.map_id]
  refine ⟨_, Status_eq repo, ?_, ?_⟩
  · show (((statusPaths repo).map _).map FileStatus.Path).Nodup
    rw [hpaths]
    exact GoMap.range_nodupKeys _
  · intro p
    show p ∈ ((statusPaths repo).map _).map FileStatus.Path ↔ _
    rw [hpaths]
    unfold statusPaths
    rw [GoMap.mem_keys_range_iff, GoMap.isSome_get?_keysInto, GoMap.isSome_get?_keysInto,
      GoMap.isSome_get?_keysInto, get?_statusCommitTree]
    simp only [GoMap.get?, Option.isSome_none, Bool.or_false, Bool.or_eq_true]
    tauto

theorem status_flags_witness :
    InMemoryEngine.Status sampleRepo =
      .ok { HeadDescription := "main"
            Files :=
              [{ Path := "a.txt", Staged := true, Modified := true, Untracked := false },
               { Path := "b.txt", Staged := false, Modified := false, Untracked := false },
               { Path := "c.txt", Staged := true, Modified := false, Untracked := false },
               { Path := "d.txt", Staged := false, Modified := true, Untracked := true }] }
        sampleRepo ∧
    ∃ res, InMemoryEngine.Status sampleRepo = .ok res sampleRepo ∧
      ∀ f, f ∈ res.Files →
        (f.Staged = true ↔ (GoMap.get? sampleRepo.index.entries f.Path).isSome = true) ∧
        (f.Untracked = true ↔
          (GoMap.get? sampleRepo.workingDirectory.files f.Path).isSome = true ∧
          GoMap.get? (currentCommit sampleRepo).2 f.Path = none ∧
          GoMap.get? sampleRepo.index.entries f.Path = none) ∧
        (f.Modified = true ↔
          (∃ s w, GoMap.get? sampleRepo.index.entries f.Path = some s ∧
            GoMap.get? sampleRepo.workingDirectory.files f.Path = some w ∧ w ≠ s) ∨
          (GoMap.get? sampleRepo.index.entries f.Path = none ∧
            ∃ w, GoMap.get? sampleRepo.workingDirectory.files f.Path = some w ∧
              (GoMap.get? (currentCommit sampleRepo).2 f.Path = none ∨
               ∃ t, GoMap.get? (currentCommit sampleRepo).2 f.Path = some t ∧ w ≠ t))) :=
  ⟨by decide, status_flags sampleRepo⟩

theorem status_paths_complete_witness :
    (∃ res, InMemoryEngine.Status sampleRepo = .ok res sampleRepo ∧
      res.Files.map FileStatus.Path = ["a.txt", "b.txt", "c.txt", "d.txt"]) ∧
    ∃ res, InMemoryEngine.Status sampleRepo = .ok res sampleRepo ∧
      (res.Files.map FileStatus.Path).Nodup ∧
      ∀ p, p ∈ res.Files.map FileStatus.Path ↔
        ((GoMap.get? (currentCommit sampleRepo).2 p).isSome = true ∨
         (GoMap.get? sampleRepo.index.entries p).isSome = true ∨
         (GoMap.get? sampleRepo.workingDirectory.files p).isSome = true) :=
  ⟨⟨_, Status_eq sampleRepo, by decide⟩, status_paths_complete sampleRepo⟩

/-! ## Status classification -/

/-- The flags `Status` gives one path: an untracked path is also marked modified, and is not
staged. -/
theorem statusEntry_untracked (wdFiles indexEntries commitTree : Files) (path : String)
    (h : (statusEntry wdFiles indexEntries commitTree path).Untracked = true) :
    (statusEntry wdFiles indexEntries commitTree path).Modified = true ∧
    (statusEntry wdFiles indexEntries commitTree path).Staged = false := by
  cases hi : GoMap.get? indexEntries path with
  | some s => simp [statusEntry, hi] at h
  | none =>
    cases hw : GoMap.get? wdFiles path with
    | none => simp [statusEntry, hw] at h
    | some w =>
      cases hc : GoMap.get? commitTree path with
      | none => simp [statusEntry, hi, hw, hc]
      | some t => simp [statusEntry, hc] at h

/-- C11, as it holds on the code. Status classification: `Status` returns, and for every
entry it lists exactly one of these four applies: untracked (`Untracked` set); staged
(`Staged` set, possibly together with `Modified`); modified (`Modified` set, neither
`Staged` nor `Untracked`); committed-unmodified (no flag set). `Untracked` is never set
together with `Staged`, and is always set together with `Modified`. -/
theorem status_classification (repo : Repo) :
    ∃ res, InMemoryEngine.Status repo = .ok res repo ∧
      ∀ f, f ∈ res.Files →
        (f.Untracked = true → f.Staged = false ∧ f.Modified = true) ∧
        ((f.Untracked = true ∧ ¬ f.Staged = true ∧
            ¬ (f.Modified = true ∧ f.Staged = false ∧ f.Untracked = false) ∧
            ¬ (f.Untracked = false ∧ f.Staged = false ∧ f.Modified = false)) ∨
         (¬ f.Untracked = true ∧ f.Staged = true ∧
            ¬ (f.Modified = true ∧ f.Staged = false ∧ f.Untracked = false) ∧
            ¬ (f.Untracked = false ∧ f.Staged = false ∧ f.Modified = false)) ∨
         (¬ f.Untracked = true ∧ ¬ f.Staged = true ∧
            (f.Modified = true ∧ f.Staged = false ∧ f.Untracked = false) ∧
            ¬ (f.Untracked = false ∧ f.Staged = false ∧ f.Modified = false)) ∨
         (¬ f.Untracked = true ∧ ¬ f.Staged = true ∧
            ¬ (f.Modified = true ∧ f.Staged = false ∧ f.Untracked = false) ∧
            (f.Untracked = false ∧ f.Staged = false ∧ f.Modified = false))) := by
  refine ⟨_, Status_eq repo, ?_⟩
  intro f hf
  simp only [List.mem_map] at hf
  obtain ⟨path, -, rfl⟩ := hf
  have hu := statusEntry_untracked repo.workingDirectory.files repo.index.entries
    (statusCommitTree repo) path
  generalize statusEntry repo.workingDirectory.files repo.index.entries
    (statusCommitTree repo) path = f at hu
  obtain ⟨p, s, m, u⟩ := f
  cases u <;> cases s <;> cases m <;> simp_all

/-- C11, as stated, fails: in `sampleRepo` the path `d.txt` is only in the working directory,
and `Status` lists it with both `Untracked` and `Modified` set, so the classifications
"untracked" and "modified (`Modified` set, not `Staged`)" both apply to it. -/
theorem status_classification_counterexample :
    ∃ res f, InMemoryEngine.Status sampleRepo = .ok res sampleRepo ∧ f ∈ res.Files ∧
      f.Path = "d.txt" ∧ f.Untracked = true ∧ f.Modified = true ∧ f.Staged = false :=
  ⟨_, { Path := "d.txt", Staged := false, Modified := true, Untracked := true },
    Status_eq sampleRepo, by decide, rfl, rfl, rfl, rfl⟩

/-! ## Add -/

/-- The staging loop of `Add`: `matched` ends true iff it started true or some visited path
matches. -/
theorem addLoop_snd (r : String → Bool) (l : List (String × String)) (s : Index × Bool) :
    (l.foldl (fun s e => if r e.1 then (s.1.AddEntry e.1 e.2, true) else s) s).2 =
      (s.2 || l.any (fun e => r e.1)) := by
  induction l generalizing s with
  | nil => simp
  | cons e l ih =>
    simp only [List.foldl_cons, List.any_cons]
    rw [ih]
    by_cases hr : r e.1 = true
    · simp [hr]
    · simp [hr]

/-- The staging loop of `Add` leaves alone every path it does not visit or that does not
match. -/
theorem addLoop_get?_other (r : String → Bool) (l : List (String × String)) (s : Index × Bool)
    (p : String) (h : GoMap.get? l p = none ∨ r p = false) :
    GoMap.get? (l.foldl (fun s e => if r e.1 then (s.1.AddEntry e.1 e.2, true) else s) s).1.entries
      p = GoMap.get? s.1.entries p := by
  induction l generalizing s with
  | nil => rfl
  | cons e l ih =>
    obtain ⟨k, v⟩ := e
    simp only [List.foldl_cons]
    have h' : GoMap.get? l p = none ∨ r p = false := by
      rcases h with h | h
      · by_cases hk : k = p
        · simp [GoMap.get?, hk] at h
        · simp only [GoMap.get?, hk, if_false] at h
          exact Or.inl h
      · exact Or.inr h
    rw [ih _ h']
    by_cases hr : r k = true
    · have hk : k ≠ p := by
        intro hk
        subst hk
        rcases h with h | h
        · simp [GoMap.get?] at h
        · rw [h] at hr
          cases hr
      simp only [hr, if_true, Index.AddEntry]
      exact GoMap.get?_set_ne _ _ hk
    · simp [hr]

/-- The staging loop of `Add`, over entries with distinct paths, stages the visited content of
every matching path. -/
theorem addLoop_get?_matching (r : String → Bool) (l : List (String × String))
    (hl : (l.map Prod.fst).Nodup) (s : Index × Bool) (p c : String)
    (hp : GoMap.get? l p = some c) (hr : r p = true) :
    GoMap.get? (l.foldl (fun s e => if r e.1 then (s.1.AddEntry e.1 e.2, true) else s) s).1.entries
      p = some c := by
  induction l generalizing s with
  | nil => simp [GoMap.get?] at hp
  | cons e l ih =>
    obtain ⟨k, v⟩ := e
    simp only [List.map_cons, List.nodup_cons] at hl
    simp only [List.foldl_cons]
    by_cases hk : k = p
    · subst hk
      simp only [GoMap.get?, if_true, Option.some.injEq] at hp
      subst hp
      have hn : GoMap.get? l k = none := (GoMap.get?_eq_none_iff l k).mpr hl.1
      rw [addLoop_get?_other r l _ k (Or.inl hn)]
      simp only [hr, if_true, Index.AddEntry]
      exact GoMap.get?_set_self _ _ _
    · simp only [GoMap.get?, hk, if_false] at hp
      exact ih hl.2 _ hp

/-- Some working-directory path matches iff the loop of `Add` finds one. -/
theorem any_range_iff (r : String → Bool) (m : Files) :
    (GoMap.range m).any (fun e => r e.1) = true ↔
      ∃ p, (GoMap.get? m p).isSome = true ∧ r p = true := by
  simp only [List.any_eq_true]
  constructor
  · rintro ⟨e, he, hr⟩
    refine ⟨e.1, ?_, hr⟩
    rw [← GoMap.mem_keys_range_iff]
    exact List.mem_map_of_mem Prod.fst he
  · rintro ⟨p, hp, hr⟩
    rw [← GoMap.mem_keys_range_iff, List.mem_map] at hp
    obtain ⟨e, he, rfl⟩ := hp
    exact ⟨e, he, hr⟩

/-- What `Add` returns for a literal path of the working directory. -/
theorem Add_literal (compile : RegexpCompile) (s : String) (repo : Repo) (content : String)
    (h : GoMap.get? repo.workingDirectory.files s = some content) :
    InMemoryEngine.Add compile s repo =
      .ok () { repo with index := repo.index.AddEntry s content } := by
  simp [InMemoryEngine.Add, h]

/-- What `Add` returns for a string that is no literal path and no valid pattern. -/
theorem Add_invalid (compile : RegexpCompile) (s : String) (repo : Repo)
    (h : GoMap.get? repo.workingDirectory.files s = none) (hc : compile s = none) :
    InMemoryEngine.Add compile s repo = .err (.regexpCompile s) repo := by
  simp [InMemoryEngine.Add, h, hc]

/-- What `Add` returns for a valid pattern that is no literal path. -/
theorem Add_pattern (compile : RegexpCompile) (s : String) (repo : Repo) (r : String → Bool)
    (h : GoMap.get? repo.workingDirectory.files s = none) (hc : compile s = some r) :
    InMemoryEngine.Add compile s repo =
      if (GoMap.range repo.workingDirectory.files).any (fun e => r e.1) = true then
        .ok () { repo with index :=
          ((GoMap.range repo.workingDirectory.files).foldl
            (fun s e => if r e.1 then (s.1.AddEntry e.1 e.2, true) else s)
            (repo.index, false)).1 }
      else .err (.New errMsgNoMatchesForAdd) repo := by
  have hsnd := addLoop_snd r (GoMap.range repo.workingDirectory.files) (repo.index, false)
  simp only [Bool.false_or] at hsnd
  by_cases hany : (GoMap.range repo.workingDirectory.files).any (fun e => r e.1) = true
  · rw [hany] at hsnd
    simp only [InMemoryEngine.Add, h, hc, hsnd, hany, if_true]
    simp
  · simp only [Bool.not_eq_true] at hany
    rw [hany] at hsnd
    have hfold := addLoop_unmatched r (GoMap.range repo.workingDirectory.files)
      (repo.index, false) hsnd
    simp only [InMemoryEngine.Add, h, hc, hsnd, hany]
    simp [hfold]

/-- C13. Add contract, for any `regexp.Compile`. A literal path `s` of the working directory
is staged alone, with its working-directory content, whatever `s` is as a pattern. Otherwise
`Add(s)` fails with the pattern error iff `s` is not a valid pattern, fails with "no files
matched" iff `s` is valid and matches no working-directory path, and otherwise succeeds and
stages every matching working-directory path with its content. In both successes every other
Index entry, the working directory, the commit graph, the branches and HEAD are unchanged. -/
theorem add_contract (compile : RegexpCompile) (s : String) (repo : Repo) :
    (∀ content, GoMap.get? repo.workingDirectory.files s = some content →
      ∃ repo', InMemoryEngine.Add compile s repo = .ok () repo' ∧
        GoMap.get? repo'.index.entries s = some content ∧
        (∀ p, p ≠ s → GoMap.get? repo'.index.entries p = GoMap.get? repo.index.entries p) ∧
        repo'.workingDirectory = repo.workingDirectory ∧ repo'.commits = repo.commits ∧
        repo'.branches = repo.branches ∧ repo'.head = repo.head) ∧
    ((∃ repo', InMemoryEngine.Add compile s repo = .err (.regexpCompile s) repo') ↔
      (GoMap.get? repo.workingDirectory.files s = none ∧ compile s = none)) ∧
    ((∃ repo', InMemoryEngine.Add compile s repo = .err (.New errMsgNoMatchesForAdd) repo') ↔
      (GoMap.get? repo.workingDirectory.files s = none ∧
        ∃ r, compile s = some r ∧
          ∀ p, (GoMap.get? repo.workingDirectory.files p).isSome = true → r p = false)) ∧
    (∀ r, GoMap.get? repo.workingDirectory.files s = none → compile s = some r →
      (∃ p, (GoMap.get? repo.workingDirectory.files p).isSome = true ∧ r p = true) →
      ∃ repo', InMemoryEngine.Add compile s repo = .ok () repo' ∧
        (∀ p c, GoMap.get? repo.workingDirectory.files p = some c → r p = true →
          GoMap.get? repo'.index.entries p = some c) ∧
        (∀ p, ¬ ((GoMap.get? repo.workingDirectory.files p).isSome = true ∧ r p = true) →
          GoMap.get? repo'.index.entries p = GoMap.get? repo.index.entries p) ∧
        repo'.workingDirectory = repo.workingDirectory ∧ repo'.commits = repo.commits ∧
        repo'.branches = repo.branches ∧ repo'.head = repo.head) := by
  refine ⟨?_, ?_, ?_, ?_⟩
  · intro content h
    refine ⟨_, Add_literal compile s repo content h, ?_, ?_, rfl, rfl, rfl, rfl⟩
    · exact GoMap.get?_set_self _ _ _
    · intro p hp
      exact GoMap.get?_set_ne _ _ (fun hh => hp hh.symm)
  · constructor
    · rintro ⟨repo', h⟩
      cases hw : GoMap.get? repo.workingDirectory.files s with
      | some content =>
        rw [Add_literal compile s repo content hw] at h
        cases h
      | none =>
        cases hc : compile s with
        | none => exact ⟨rfl, rfl⟩
        | some r =>
          rw [Add_pattern compile s repo r hw hc] at h
          split at h <;> cases h
    · rintro ⟨hw, hc⟩
      exact ⟨repo, Add_invalid compile s repo hw hc⟩
  · constructor
    · rintro ⟨repo', h⟩
      cases hw : GoMap.get? repo.workingDirectory.files s with
      | some content =>
        rw [Add_literal compile s repo content hw] at h
        cases h
      | none =>
        cases hc : compile s with
        | none =>
          rw [Add_invalid compile s repo hw hc] at h
          cases h
        | some r =>
          refine ⟨rfl, r, rfl, ?_⟩
          rw [Add_pattern compile s repo r hw hc] at h
          by_cases hany : (GoMap.range repo.workingDirectory.files).any (fun e => r e.1) = true
          · rw [if_pos hany] at h
            cases h
          · intro p hp
            by_contra hr
            simp only [Bool.not_eq_false] at hr
            exact hany ((any_range_iff r _).mpr ⟨p, hp, hr⟩)
    · rintro ⟨hw, r, hc, hnone⟩
      refine ⟨repo, ?_⟩
      rw [Add_pattern compile s repo r hw hc]
      have hany : ¬ (GoMap.range repo.workingDirectory.files).any (fun e => r e.1) = true := by
        intro hany
        obtain ⟨p, hp, hr⟩ := (any_range_iff r _).mp hany
        rw [hnone p hp] at hr
        cases hr
      rw [if_neg hany]
  · intro r hw hc hex
    have hany := (any_range_iff r _).mpr hex
    refine ⟨{ repo with index :=
        ((GoMap.range repo.workingDirectory.files).foldl
          (fun s e => if r e.1 then (s.1.AddEntry e.1 e.2, true) else s)
          (repo.index, false)).1 },
      by rw [Add_pattern compile s repo r hw hc, if_pos hany], ?_, ?_, rfl, rfl, rfl, rfl⟩
    · intro p c hp hr
      exact addLoop_get?_matching r _ (GoMap.range_nodupKeys _) _ p c
        (by rw [GoMap.get?_range]; exact hp) hr
    · intro p hp
      have h' : GoMap.get? (GoMap.range repo.workingDirectory.files) p = none ∨ r p = false := by
        rw [GoMap.get?_range]
        cases hg : GoMap.get? repo.workingDirectory.files p with
        | none => exact Or.inl rfl
        | some c =>
          right
          by_contra hr
          simp only [Bool.not_eq_false] at hr
          exact hp ⟨by simp [hg], hr⟩
      exact addLoop_get?_other r _ _ p h'

/-- The regex-add scenario of the specification, with a matcher for the pattern `.go$`. -/
theorem add_contract_witness :
    InMemoryEngine.Add suffixRegexp ".go" goFilesRepo = .ok () goFilesStaged ∧
    InMemoryEngine.Add suffixRegexp "nomatch" goFilesRepo =
      .err (.New errMsgNoMatchesForAdd) goFilesRepo ∧
    ∃ repo', InMemoryEngine.Add suffixRegexp ".go" goFilesRepo = .ok () repo' ∧
      (∀ p c, GoMap.get? goFilesRepo.workingDirectory.files p = some c →
        (".go".data.isSuffixOf p.data) = true → GoMap.get? repo'.index.entries p = some c) ∧
      (∀ p, ¬ ((GoMap.get? goFilesRepo.workingDirectory.files p).isSome = true ∧
          (".go".data.isSuffixOf p.data) = true) →
        GoMap.get? repo'.index.entries p = GoMap.get? goFilesRepo.index.entries p) ∧
      repo'.workingDirectory = goFilesRepo.workingDirectory ∧
      repo'.commits = goFilesRepo.commits ∧ repo'.branches = goFilesRepo.branches ∧
      repo'.head = goFilesRepo.head :=
  ⟨by decide, by decide,
    (add_contract suffixRegexp ".go" goFilesRepo).2.2.2
      (fun path => ".go".data.isSuffixOf path.data) (by decide) rfl
      ⟨"x1.go", by decide, by decide⟩⟩

/-! ## Checkout twice -/

theorem Repo.eq_of_fields (r₁ r₂ : Repo) (hc : r₁.commits = r₂.commits)
    (hb : r₁.branches = r₂.branches) (hh : r₁.head = r₂.head) (hi : r₁.index = r₂.index)
    (hw : r₁.workingDirectory.files = r₂.workingDirectory.files) : r₁ = r₂ := by
  obtain ⟨c₁, b₁, h₁, i₁, ⟨w₁⟩⟩ := r₁
  obtain ⟨c₂, b₂, h₂, i₂, ⟨w₂⟩⟩ := r₂
  simp only at hc hb hh hi hw
  subst hc hb hh hi hw
  rfl

/-- The working directory `applyCommitToWorkingDirectory` builds depends on the commit graph
only. -/
theorem applyCommitToWorkingDirectory_files_congr (r₁ r₂ : Repo) (id : CommitID)
    (hc : r₁.commits = r₂.commits) :
    (applyCommitToWorkingDirectory r₁ id).workingDirectory.files =
      (applyCommitToWorkingDirectory r₂ id).workingDirectory.files := by
  rw [applyCommitToWorkingDirectory_files, applyCommitToWorkingDirectory_files]
  simp only [Repo.GetCommit, hc]

/-- C14. Checkout idempotence: for an existing branch `B`, `CheckoutBranch(B)` succeeds, and
a second `CheckoutBranch(B)` right after it succeeds and leaves exactly the state the first
one left, so the working directory is the same after both, and the Index is empty. -/
theorem checkout_idempotent (B : BranchName) (repo : Repo) (br : Branch)
    (hB : repo.GetBranch B = some br) :
    ∃ repo₁ repo₂,
      InMemoryEngine.CheckoutBranch B repo = .ok () repo₁ ∧
      InMemoryEngine.CheckoutBranch B repo₁ = .ok () repo₂ ∧
      repo₂ = repo₁ ∧
      repo₂.workingDirectory = repo₁.workingDirectory ∧
      repo₁.index.entries = [] ∧ repo₂.index.entries = [] := by
  have h1 := CheckoutBranch_eq_ok B repo br hB
  have hb1 :
      Repo.GetBranch
        { applyCommitToWorkingDirectory repo br.target with
          head := { branchName := some B, commitID := none }
          index := { entries := [] } } B = some br := by
    simp only [Repo.GetBranch, applyCommitToWorkingDirectory_branches]
    exact hB
  have h2 := CheckoutBranch_eq_ok B _ br hb1
  have heq :
      ({ applyCommitToWorkingDirectory
          { applyCommitToWorkingDirectory repo br.target with
            head := { branchName := some B, commitID := none }
            index := { entries := [] } } br.target with
        head := { branchName := some B, commitID := none }
        index := { entries := [] } } : Repo) =
      { applyCommitToWorkingDirectory repo br.target with
        head := { branchName := some B, commitID := none }
        index := { entries := [] } } := by
    apply Repo.eq_of_fields
    · simp only [applyCommitToWorkingDirectory_commits]
    · simp only [applyCommitToWorkingDirectory_branches]
    · rfl
    · rfl
    · exact applyCommitToWorkingDirectory_files_congr _ _ _
        (by simp only [applyCommitToWorkingDirectory_commits])
  exact ⟨_, _, h1, h2, heq, by rw [heq], rfl, rfl⟩

theorem checkout_idempotent_witness :
    sampleRepo.GetBranch "main" = some { name := "main", target := "c1" } ∧
    InMemoryEngine.CheckoutBranch "main" sampleRepo = .ok () sampleRepoCheckedOut ∧
    InMemoryEngine.CheckoutBranch "main" sampleRepoCheckedOut = .ok () sampleRepoCheckedOut ∧
    ∃ repo₁ repo₂,
      InMemoryEngine.CheckoutBranch "main" sampleRepo = .ok () repo₁ ∧
      InMemoryEngine.CheckoutBranch "main" repo₁ = .ok () repo₂ ∧
      repo₂ = repo₁ ∧
      repo₂.workingDirectory = repo₁.workingDirectory ∧
      repo₁.index.entries = [] ∧ repo₂.index.entries = [] :=
  ⟨by decide, by decide, by decide,
    checkout_idempotent "main" sampleRepo { name := "main", target := "c1" } (by decide)⟩

/-! ## Status right after Checkout and Reset -/

/-- In a state with nothing staged whose working directory has exactly the entries of the
current commit's tree, `Status` lists the tree's paths, once each, with no flag set. -/
theorem status_of_clean (repo : Repo) (hi : repo.index.entries = [])
    (hw : ∀ p, GoMap.get? repo.workingDirectory.files p = GoMap.get? (currentCommit repo).2 p) :
    ∃ res, InMemoryEngine.Status repo = .ok res repo ∧
      (res.Files.map FileStatus.Path).Nodup ∧
      (∀ p, p ∈ res.Files.map FileStatus.Path ↔
        (GoMap.get? (currentCommit repo).2 p).isSome = true) ∧
      ∀ f, f ∈ res.Files → f.Staged = false ∧ f.Modified = false ∧ f.Untracked = false := by
  have hpaths : ((statusPaths repo).map
      (statusEntry repo.workingDirectory.files repo.index.entries
        (statusCommitTree repo))).map FileStatus.Path = statusPaths repo := by
    rw [List.map_map]
    have : (FileStatus.Path ∘ statusEntry repo.workingDirectory.files repo.index.entries
        (statusCommitTree repo)) = id := by
      funext path
      rfl
    rw [this, List.map_id]
  refine ⟨_, Status_eq repo, ?_, ?_, ?_⟩
  · show (((statusPaths repo).map _).map FileStatus.Path).Nodup
    rw [hpaths]
    exact GoMap.range_nodupKeys _
  · intro p
    show p ∈ ((statusPaths repo).map _).map FileStatus.Path ↔ _
    rw [hpaths]
    unfold statusPaths
    rw [GoMap.mem_keys_range_iff, GoMap.isSome_get?_keysInto, GoMap.isSome_get?_keysInto,
      GoMap.isSome_get?_keysInto, get?_statusCommitTree, hw p, hi]
    simp [GoMap.get?]
  · intro f hf
    simp only [List.mem_map] at hf
    obtain ⟨path, -, rfl⟩ := hf
    simp only [statusEntry, get?_statusCommitTree, hw path, hi, GoMap.get?]
    cases GoMap.get? (currentCommit repo).2 path <;> simp

theorem CheckoutBranch_ok_inv (name : BranchName) (repo repo' : Repo)
    (h : InMemoryEngine.CheckoutBranch name repo = .ok () repo') :
    ∃ br, repo.GetBranch name = some br ∧
      repo' = { applyCommitToWorkingDirectory repo br.target with
                head := { branchName := some name, commitID := none }
                index := { entries := [] } } := by
  cases hb : repo.GetBranch name with
  | none => simp [InMemoryEngine.CheckoutBranch, hb] at h
  | some br =>
    rw [CheckoutBranch_eq_ok name repo br hb] at h
    simp only [Outcome.ok.injEq, true_and] at h
    exact ⟨br, rfl, h.symm⟩

theorem Reset_ok_inv (commitID : CommitID) (repo repo' : Repo)
    (h : InMemoryEngine.Reset commitID repo = .ok () repo') :
    ∃ B br c, repo.head.branchName = some B ∧ repo.GetBranch B = some br ∧
      repo.GetCommit commitID = some c ∧
      repo' = { applyCommitToWorkingDirectory
                  { repo with branches := GoMap.set repo.branches B (br.SetTarget commitID) }
                  commitID with
                index := { entries := [] } } := by
  cases hB : repo.head.branchName with
  | none => simp [InMemoryEngine.Reset, hB] at h
  | some B =>
    cases hc : repo.GetCommit commitID with
    | none => simp [InMemoryEngine.Reset, hB, hc] at h
    | some c =>
      cases hbr : repo.GetBranch B with
      | none => simp [InMemoryEngine.Reset, hB, hc, hbr] at h
      | some br =>
        rw [Reset_eq_ok commitID repo B br c hB hbr hc] at h
        simp only [Outcome.ok.injEq, true_and] at h
        exact ⟨B, br, c, rfl, hbr, rfl, h.symm⟩

/-- After a successful `CheckoutBranch` nothing is staged and the working directory has
exactly the entries of the current commit's tree. -/
theorem CheckoutBranch_clean (name : BranchName) (repo repo' : Repo)
    (h : InMemoryEngine.CheckoutBranch name repo = .ok () repo') :
    repo'.index.entries = [] ∧
    ∀ p, GoMap.get? repo'.workingDirectory.files p = GoMap.get? (currentCommit repo').2 p := by
  obtain ⟨br, hb, rfl⟩ := CheckoutBranch_ok_inv name repo repo' h
  refine ⟨rfl, ?_⟩
  intro p
  have hb' : Repo.GetBranch
      { applyCommitToWorkingDirectory repo br.target with
        head := { branchName := some name, commitID := none }
        index := { entries := [] } } name = some br := by
    simp only [Repo.GetBranch, applyCommitToWorkingDirectory_branches]
    exact hb
  rw [currentCommit_on_branch _ name br rfl hb']
  simp only [applyCommitToWorkingDirectory_files, Repo.GetCommit,
    applyCommitToWorkingDirectory_commits]
  by_cases ht : br.target = ""
  · simp [ht]
  · simp only [ht, if_false]
    cases GoMap.get? repo.commits br.target with
    | none => rfl
    | some c => exact GoMap.get?_copyInto_nil c.tree p

/-- After a successful `Reset` nothing is staged and the working directory has exactly the
entries of the current commit's tree. -/
theorem Reset_clean (commitID : CommitID) (repo repo' : Repo)
    (h : InMemoryEngine.Reset commitID repo = .ok () repo') :
    repo'.index.entries = [] ∧
    ∀ p, GoMap.get? repo'.workingDirectory.files p = GoMap.get? (currentCommit repo').2 p := by
  obtain ⟨B, br, c, hB, hbr, hc, rfl⟩ := Reset_ok_inv commitID repo repo' h
  refine ⟨rfl, ?_⟩
  intro p
  have hb' : Repo.GetBranch
      { applyCommitToWorkingDirectory
          { repo with branches := GoMap.set repo.branches B (br.SetTarget commitID) }
          commitID with
        index := { entries := [] } } B = some (br.SetTarget commitID) := by
    simp only [Repo.GetBranch, applyCommitToWorkingDirectory_branches]
    exact GoMap.get?_set_self _ _ _
  have hh : Head.branchName (Repo.head
      { applyCommitToWorkingDirectory
          { repo with branches := GoMap.set repo.branches B (br.SetTarget commitID) }
          commitID with
        index := { entries := [] } }) = some B := by
    simp only [applyCommitToWorkingDirectory_head]
    exact hB
  have hc' : GoMap.get? repo.commits commitID = some c := hc
  rw [currentCommit_on_branch _ B (br.SetTarget commitID) hh hb']
  simp only [applyCommitToWorkingDirectory_files, Repo.GetCommit,
    applyCommitToWorkingDirectory_commits, Branch.SetTarget]
  by_cases ht : commitID = ""
  · simp [ht]
  · simp only [ht, if_false, hc']
    exact GoMap.get?_copyInto_nil c.tree p

/-- C19. Clean status after checkout or reset: right after a successful `CheckoutBranch` or
a successful `Reset`, `Status` lists exactly the paths of the tree of the commit that is now
current, once each, and every entry has `Staged`, `Modified` and `Untracked` all false. -/
theorem clean_status_after_checkout_or_reset (repo : Repo) :
    (∀ name repo', InMemoryEngine.CheckoutBranch name repo = .ok () repo' →
      ∃ res, InMemoryEngine.Status repo' = .ok res repo' ∧
        (res.Files.map FileStatus.Path).Nodup ∧
        (∀ p, p ∈ res.Files.map FileStatus.Path ↔
          (GoMap.get? (currentCommit repo').2 p).isSome = true) ∧
        ∀ f, f ∈ res.Files → f.Staged = false ∧ f.Modified = false ∧ f.Untracked = false) ∧
    (∀ commitID repo', InMemoryEngine.Reset commitID repo = .ok () repo' →
      ∃ res, InMemoryEngine.Status repo' = .ok res repo' ∧
        (res.Files.map FileStatus.Path).Nodup ∧
        (∀ p, p ∈ res.Files.map FileStatus.Path ↔
          (GoMap.get? (currentCommit repo').2 p).isSome = true) ∧
        ∀ f, f ∈ res.Files → f.Staged = false ∧ f.Modified = false ∧ f.Untracked = false) := by
  constructor
  · intro name repo' h
    obtain ⟨hi, hw⟩ := CheckoutBranch_clean name repo repo' h
    exact status_of_clean repo' hi hw
  · intro commitID repo' h
    obtain ⟨hi, hw⟩ := Reset_clean commitID repo repo' h
    exact status_of_clean repo' hi hw

theorem clean_status_after_checkout_or_reset_witness :
    InMemoryEngine.CheckoutBranch "main" sampleRepo = .ok () sampleRepoCheckedOut ∧
    InMemoryEngine.Status sampleRepoCheckedOut =
      .ok { HeadDescription := "main"
            Files :=
              [{ Path := "a.txt", Staged := false, Modified := false, Untracked := false },
               { Path := "b.txt", Staged := false, Modified := false, Untracked := false }] }
        sampleRepoCheckedOut ∧
    InMemoryEngine.Reset "c1" sampleRepo = .ok () sampleRepoCheckedOut ∧
    ∃ res, InMemoryEngine.Status sampleRepoCheckedOut = .ok res sampleRepoCheckedOut ∧
      (res.Files.map FileStatus.Path).Nodup ∧
      (∀ p, p ∈ res.Files.map FileStatus.Path ↔
        (GoMap.get? (currentCommit sampleRepoCheckedOut).2 p).isSome = true) ∧
      ∀ f, f ∈ res.Files → f.Staged = false ∧ f.Modified = false ∧ f.Untracked = false :=
  ⟨by decide, by decide, by decide,
    (clean_status_after_checkout_or_reset sampleRepo).1 "main" sampleRepoCheckedOut (by decide)⟩

/-! ## Log -/

theorem FirstParentChain.unique {repo : Repo} {c : VCS.Commit} {l₁ l₂ : List VCS.Commit}
    (h₁ : FirstParentChain repo c l₁) (h₂ : FirstParentChain repo c l₂) : l₁ = l₂ := by
  induction h₁ generalizing l₂ with
  | root c hc =>
    cases h₂ with
    | root _ _ => rfl
    | unresolved _ p rest hp _ => rfl
    | step _ p rest next chain hp _ _ => rw [hc] at hp; cases hp
  | unresolved c p rest hp hn =>
    cases h₂ with
    | root _ _ => rfl
    | unresolved _ _ _ _ _ => rfl
    | step _ p' rest' next chain hp' hn' _ =>
      rw [hp] at hp'
      cases hp'
      rw [hn] at hn'
      cases hn'
  | step c p rest next chain hp hn _ ih =>
    cases h₂ with
    | root _ hc => rw [hc] at hp; cases hp
    | unresolved _ p' rest' hp' hn' =>
      rw [hp] at hp'
      cases hp'
      rw [hn] at hn'
      cases hn'
    | step _ p' rest' next' chain' hp' hn' hch =>
      rw [hp] at hp'
      cases hp'
      rw [hn] at hn'
      cases hn'
      rw [ih hch]

theorem LogLoop_succ_root (repo : Repo) (n : Nat) (c : VCS.Commit) (acc : List LogEntry)
    (hc : c.parents = []) :
    InMemoryEngine.LogLoop repo (n + 1) c acc = some (acc ++ [LogEntry.ofCommit c]) := by
  rw [InMemoryEngine.LogLoop]
  simp only [hc, LogEntry.ofCommit]

theorem LogLoop_succ_unresolved (repo : Repo) (n : Nat) (c : VCS.Commit) (acc : List LogEntry)
    (p : CommitID) (rest : List CommitID) (hp : c.parents = p :: rest)
    (hn : repo.GetCommit p = none) :
    InMemoryEngine.LogLoop repo (n + 1) c acc = some (acc ++ [LogEntry.ofCommit c]) := by
  rw [InMemoryEngine.LogLoop]
  simp only [hp, hn, LogEntry.ofCommit]

theorem LogLoop_succ_step (repo : Repo) (n : Nat) (c : VCS.Commit) (acc : List LogEntry)
    (p : CommitID) (rest : List CommitID) (next : VCS.Commit) (hp : c.parents = p :: rest)
    (hn : repo.GetCommit p = some next) :
    InMemoryEngine.LogLoop repo (n + 1) c acc =
      InMemoryEngine.LogLoop repo n next (acc ++ [LogEntry.ofCommit c]) := by
  rw [InMemoryEngine.LogLoop]
  simp only [hp, hn, LogEntry.ofCommit]

theorem parentKeys_succ_root (repo : Repo) (n : Nat) (c : VCS.Commit) (hc : c.parents = []) :
    parentKeys repo (n + 1) c = [] := by
  rw [parentKeys]
  simp only [hc]

theorem parentKeys_succ_unresolved (repo : Repo) (n : Nat) (c : VCS.Commit) (p : CommitID)
    (rest : List CommitID) (hp : c.parents = p :: rest) (hn : repo.GetCommit p = none) :
    parentKeys repo (n + 1) c = [] := by
  rw [parentKeys]
  simp only [hp, hn]

theorem parentKeys_succ_step (repo : Repo) (n : Nat) (c : VCS.Commit) (p : CommitID)
    (rest : List CommitID) (next : VCS.Commit) (hp : c.parents = p :: rest)
    (hn : repo.GetCommit p = some next) :
    parentKeys repo (n + 1) c = p :: parentKeys repo n next := by
  rw [parentKeys]
  simp only [hp, hn]

/-- With at least as many iterations allowed as the chain is long, the loop of `Log` emits
the chain's entries, current commit first, after what it had. -/
theorem LogLoop_of_chain {repo : Repo} {c : VCS.Commit} {chain : List VCS.Commit}
    (h : FirstParentChain repo c chain) (fuel : Nat) (acc : List LogEntry)
    (hf : chain.length ≤ fuel) :
    InMemoryEngine.LogLoop repo fuel c acc = some (acc ++ chain.map LogEntry.ofCommit) := by
  induction h generalizing fuel acc with
  | root c hc =>
    cases fuel with
    | zero => simp at hf
    | succ n => rw [LogLoop_succ_root repo n c acc hc]; rfl
  | unresolved c p rest hp hn =>
    cases fuel with
    | zero => simp at hf
    | succ n => rw [LogLoop_succ_unresolved repo n c acc p rest hp hn]; rfl
  | step c p rest next chain hp hn _ ih =>
    cases fuel with
    | zero => simp at hf
    | succ n =>
      simp only [List.length_cons, Nat.add_le_add_iff_right] at hf
      rw [LogLoop_succ_step repo n c acc p rest next hp hn, ih n _ hf]
      simp

/-- Every key the walk resolves is a key of the commit graph. -/
theorem parentKeys_subset (repo : Repo) (n : Nat) (c : VCS.Commit) :
    ∀ k, k ∈ parentKeys repo n c → (repo.GetCommit k).isSome = true := by
  induction n generalizing c with
  | zero => intro k hk; simp [parentKeys] at hk
  | succ n ih =>
    intro k hk
    cases hp : c.parents with
    | nil => simp [parentKeys_succ_root repo n c hp] at hk
    | cons p rest =>
      cases hn : repo.GetCommit p with
      | none => simp [parentKeys_succ_unresolved repo n c p rest hp hn] at hk
      | some next =>
        rw [parentKeys_succ_step repo n c p rest next hp hn, List.mem_cons] at hk
        rcases hk with rfl | hk
        · simp [hn]
        · exact ih next k hk

/-- A walk that resolves fewer keys than it is allowed has reached the end of the chain. -/
theorem chain_of_parentKeys_lt (repo : Repo) (n : Nat) (c : VCS.Commit)
    (h : (parentKeys repo n c).length < n) :
    ∃ chain, FirstParentChain repo c chain ∧
      chain.length = (parentKeys repo n c).length + 1 := by
  induction n generalizing c with
  | zero => simp at h
  | succ n ih =>
    cases hp : c.parents with
    | nil =>
      exact ⟨[c], .root c hp, by simp [parentKeys_succ_root repo n c hp]⟩
    | cons p rest =>
      cases hn : repo.GetCommit p with
      | none =>
        exact ⟨[c], .unresolved c p rest hp hn,
          by simp [parentKeys_succ_unresolved repo n c p rest hp hn]⟩
      | some next =>
        rw [parentKeys_succ_step repo n c p rest next hp hn] at h ⊢
        simp only [List.length_cons, Nat.add_lt_add_iff_right] at h
        obtain ⟨chain, hch, hlen⟩ := ih next h
        exact ⟨c :: chain, .step c p rest next chain hp hn hch, by simp [hlen]⟩

/-- Distinct keys of a map are no more than the map has keys. -/
theorem GoMap.length_le_len_of_nodup {ν : Type} (m : GoMap CommitID ν) (ks : List CommitID)
    (hnd : ks.Nodup) (hks : ∀ k, k ∈ ks → (GoMap.get? m k).isSome = true) :
    ks.length ≤ GoMap.len m := by
  have hsub : ks ⊆ (GoMap.range m).map Prod.fst := by
    intro k hk
    exact (GoMap.mem_keys_range_iff m k).mpr (hks k hk)
  have := (List.Nodup.subperm hnd hsub).length_le
  simpa [GoMap.len] using this

/-- What `describeHead` resolves when HEAD is on a branch with a non-empty target in the
graph. -/
theorem describeHead_resolved (repo : Repo) (B : BranchName) (br : Branch) (base : VCS.Commit)
    (hB : repo.head.branchName = some B) (hbr : repo.GetBranch B = some br)
    (ht : br.target ≠ "") (hc : repo.GetCommit br.target = some base) :
    describeHead repo = (B, some base) := by
  simp [describeHead, hB, hbr, ht, hc]

/-- C12. Log chain correctness. When there is no current commit, `Log` returns the empty
list and no error. When HEAD resolves through its branch to a commit and the first-parent
walk from it never comes back to a key it has resolved, the first-parent chain from the
current commit exists, is no longer than the graph has commits, and `Log`, given at least
that many iterations, returns without error exactly the entries of that chain, current
commit first, each with its commit's id, message, timestamp and parents. -/
theorem log_chain_correct (repo : Repo) :
    ((describeHead repo).2 = none → ∀ fuel, InMemoryEngine.Log fuel repo = some (.ok [] repo)) ∧
    (∀ B br base, repo.head.branchName = some B → repo.GetBranch B = some br →
      br.target ≠ "" → repo.GetCommit br.target = some base →
      (∀ n, (br.target :: parentKeys repo n base).Nodup) →
      ∃ chain, FirstParentChain repo base chain ∧
        chain.length ≤ GoMap.len repo.commits ∧
        (chain.map LogEntry.ofCommit).length = chain.length ∧
        ∀ fuel, chain.length ≤ fuel →
          InMemoryEngine.Log fuel repo = some (.ok (chain.map LogEntry.ofCommit) repo)) := by
  constructor
  · intro h fuel
    simp [InMemoryEngine.Log, h]
  · intro B br base hB hbr ht hc hnd
    have hlen : (br.target :: parentKeys repo (GoMap.len repo.commits) base).length ≤
        GoMap.len repo.commits := by
      apply GoMap.length_le_len_of_nodup repo.commits _ (hnd _)
      intro k hk
      simp only [List.mem_cons] at hk
      rcases hk with rfl | hk
      · have hc' : GoMap.get? repo.commits br.target = some base := hc
        simp [hc']
      · exact parentKeys_subset repo _ base k hk
    simp only [List.length_cons] at hlen
    obtain ⟨chain, hch, hcl⟩ := chain_of_parentKeys_lt repo _ base hlen
    refine ⟨chain, hch, by omega, by simp, ?_⟩
    intro fuel hf
    have hd := describeHead_resolved repo B br base hB hbr ht hc
    simp only [InMemoryEngine.Log, hd]
    rw [LogLoop_of_chain hch fuel [] hf]
    simp

theorem log_chain_correct_witness :
    InMemoryEngine.Log 2 sampleRepoCommitted =
      some (.ok [{ ID := "c2", Message := "second", Timestamp := 2, Parents := ["c1"] },
                 { ID := "c1", Message := "first", Timestamp := 1, Parents := [] }]
        sampleRepoCommitted) ∧
    (∀ fuel, InMemoryEngine.Log fuel NewRepo = some (.ok [] NewRepo)) ∧
    ∃ chain,
      FirstParentChain sampleRepoCommitted
        { id := "c2", parents := ["c1"], message := "second", timestamp := 2,
          tree := [("a.txt", "9"), ("b.txt", "2"), ("c.txt", "3")] } chain ∧
      chain.length ≤ GoMap.len sampleRepoCommitted.commits ∧
      (chain.map LogEntry.ofCommit).length = chain.length ∧
      ∀ fuel, chain.length ≤ fuel →
        InMemoryEngine.Log fuel sampleRepoCommitted =
          some (.ok (chain.map LogEntry.ofCommit) sampleRepoCommitted) :=
  ⟨by decide, (log_chain_correct NewRepo).1 (by decide),
    (log_chain_correct sampleRepoCommitted).2 "main" { name := "main", target := "c2" }
      { id := "c2", parents := ["c1"], message := "second", timestamp := 2,
        tree := [("a.txt", "9"), ("b.txt", "2"), ("c.txt", "3")] }
      (by decide) (by decide) (by decide) (by decide)
      (by
        intro n
        cases n with
        | zero => decide
        | succ n =>
          rw [parentKeys_succ_step sampleRepoCommitted n _ "c1" []
            { id := "c1", parents := [], message := "first", timestamp := 1,
              tree := [("a.txt", "1"), ("b.txt", "2")] } rfl (by decide)]
          cases n with
          | zero => decide
          | succ n =>
            rw [parentKeys_succ_root sampleRepoCommitted n _ rfl]
            decide)⟩

/-! ## Reference integrity along a sequence of calls -/

theorem Outcome.after_cases {α : Type} (o : Outcome α) (repo' : Repo)
    (h : o.after = some repo') : (∃ e, o = .err e repo') ∨ (∃ v, o = .ok v repo') := by
  cases o with
  | ok v r =>
    simp only [Outcome.after, Option.some.injEq] at h
    exact Or.inr ⟨v, by rw [h]⟩
  | err e r =>
    simp only [Outcome.after, Option.some.injEq] at h
    exact Or.inl ⟨e, by rw [h]⟩
  | panic => simp [Outcome.after] at h

theorem GoMap.isSome_get?_set_of_isSome {κ ν : Type} [DecidableEq κ] (m : GoMap κ ν) (k p : κ)
    (v : ν) (h : (GoMap.get? m p).isSome = true) :
    (GoMap.get? (GoMap.set m k v) p).isSome = true := by
  by_cases hk : k = p
  · subst hk
    simp [GoMap.get?_set_self]
  · rw [GoMap.get?_set_ne _ _ hk]
    exact h

theorem Commit_ok_inv (idGen : CommitIDGenerator) (now : Timestamp) (message : String)
    (repo : Repo) (id : CommitID) (repo' : Repo)
    (h : InMemoryEngine.Commit idGen now message repo = .ok id repo') :
    GoMap.len repo.index.entries ≠ 0 ∧ id = (builtCommit idGen now message repo).id ∧
    repo' = { repo with
      commits := GoMap.set repo.commits (builtCommit idGen now message repo).id
        (builtCommit idGen now message repo)
      index := { entries := [] }
      branches := branchesAfterCommit repo (builtCommit idGen now message repo).id } := by
  by_cases hl : GoMap.len repo.index.entries = 0
  · rw [Commit_eq_err idGen now message repo hl] at h
    cases h
  · rw [Commit_eq_ok idGen now message repo hl] at h
    simp only [Outcome.ok.injEq] at h
    exact ⟨hl, h.1.symm, h.2.symm⟩

theorem CreateBranch_ok_inv (name : BranchName) (repo repo' : Repo)
    (h : InMemoryEngine.CreateBranch name repo = .ok () repo') :
    repo.GetBranch name = none ∧ (currentCommit repo).1 ≠ "" ∧
    repo' = repo.AddBranch name { name := name, target := (currentCommit repo).1 } := by
  cases hb : repo.GetBranch name with
  | some b => simp [InMemoryEngine.CreateBranch, hb] at h
  | none =>
    by_cases hid : (currentCommit repo).1 = ""
    · simp [InMemoryEngine.CreateBranch, hb, hid] at h
    · simp only [InMemoryEngine.CreateBranch, hb, hid, if_false, Outcome.ok.injEq, true_and] at h
      exact ⟨rfl, hid, h.symm⟩

theorem Add_after_frame (compile : RegexpCompile) (pattern : String) (repo repo' : Repo)
    (h : (InMemoryEngine.Add compile pattern repo).after = some repo') :
    repo'.commits = repo.commits ∧ repo'.branches = repo.branches ∧ repo'.head = repo.head ∧
    repo'.workingDirectory = repo.workingDirectory := by
  unfold InMemoryEngine.Add at h
  dsimp only at h
  split at h
  · simp only [Outcome.after, Option.some.injEq] at h
    rw [← h]
    exact ⟨rfl, rfl, rfl, rfl⟩
  · split at h <;>
    · simp only [Outcome.after, Option.some.injEq] at h
      rw [← h]
      exact ⟨rfl, rfl, rfl, rfl⟩

theorem ReferenceIntegrity.of_frame {repo repo' : Repo} (h : ReferenceIntegrity repo)
    (hc : repo'.commits = repo.commits) (hb : repo'.branches = repo.branches)
    (hh : repo'.head = repo.head) : ReferenceIntegrity repo' := by
  obtain ⟨h1, h2, h3, h4⟩ := h
  refine ⟨?_, ?_, ?_, ?_⟩
  · simpa only [Repo.GetBranch, hh, hb] using h1
  · simpa only [Repo.GetBranch, Repo.GetCommit, hc, hb] using h2
  · simpa only [Repo.GetCommit, hc] using h3
  · simpa only [Repo.GetCommit, hc] using h4

theorem ReferenceIntegrity.at_newRepo : ReferenceIntegrity NewRepo := by
  refine ⟨⟨"main", rfl, by decide⟩, ?_, ?_, ?_⟩
  · intro n b hb
    left
    by_cases hn : "main" = n
    · simp [NewRepo, Repo.GetBranch, Repo.AddBranch, GoMap.set, GoMap.get?, DefaultBranchName,
        hn] at hb
      rw [← hb]
    · simp [NewRepo, Repo.GetBranch, Repo.AddBranch, GoMap.set, GoMap.get?, DefaultBranchName,
        hn] at hb
  · intro k c hc
    simp [NewRepo, Repo.GetCommit, Repo.AddBranch, GoMap.get?] at hc
  · intro k c hc
    simp [NewRepo, Repo.GetCommit, Repo.AddBranch, GoMap.get?] at hc

/-- Under reference integrity the id `currentCommit` returns, when not empty, is the key of
the commit it returns. -/
theorem ReferenceIntegrity.currentCommit_id {repo : Repo} (h : ReferenceIntegrity repo)
    (hid : (currentCommit repo).1 ≠ "") :
    ∃ B br pc, repo.head.branchName = some B ∧ repo.GetBranch B = some br ∧
      br.target ≠ "" ∧ repo.GetCommit br.target = some pc ∧
      currentCommit repo = (br.target, pc.tree) ∧ pc.id = br.target := by
  cases hB : repo.head.branchName with
  | none => simp [currentCommit, hB] at hid
  | some B =>
    cases hbr : repo.GetBranch B with
    | none => simp [currentCommit, hB, hbr] at hid
    | some br =>
      rw [currentCommit_on_branch repo B br hB hbr] at hid ⊢
      by_cases ht : br.target = ""
      · simp [ht] at hid
      · cases hc : repo.GetCommit br.target with
        | none => simp [ht, hc] at hid
        | some pc =>
          have hk := h.key_eq_id br.target pc hc
          refine ⟨B, br, pc, rfl, hbr, ht, hc, ?_, hk⟩
          simp [ht, hk]

theorem ReferenceIntegrity.after_commit {repo : Repo} (h : ReferenceIntegrity repo)
    (idGen : CommitIDGenerator) (now : Timestamp) (message : String) :
    ReferenceIntegrity
      { repo with
        commits := GoMap.set repo.commits (builtCommit idGen now message repo).id
          (builtCommit idGen now message repo)
        index := { entries := [] }
        branches := branchesAfterCommit repo (builtCommit idGen now message repo).id } := by
  obtain ⟨B, hhead, hBsome⟩ := h.head_on_branch
  have hB : repo.head.branchName = some B := by rw [hhead]
  obtain ⟨br, hbr⟩ := Option.isSome_iff_exists.mp hBsome
  have hbr' : GoMap.get? repo.branches B = some br := hbr
  have hbranches : branchesAfterCommit repo (builtCommit idGen now message repo).id =
      GoMap.set repo.branches B (br.SetTarget (builtCommit idGen now message repo).id) := by
    simp only [branchesAfterCommit, hB, hbr]
  refine ⟨⟨B, hhead, ?_⟩, ?_, ?_, ?_⟩
  · simp only [Repo.GetBranch, hbranches, GoMap.get?_set_self, Option.isSome_some]
  · intro n b hb
    simp only [Repo.GetBranch, hbranches] at hb
    simp only [Repo.GetCommit]
    by_cases hn : B = n
    · subst hn
      rw [GoMap.get?_set_self] at hb
      simp only [Option.some.injEq] at hb
      right
      rw [← hb]
      simp [Branch.SetTarget, GoMap.get?_set_self]
    · rw [GoMap.get?_set_ne _ _ hn] at hb
      rcases h.branch_target n b hb with ht | ht
      · exact Or.inl ht
      · exact Or.inr (GoMap.isSome_get?_set_of_isSome _ _ _ _ ht)
  · intro k c hc
    simp only [Repo.GetCommit] at hc
    by_cases hk : (builtCommit idGen now message repo).id = k
    · rw [← hk, GoMap.get?_set_self] at hc
      simp only [Option.some.injEq] at hc
      rw [← hc, hk]
    · rw [GoMap.get?_set_ne _ _ hk] at hc
      exact h.key_eq_id k c hc
  · intro k c hc
    simp only [Repo.GetCommit] at hc ⊢
    by_cases hk : (builtCommit idGen now message repo).id = k
    · rw [← hk, GoMap.get?_set_self] at hc
      simp only [Option.some.injEq] at hc
      by_cases hid : (currentCommit repo).1 = ""
      · left
        rw [← hc]
        simp [builtCommit, hid]
      · right
        obtain ⟨B', br', pc, -, -, -, hpc, hcur, -⟩ := h.currentCommit_id hid
        refine ⟨(currentCommit repo).1, ?_, ?_⟩
        · rw [← hc]
          simp [builtCommit, hid]
        · apply GoMap.isSome_get?_set_of_isSome
          rw [hcur]
          have hpc' : GoMap.get? repo.commits br'.target = some pc := hpc
          simp [hpc']
    · rw [GoMap.get?_set_ne _ _ hk] at hc
      rcases h.parents k c hc with hp | ⟨p, hp, hps⟩
      · exact Or.inl hp
      · exact Or.inr ⟨p, hp, GoMap.isSome_get?_set_of_isSome _ _ _ _ hps⟩

theorem ReferenceIntegrity.checkout {repo : Repo} (h : ReferenceIntegrity repo)
    (name : BranchName) (br : Branch) (hb : repo.GetBranch name = some br) :
    ReferenceIntegrity
      { applyCommitToWorkingDirectory repo br.target with
        head := { branchName := some name, commitID := none }
        index := { entries := [] } } := by
  refine ⟨⟨name, rfl, ?_⟩, ?_, ?_, ?_⟩
  · simp only [Repo.GetBranch, applyCommitToWorkingDirectory_branches]
    have hb' : GoMap.get? repo.branches name = some br := hb
    simp [hb']
  · simpa only [Repo.GetBranch, Repo.GetCommit, applyCommitToWorkingDirectory_branches,
      applyCommitToWorkingDirectory_commits] using h.branch_target
  · simpa only [Repo.GetCommit, applyCommitToWorkingDirectory_commits] using h.key_eq_id
  · simpa only [Repo.GetCommit, applyCommitToWorkingDirectory_commits] using h.parents

theorem ReferenceIntegrity.createBranch {repo : Repo} (h : ReferenceIntegrity repo)
    (name : BranchName) (hid : (currentCommit repo).1 ≠ "") :
    ReferenceIntegrity
      (repo.AddBranch name { name := name, target := (currentCommit repo).1 }) := by
  obtain ⟨B, hhead, hBsome⟩ := h.head_on_branch
  refine ⟨⟨B, hhead, ?_⟩, ?_, h.key_eq_id, h.parents⟩
  · exact GoMap.isSome_get?_set_of_isSome _ _ _ _ hBsome
  · intro n b hb
    simp only [Repo.GetBranch, Repo.AddBranch] at hb
    by_cases hn : name = n
    · subst hn
      rw [GoMap.get?_set_self] at hb
      simp only [Option.some.injEq] at hb
      right
      obtain ⟨B', br', pc, -, -, -, hpc, hcur, -⟩ := h.currentCommit_id hid
      rw [← hb]
      simp only [hcur]
      show (repo.GetCommit br'.target).isSome = true
      simp [hpc]
    · rw [GoMap.get?_set_ne _ _ hn] at hb
      exact h.branch_target n b hb

theorem ReferenceIntegrity.reset {repo : Repo} (h : ReferenceIntegrity repo)
    (commitID : CommitID) (B : BranchName) (br : Branch) (c : VCS.Commit)
    (hB : repo.head.branchName = some B) (hc : repo.GetCommit commitID = some c) :
    ReferenceIntegrity
      { applyCommitToWorkingDirectory
          { repo with branches := GoMap.set repo.branches B (br.SetTarget commitID) }
          commitID with
        index := { entries := [] } } := by
  obtain ⟨B', hhead, -⟩ := h.head_on_branch
  have hBB : B' = B := by
    rw [hhead] at hB
    simpa using hB
  subst hBB
  refine ⟨⟨B', ?_, ?_⟩, ?_, ?_, ?_⟩
  · simp only [applyCommitToWorkingDirectory_head]
    exact hhead
  · simp only [Repo.GetBranch, applyCommitToWorkingDirectory_branches, GoMap.get?_set_self,
      Option.isSome_some]
  · intro n b hb
    simp only [Repo.GetBranch, applyCommitToWorkingDirectory_branches] at hb
    simp only [Repo.GetCommit, applyCommitToWorkingDirectory_commits]
    by_cases hn : B' = n
    · subst hn
      rw [GoMap.get?_set_self] at hb
      simp only [Option.some.injEq] at hb
      right
      rw [← hb]
      have hc' : GoMap.get? repo.commits commitID = some c := hc
      simp [Branch.SetTarget, hc']
    · rw [GoMap.get?_set_ne _ _ hn] at hb
      exact h.branch_target n b hb
  · simpa only [Repo.GetCommit, applyCommitToWorkingDirectory_commits] using h.key_eq_id
  · simpa only [Repo.GetCommit, applyCommitToWorkingDirectory_commits] using h.parents

/-- Every call that returns keeps reference integrity. -/
theorem ReferenceIntegrity.after_run {repo repo' : Repo} (h : ReferenceIntegrity repo) (op : Op)
    (hr : op.run repo = some repo') : ReferenceIntegrity repo' := by
  cases op with
  | AddFileToWorkingDirectory path content =>
    simp only [Op.run, InMemoryEngine.AddFileToWorkingDirectory, Outcome.after,
      Option.some.injEq] at hr
    rw [← hr]
    exact h.of_frame rfl rfl rfl
  | Add compile pattern =>
    obtain ⟨hc, hb, hh, -⟩ := Add_after_frame compile pattern repo repo' hr
    exact h.of_frame hc hb hh
  | Commit idGen now message =>
    rcases Outcome.after_cases _ repo' hr with ⟨e, he⟩ | ⟨id, hok⟩
    · rw [Commit_err_unchanged idGen now message repo e repo' he]
      exact h
    · obtain ⟨-, -, rfl⟩ := Commit_ok_inv idGen now message repo id repo' hok
      exact h.after_commit idGen now message
  | CheckoutBranch name =>
    rcases Outcome.after_cases _ repo' hr with ⟨e, he⟩ | ⟨v, hok⟩
    · rw [CheckoutBranch_err_unchanged name repo e repo' he]
      exact h
    · obtain ⟨br, hb, rfl⟩ := CheckoutBranch_ok_inv name repo repo' hok
      exact h.checkout name br hb
  | CreateBranch name =>
    rcases Outcome.after_cases _ repo' hr with ⟨e, he⟩ | ⟨v, hok⟩
    · rw [CreateBranch_err_unchanged name repo e repo' he]
      exact h
    · obtain ⟨-, hid, rfl⟩ := CreateBranch_ok_inv name repo repo' hok
      exact h.createBranch name hid
  | Status =>
    simp only [Op.run, Status_after, Option.some.injEq] at hr
    rw [← hr]
    exact h
  | Log fuel =>
    simp only [Op.run] at hr
    cases hl : InMemoryEngine.Log fuel repo with
    | none => simp [hl] at hr
    | some out =>
      rw [hl] at hr
      change out.after = some repo' at hr
      rw [Log_after fuel repo out hl, Option.some.injEq] at hr
      rw [← hr]
      exact h
  | Reset commitID =>
    rcases Outcome.after_cases _ repo' hr with ⟨e, he⟩ | ⟨v, hok⟩
    · rw [Reset_err_unchanged commitID repo e repo' he]
      exact h
    · obtain ⟨B, br, c, hB, -, hc, rfl⟩ := Reset_ok_inv commitID repo repo' hok
      exact h.reset commitID B br c hB hc

/-- Every reachable state has reference integrity. -/
theorem Reachable.integrity {ids : List CommitID} {repo : Repo} (h : Reachable ids repo) :
    ReferenceIntegrity repo := by
  induction h with
  | init => exact ReferenceIntegrity.at_newRepo
  | step op _ hr ih => exact ih.after_run op hr

theorem stagedSecondRepo_reachable : Reachable ["root-1"] stagedSecondRepo := by
  have h0 : Reachable [] NewRepo := Reachable.init
  have h1 := Reachable.step (.AddFileToWorkingDirectory "a.txt" "1") h0
    (by decide : Op.run (.AddFileToWorkingDirectory "a.txt" "1") NewRepo =
      some { NewRepo with workingDirectory := { files := [("a.txt", "1")] } })
  have h2 := Reachable.step (.Add literalOnly "a.txt") h1
    (by decide : Op.run (.Add literalOnly "a.txt")
      { NewRepo with workingDirectory := { files := [("a.txt", "1")] } } = some stagedFirstRepo)
  have h3 := Reachable.step (.Commit sampleIdGen 1 "first") h2
    (by decide : Op.run (.Commit sampleIdGen 1 "first") stagedFirstRepo = some firstCommitRepo)
  have h4 := Reachable.step (.AddFileToWorkingDirectory "b.txt" "2") h3
    (by decide : Op.run (.AddFileToWorkingDirectory "b.txt" "2") firstCommitRepo =
      some { firstCommitRepo with
             workingDirectory := { files := [("a.txt", "1"), ("b.txt", "2")] } })
  have h5 := Reachable.step (.Add literalOnly "b.txt") h4
    (by decide : Op.run (.Add literalOnly "b.txt")
      { firstCommitRepo with
        workingDirectory := { files := [("a.txt", "1"), ("b.txt", "2")] } } =
      some stagedSecondRepo)
  have hc : InMemoryEngine.Commit sampleIdGen 1 "first" stagedFirstRepo =
      .ok "root-1" firstCommitRepo := by decide
  simpa only [Op.issued, hc, List.nil_append, List.append_nil] using h5

theorem secondCommitRepo_reachable : Reachable ["child-2", "root-1"] secondCommitRepo := by
  have h := Reachable.step (.Commit sampleIdGen 2 "second") stagedSecondRepo_reachable
    (by decide : Op.run (.Commit sampleIdGen 2 "second") stagedSecondRepo =
      some secondCommitRepo)
  have hc : InMemoryEngine.Commit sampleIdGen 2 "second" stagedSecondRepo =
      .ok "child-2" secondCommitRepo := by decide
  simpa only [Op.issued, hc, List.singleton_append] using h

/-- Under reference integrity the loop of `Log`, started at a commit of the graph, ends at
a commit without parents. -/
theorem LogLoop_last_root {repo : Repo} (h : ReferenceIntegrity repo) (fuel : Nat)
    (c : VCS.Commit) (acc entries : List LogEntry) (hc : ∃ k, repo.GetCommit k = some c)
    (hl : InMemoryEngine.LogLoop repo fuel c acc = some entries) :
    ∃ e, entries.getLast? = some e ∧ e.Parents = [] := by
  induction fuel generalizing c acc with
  | zero => simp [InMemoryEngine.LogLoop] at hl
  | succ n ih =>
    obtain ⟨k, hk⟩ := hc
    rcases h.parents k c hk with hp | ⟨p, hp, hps⟩
    · rw [LogLoop_succ_root repo n c acc hp, Option.some.injEq] at hl
      refine ⟨LogEntry.ofCommit c, ?_, hp⟩
      rw [← hl]
      simp
    · obtain ⟨next, hnext⟩ := Option.isSome_iff_exists.mp hps
      rw [LogLoop_succ_step repo n c acc p [] next hp hnext] at hl
      exact ih next _ ⟨p, hnext⟩ hl

/-- What `describeHead` returns is a commit of the graph. -/
theorem describeHead_mem (repo : Repo) (base : VCS.Commit)
    (h : (describeHead repo).2 = some base) : ∃ k, repo.GetCommit k = some base := by
  cases hB : repo.head.branchName with
  | none => simp [describeHead, hB] at h
  | some B =>
    cases hbr : repo.GetBranch B with
    | none => simp [describeHead, hB, hbr] at h
    | some br =>
      by_cases ht : br.target = ""
      · simp [describeHead, hB, hbr, ht] at h
      · cases hc : repo.GetCommit br.target with
        | none => simp [describeHead, hB, hbr, ht, hc] at h
        | some commit =>
          simp only [describeHead, hB, hbr, ht, if_false, hc, Option.some.injEq] at h
          exact ⟨br.target, by rw [hc, h]⟩

/-- C16. Reference integrity invariant: in every state reachable from `NewRepo()` by engine
calls, with any generator and clock, HEAD is on a branch that exists and has no detached
commit id; every branch target is empty or a key of the graph; every commit is stored under
its own id; every commit has no parent, or one parent that is a key of the graph. So `Reset`
never panics on a missing branch, and when `Log` returns entries the last one has no
parents: its loop never stops at a parent it cannot resolve. -/
theorem reference_integrity (ids : List CommitID) (repo : Repo) (h : Reachable ids repo) :
    (∃ B, repo.head = { branchName := some B, commitID := none } ∧
      (repo.GetBranch B).isSome = true) ∧
    (∀ n b, repo.GetBranch n = some b →
      b.target = "" ∨ (repo.GetCommit b.target).isSome = true) ∧
    (∀ k c, repo.GetCommit k = some c → c.id = k) ∧
    (∀ k c, repo.GetCommit k = some c →
      c.parents = [] ∨ ∃ p, c.parents = [p] ∧ (repo.GetCommit p).isSome = true) ∧
    (∀ commitID, InMemoryEngine.Reset commitID repo ≠ .panic) ∧
    (∀ fuel entries repo', InMemoryEngine.Log fuel repo = some (.ok entries repo') →
      entries = [] ∨ ∃ e, entries.getLast? = some e ∧ e.Parents = []) := by
  have hin := h.integrity
  refine ⟨hin.head_on_branch, hin.branch_target, hin.key_eq_id, hin.parents, ?_, ?_⟩
  · intro commitID hp
    obtain ⟨B, hhead, hBsome⟩ := hin.head_on_branch
    obtain ⟨br, hbr⟩ := Option.isSome_iff_exists.mp hBsome
    have hB : repo.head.branchName = some B := by rw [hhead]
    cases hc : repo.GetCommit commitID with
    | none => simp [InMemoryEngine.Reset, hB, hc] at hp
    | some c =>
      rw [Reset_eq_ok commitID repo B br c hB hbr hc] at hp
      cases hp
  · intro fuel entries repo' hl
    cases hd : (describeHead repo).2 with
    | none =>
      left
      simp only [InMemoryEngine.Log, hd, Option.some.injEq, Outcome.ok.injEq] at hl
      exact hl.1.symm
    | some base =>
      right
      simp only [InMemoryEngine.Log, hd] at hl
      cases hloop : InMemoryEngine.LogLoop repo fuel base [] with
      | none => simp [hloop] at hl
      | some es =>
        simp only [hloop, Option.some.injEq, Outcome.ok.injEq] at hl
        rw [← hl.1]
        exact LogLoop_last_root hin fuel base [] es (describeHead_mem repo base hd) hloop

theorem reference_integrity_witness :
    Reachable ["child-2", "root-1"] secondCommitRepo ∧
    (∃ B, secondCommitRepo.head = { branchName := some B, commitID := none } ∧
      (secondCommitRepo.GetBranch B).isSome = true) ∧
    (∀ n b, secondCommitRepo.GetBranch n = some b →
      b.target = "" ∨ (secondCommitRepo.GetCommit b.target).isSome = true) ∧
    (∀ k c, secondCommitRepo.GetCommit k = some c → c.id = k) ∧
    (∀ k c, secondCommitRepo.GetCommit k = some c →
      c.parents = [] ∨ ∃ p, c.parents = [p] ∧ (secondCommitRepo.GetCommit p).isSome = true) ∧
    (∀ commitID, InMemoryEngine.Reset commitID secondCommitRepo ≠ .panic) ∧
    (∀ fuel entries repo', InMemoryEngine.Log fuel secondCommitRepo = some (.ok entries repo') →
      entries = [] ∨ ∃ e, entries.getLast? = some e ∧ e.Parents = []) :=
  ⟨secondCommitRepo_reachable,
    reference_integrity ["child-2", "root-1"] secondCommitRepo secondCommitRepo_reachable⟩

/-! ## The working directory covers the tracked paths -/

theorem map_Path_statusEntry (repo : Repo) :
    ((statusPaths repo).map
      (statusEntry repo.workingDirectory.files repo.index.entries
        (statusCommitTree repo))).map FileStatus.Path = statusPaths repo := by
  rw [List.map_map]
  have : (FileStatus.Path ∘ statusEntry repo.workingDirectory.files repo.index.entries
      (statusCommitTree repo)) = id := by
    funext path
    rfl
  rw [this, List.map_id]

theorem mem_statusPaths_iff (repo : Repo) (p : String) :
    p ∈ statusPaths repo ↔
      ((GoMap.get? (currentCommit repo).2 p).isSome = true ∨
       (GoMap.get? repo.index.entries p).isSome = true ∨
       (GoMap.get? repo.workingDirectory.files p).isSome = true) := by
  unfold statusPaths
  rw [GoMap.mem_keys_range_iff, GoMap.isSome_get?_keysInto, GoMap.isSome_get?_keysInto,
    GoMap.isSome_get?_keysInto, get?_statusCommitTree]
  simp only [GoMap.get?, Option.isSome_none, Bool.or_false, Bool.or_eq_true]
  tauto

/-- The current commit is found through HEAD, the branches and the commit graph only. -/
theorem currentCommit_congr {r₁ r₂ : Repo} (hc : r₁.commits = r₂.commits)
    (hb : r₁.branches = r₂.branches) (hh : r₁.head = r₂.head) :
    currentCommit r₁ = currentCommit r₂ := by
  simp only [currentCommit, Repo.GetBranch, Repo.GetCommit, hc, hb, hh]

theorem currentCommit_id_ne_empty (repo : Repo) (hid : (currentCommit repo).1 ≠ "") :
    ∃ B br, repo.head.branchName = some B ∧ repo.GetBranch B = some br := by
  cases hB : repo.head.branchName with
  | none => simp [currentCommit, hB] at hid
  | some B =>
    cases hbr : repo.GetBranch B with
    | none => simp [currentCommit, hB, hbr] at hid
    | some br => exact ⟨B, br, rfl, hbr⟩

/-- After `Add` returns, every staged path was staged before or is a working-directory
path. -/
theorem Add_after_index (compile : RegexpCompile) (s : String) (repo repo' : Repo)
    (h : (InMemoryEngine.Add compile s repo).after = some repo') (p : String)
    (hp : (GoMap.get? repo'.index.entries p).isSome = true) :
    (GoMap.get? repo.index.entries p).isSome = true ∨
    (GoMap.get? repo.workingDirectory.files p).isSome = true := by
  rcases Outcome.after_cases _ repo' h with ⟨e, he⟩ | ⟨v, hok⟩
  · rw [Add_err_unchanged compile s repo e repo' he] at hp
    exact Or.inl hp
  · cases hw : GoMap.get? repo.workingDirectory.files s with
    | some content =>
      rw [Add_literal compile s repo content hw, Outcome.ok.injEq] at hok
      rw [← hok.2] at hp
      by_cases hs : s = p
      · subst hs
        right
        simp [hw]
      · left
        simp only [Index.AddEntry] at hp
        rw [GoMap.get?_set_ne _ _ hs] at hp
        exact hp
    | none =>
      cases hc : compile s with
      | none =>
        rw [Add_invalid compile s repo hw hc] at hok
        cases hok
      | some r =>
        rw [Add_pattern compile s repo r hw hc] at hok
        split at hok
        · rw [Outcome.ok.injEq] at hok
          rw [← hok.2] at hp
          cases hg : GoMap.get? repo.workingDirectory.files p with
          | some c => right; rfl
          | none =>
            left
            have hn : GoMap.get? (GoMap.range repo.workingDirectory.files) p = none := by
              rw [GoMap.get?_range, hg]
            simp only at hp
            rw [addLoop_get?_other r _ _ p (Or.inl hn)] at hp
            exact hp
        · cases hok

theorem TrackedPathsCovered.covered_at_newRepo : TrackedPathsCovered NewRepo := by
  constructor
  · intro p hp
    simp [NewRepo, NewIndex, Repo.AddBranch, GoMap.get?] at hp
  · intro p hp
    have : currentCommit NewRepo = ("", []) := by decide
    rw [this] at hp
    simp [GoMap.get?] at hp

theorem TrackedPathsCovered.of_clean {repo : Repo} (hi : repo.index.entries = [])
    (hw : ∀ p, GoMap.get? repo.workingDirectory.files p = GoMap.get? (currentCommit repo).2 p) :
    TrackedPathsCovered repo := by
  constructor
  · intro p hp
    rw [hi] at hp
    simp [GoMap.get?] at hp
  · intro p hp
    rw [hw p]
    exact hp

theorem TrackedPathsCovered.covered_after_commit {repo : Repo} (h : TrackedPathsCovered repo)
    (idGen : CommitIDGenerator) (now : Timestamp) (message : String) (repo' : Repo)
    (hcommits : repo'.commits = GoMap.set repo.commits (builtCommit idGen now message repo).id
      (builtCommit idGen now message repo))
    (hbranches : repo'.branches =
      branchesAfterCommit repo (builtCommit idGen now message repo).id)
    (hhead : repo'.head = repo.head) (hindex : repo'.index.entries = [])
    (hwd : repo'.workingDirectory = repo.workingDirectory) :
    TrackedPathsCovered repo' := by
  constructor
  · intro p hp
    rw [hindex] at hp
    simp [GoMap.get?] at hp
  · intro p hp
    rw [hwd]
    cases hB : repo.head.branchName with
    | none =>
      have hB' : repo'.head.branchName = none := by rw [hhead, hB]
      simp [currentCommit, hB', GoMap.get?] at hp
    | some B =>
      have hB' : repo'.head.branchName = some B := by rw [hhead, hB]
      cases hbr : repo.GetBranch B with
      | none =>
        have hb' : repo'.GetBranch B = none := by
          have hba : branchesAfterCommit repo (builtCommit idGen now message repo).id =
              repo.branches := by
            simp only [branchesAfterCommit, hB, hbr]
          show GoMap.get? repo'.branches B = none
          rw [hbranches, hba]
          exact hbr
        simp [currentCommit, hB', hb', GoMap.get?] at hp
      | some br =>
        have hb' : repo'.GetBranch B =
            some (br.SetTarget (builtCommit idGen now message repo).id) := by
          have hba : branchesAfterCommit repo (builtCommit idGen now message repo).id =
              GoMap.set repo.branches B
                (br.SetTarget (builtCommit idGen now message repo).id) := by
            simp only [branchesAfterCommit, hB, hbr]
          show GoMap.get? repo'.branches B = _
          rw [hbranches, hba]
          exact GoMap.get?_set_self _ _ _
        rw [currentCommit_on_branch repo' B _ hB' hb'] at hp
        simp only [Branch.SetTarget, Repo.GetCommit, hcommits, GoMap.get?_set_self] at hp
        by_cases hid : (builtCommit idGen now message repo).id = ""
        · simp [hid, GoMap.get?] at hp
        · simp only [hid, if_false] at hp
          have ht := get?_commit_tree (currentCommit repo).2 repo.index.entries p
          have hbt : (builtCommit idGen now message repo).tree =
              GoMap.copyInto (GoMap.copyInto [] (currentCommit repo).2) repo.index.entries := rfl
          rw [hbt, ht] at hp
          cases hix : GoMap.get? repo.index.entries p with
          | some v => exact h.1 p (by simp [hix])
          | none =>
            rw [hix] at hp
            exact h.2 p hp

/-- Every call that returns keeps the tracked paths inside the working directory. -/
theorem TrackedPathsCovered.covered_after_run {repo repo' : Repo} (h : TrackedPathsCovered repo) (op : Op)
    (hr : op.run repo = some repo') : TrackedPathsCovered repo' := by
  cases op with
  | AddFileToWorkingDirectory path content =>
    simp only [Op.run, InMemoryEngine.AddFileToWorkingDirectory, Outcome.after,
      Option.some.injEq] at hr
    rw [← hr]
    constructor
    · intro p hp
      exact GoMap.isSome_get?_set_of_isSome _ _ _ _ (h.1 p hp)
    · intro p hp
      have hcur : currentCommit
          { repo with workingDirectory := repo.workingDirectory.AddFile path content } =
          currentCommit repo := currentCommit_congr rfl rfl rfl
      rw [hcur] at hp
      exact GoMap.isSome_get?_set_of_isSome _ _ _ _ (h.2 p hp)
  | Add compile pattern =>
    obtain ⟨hc, hb, hh, hw⟩ := Add_after_frame compile pattern repo repo' hr
    constructor
    · intro p hp
      rw [hw]
      rcases Add_after_index compile pattern repo repo' hr p hp with hi | hwd
      · exact h.1 p hi
      · exact hwd
    · intro p hp
      rw [currentCommit_congr hc hb hh] at hp
      rw [hw]
      exact h.2 p hp
  | Commit idGen now message =>
    rcases Outcome.after_cases _ repo' hr with ⟨e, he⟩ | ⟨id, hok⟩
    · rw [Commit_err_unchanged idGen now message repo e repo' he]
      exact h
    · obtain ⟨-, -, rfl⟩ := Commit_ok_inv idGen now message repo id repo' hok
      exact h.covered_after_commit idGen now message _ rfl rfl rfl rfl rfl
  | CheckoutBranch name =>
    rcases Outcome.after_cases _ repo' hr with ⟨e, he⟩ | ⟨v, hok⟩
    · rw [CheckoutBranch_err_unchanged name repo e repo' he]
      exact h
    · obtain ⟨hi, hw⟩ := CheckoutBranch_clean name repo repo' hok
      exact TrackedPathsCovered.of_clean hi hw
  | CreateBranch name =>
    rcases Outcome.after_cases _ repo' hr with ⟨e, he⟩ | ⟨v, hok⟩
    · rw [CreateBranch_err_unchanged name repo e repo' he]
      exact h
    · obtain ⟨hn, hid, rfl⟩ := CreateBranch_ok_inv name repo repo' hok
      obtain ⟨B, br, hB, hbr⟩ := currentCommit_id_ne_empty repo hid
      have hne : name ≠ B := by
        intro hh
        rw [hh, hbr] at hn
        cases hn
      have hbr' : Repo.GetBranch
          (repo.AddBranch name { name := name, target := (currentCommit repo).1 }) B =
          some br := by
        simp only [Repo.GetBranch, Repo.AddBranch]
        rw [GoMap.get?_set_ne _ _ hne]
        exact hbr
      have hcur : currentCommit
          (repo.AddBranch name { name := name, target := (currentCommit repo).1 }) =
          currentCommit repo := by
        have hB' : Head.branchName (Repo.head
            (repo.AddBranch name { name := name, target := (currentCommit repo).1 })) =
            some B := hB
        rw [currentCommit_on_branch
          (repo.AddBranch name { name := name, target := (currentCommit repo).1 }) B br hB' hbr']
        rw [currentCommit_on_branch repo B br hB hbr]
        rfl
      constructor
      · exact h.1
      · intro p hp
        rw [hcur] at hp
        exact h.2 p hp
  | Status =>
    simp only [Op.run, Status_after, Option.some.injEq] at hr
    rw [← hr]
    exact h
  | Log fuel =>
    simp only [Op.run] at hr
    cases hl : InMemoryEngine.Log fuel repo with
    | none => simp [hl] at hr
    | some out =>
      rw [hl] at hr
      change out.after = some repo' at hr
      rw [Log_after fuel repo out hl, Option.some.injEq] at hr
      rw [← hr]
      exact h
  | Reset commitID =>
    rcases Outcome.after_cases _ repo' hr with ⟨e, he⟩ | ⟨v, hok⟩
    · rw [Reset_err_unchanged commitID repo e repo' he]
      exact h
    · obtain ⟨hi, hw⟩ := Reset_clean commitID repo repo' hok
      exact TrackedPathsCovered.of_clean hi hw

theorem Reachable.covered {ids : List CommitID} {repo : Repo} (h : Reachable ids repo) :
    TrackedPathsCovered repo := by
  induction h with
  | init => exact TrackedPathsCovered.covered_at_newRepo
  | step op _ hr ih => exact ih.covered_after_run op hr

/-- C20. Working directory covers tracked paths: in every state reachable from `NewRepo()`
by engine calls, every path of the Index and every path of the current commit's tree is a
path of the working directory; so `Status` lists exactly the working-directory paths, and
every path it reports is in the working directory. -/
theorem working_directory_covers_tracked (ids : List CommitID) (repo : Repo)
    (h : Reachable ids repo) :
    (∀ p, (GoMap.get? repo.index.entries p).isSome = true →
      (GoMap.get? repo.workingDirectory.files p).isSome = true) ∧
    (∀ p, (GoMap.get? (currentCommit repo).2 p).isSome = true →
      (GoMap.get? repo.workingDirectory.files p).isSome = true) ∧
    ∃ res, InMemoryEngine.Status repo = .ok res repo ∧
      (∀ p, p ∈ res.Files.map FileStatus.Path ↔
        (GoMap.get? repo.workingDirectory.files p).isSome = true) ∧
      ∀ f, f ∈ res.Files → (GoMap.get? repo.workingDirectory.files f.Path).isSome = true := by
  have hcov := h.covered
  have hmem : ∀ p, p ∈ ((statusPaths repo).map
      (statusEntry repo.workingDirectory.files repo.index.entries
        (statusCommitTree repo))).map FileStatus.Path ↔
      (GoMap.get? repo.workingDirectory.files p).isSome = true := by
    intro p
    rw [map_Path_statusEntry, mem_statusPaths_iff]
    constructor
    · rintro (ht | hi | hw)
      · exact hcov.2 p ht
      · exact hcov.1 p hi
      · exact hw
    · intro hw
      exact Or.inr (Or.inr hw)
  refine ⟨hcov.1, hcov.2, _, Status_eq repo, hmem, ?_⟩
  intro f hf
  exact (hmem f.Path).mp (List.mem_map_of_mem FileStatus.Path hf)

theorem working_directory_covers_tracked_witness :
    Reachable ["root-1"] stagedSecondRepo ∧
    (∀ p, (GoMap.get? stagedSecondRepo.index.entries p).isSome = true →
      (GoMap.get? stagedSecondRepo.workingDirectory.files p).isSome = true) ∧
    (∀ p, (GoMap.get? (currentCommit stagedSecondRepo).2 p).isSome = true →
      (GoMap.get? stagedSecondRepo.workingDirectory.files p).isSome = true) ∧
    ∃ res, InMemoryEngine.Status stagedSecondRepo = .ok res stagedSecondRepo ∧
      (∀ p, p ∈ res.Files.map FileStatus.Path ↔
        (GoMap.get? stagedSecondRepo.workingDirectory.files p).isSome = true) ∧
      ∀ f, f ∈ res.Files →
        (GoMap.get? stagedSecondRepo.workingDirectory.files f.Path).isSome = true :=
  ⟨stagedSecondRepo_reachable,
    working_directory_covers_tracked ["root-1"] stagedSecondRepo stagedSecondRepo_reachable⟩

/-! ## Termination of Log -/

theorem GoMap.get?_append_of_some {κ ν : Type} [DecidableEq κ] (l l' : GoMap κ ν) (p : κ)
    (x : ν) (h : GoMap.get? l p = some x) : GoMap.get? (l ++ l') p = some x := by
  induction l with
  | nil => simp [GoMap.get?] at h
  | cons e l ih =>
    obtain ⟨k, v⟩ := e
    by_cases hk : k = p
    · simp only [GoMap.get?, hk, if_true] at h
      simp [GoMap.get?, hk, h]
    · simp only [GoMap.get?, hk, if_false] at h
      simp [GoMap.get?, hk, ih h]

theorem GoMap.get?_append_single_of_none {κ ν : Type} [DecidableEq κ] (l : GoMap κ ν)
    (k p : κ) (v : ν) (h : GoMap.get? l p = none) :
    GoMap.get? (l ++ [(k, v)]) p = if k = p then some v else none := by
  induction l with
  | nil => simp [GoMap.get?]
  | cons e l ih =>
    obtain ⟨k', v'⟩ := e
    by_cases hk : k' = p
    · simp [GoMap.get?, hk] at h
    · simp only [GoMap.get?, hk, if_false] at h
      simp [GoMap.get?, hk, ih h]

theorem Grounded.len_eq_length {l : GoMap CommitID VCS.Commit} (h : Grounded l) :
    GoMap.len l = l.length := by
  induction h with
  | nil => rfl
  | snoc l k c _ hk _ ih =>
    have := GoMap.len_set_of_get?_eq_none l k c hk
    rw [GoMap.set_eq_append_of_get?_eq_none l k c hk] at this
    rw [this, ih]
    simp

/-- In a grounded graph the first-parent chain from every commit exists and is no longer than
the graph. -/
theorem Grounded.chain {l : GoMap CommitID VCS.Commit} (h : Grounded l) (repo : Repo)
    (hext : ∀ p v, GoMap.get? l p = some v → repo.GetCommit p = some v) (k : CommitID)
    (c : VCS.Commit) (hk : GoMap.get? l k = some c) :
    ∃ chain, FirstParentChain repo c chain ∧ chain.length ≤ l.length := by
  induction h generalizing k c with
  | nil => simp [GoMap.get?] at hk
  | snoc l k₀ c₀ _ hnew hpar ih =>
    have hext' : ∀ p v, GoMap.get? l p = some v → repo.GetCommit p = some v := by
      intro p v hp
      exact hext p v (GoMap.get?_append_of_some l _ p v hp)
    cases hl : GoMap.get? l k with
    | some c' =>
      rw [GoMap.get?_append_of_some l _ k c' hl, Option.some.injEq] at hk
      subst hk
      obtain ⟨chain, hch, hlen⟩ := ih hext' k c' hl
      exact ⟨chain, hch, by simp; omega⟩
    | none =>
      rw [GoMap.get?_append_single_of_none l k₀ k c₀ hl] at hk
      by_cases hkk : k₀ = k
      · simp only [hkk, if_true, Option.some.injEq] at hk
        subst hk
        cases hp : c₀.parents with
        | nil => exact ⟨[c₀], .root c₀ hp, by simp⟩
        | cons p rest =>
          obtain ⟨next, hnext⟩ := Option.isSome_iff_exists.mp (hpar p rest hp)
          obtain ⟨chain, hch, hlen⟩ := ih hext' p next hnext
          exact ⟨c₀ :: chain, .step c₀ p rest next chain hp (hext' p next hnext) hch,
            by simp; omega⟩
      · simp [hkk] at hk

/-- A call that is not a successful `Commit` leaves the commit graph as it was and has no id
generated. -/
theorem Op.run_commits (op : Op) (repo repo' : Repo) (hr : op.run repo = some repo')
    (h : ∀ idGen now message id, op = .Commit idGen now message →
      InMemoryEngine.Commit idGen now message repo ≠ .ok id repo') :
    repo'.commits = repo.commits ∧ op.issued repo = [] := by
  cases op with
  | AddFileToWorkingDirectory path content =>
    exact ⟨AddFileToWorkingDirectory_commits path content repo repo' hr, rfl⟩
  | Add compile pattern => exact ⟨Add_commits compile pattern repo repo' hr, rfl⟩
  | Commit idGen now message =>
    rcases Outcome.after_cases _ repo' hr with ⟨e, he⟩ | ⟨id, hok⟩
    · refine ⟨by rw [Commit_err_unchanged idGen now message repo e repo' he], ?_⟩
      simp only [Op.issued, he]
    · exact absurd hok (h idGen now message id rfl)
  | CheckoutBranch name => exact ⟨CheckoutBranch_commits name repo repo' hr, rfl⟩
  | CreateBranch name => exact ⟨CreateBranch_commits name repo repo' hr, rfl⟩
  | Status =>
    simp only [Op.run, Status_after, Option.some.injEq] at hr
    exact ⟨by rw [← hr], rfl⟩
  | Log fuel =>
    simp only [Op.run] at hr
    cases hl : InMemoryEngine.Log fuel repo with
    | none => simp [hl] at hr
    | some out =>
      rw [hl] at hr
      change out.after = some repo' at hr
      rw [Log_after fuel repo out hl, Option.some.injEq] at hr
      exact ⟨by rw [← hr], rfl⟩
  | Reset commitID => exact ⟨Reset_commits commitID repo repo' hr, rfl⟩

/-- With a generator that never repeats an id, the reachable graphs are grounded and their
keys are ids the generator returned. -/
theorem Reachable.grounded {ids : List CommitID} {repo : Repo} (h : Reachable ids repo)
    (hnd : ids.Nodup) :
    Grounded repo.commits ∧ ∀ k, (repo.GetCommit k).isSome = true → k ∈ ids := by
  induction h with
  | init =>
    refine ⟨Grounded.nil, ?_⟩
    intro k hk
    simp [NewRepo, Repo.GetCommit, Repo.AddBranch, GoMap.get?] at hk
  | @step op ids repo repo' hreach hr ih =>
    have hin := hreach.integrity
    by_cases hcommit : ∃ idGen now message id, op = .Commit idGen now message ∧
        InMemoryEngine.Commit idGen now message repo = .ok id repo'
    · obtain ⟨idGen, now, message, id, rfl, hok⟩ := hcommit
      have hiss : (Op.Commit idGen now message).issued repo = [id] := by
        simp only [Op.issued, hok]
      rw [hiss] at hnd ⊢
      simp only [List.singleton_append, List.nodup_cons] at hnd
      obtain ⟨hg, hkeys⟩ := ih hnd.2
      obtain ⟨-, hid, rfl⟩ := Commit_ok_inv idGen now message repo id _ hok
      have hnew : GoMap.get? repo.commits id = none := by
        cases hget : GoMap.get? repo.commits id with
        | none => rfl
        | some c => exact absurd (hkeys id (by simp [Repo.GetCommit, hget])) hnd.1
      rw [← hid]
      constructor
      · show Grounded (GoMap.set repo.commits id (builtCommit idGen now message repo))
        rw [GoMap.set_eq_append_of_get?_eq_none _ _ _ hnew]
        apply Grounded.snoc _ _ _ hg hnew
        intro p rest hp
        by_cases hcur : (currentCommit repo).1 = ""
        · simp [builtCommit, hcur] at hp
        · obtain ⟨B', br', pc, -, -, -, hpc, hcur', -⟩ := hin.currentCommit_id hcur
          simp only [builtCommit, hcur, ne_eq, not_false_eq_true, if_true, List.cons.injEq] at hp
          rw [← hp.1, hcur']
          have hpc' : GoMap.get? repo.commits br'.target = some pc := hpc
          simp [hpc']
      · intro k hk
        simp only [Repo.GetCommit] at hk
        by_cases hkid : id = k
        · simp [hkid]
        · rw [GoMap.get?_set_ne _ _ hkid] at hk
          exact List.mem_cons_of_mem _ (hkeys k hk)
    · have hno : ∀ idGen now message id, op = .Commit idGen now message →
          InMemoryEngine.Commit idGen now message repo ≠ .ok id repo' := by
        intro idGen now message id hop hok
        exact hcommit ⟨idGen, now, message, id, hop, hok⟩
      obtain ⟨hc, hiss⟩ := Op.run_commits op repo repo' hr hno
      rw [hiss] at hnd ⊢
      simp only [List.nil_append] at hnd ⊢
      obtain ⟨hg, hkeys⟩ := ih hnd
      simp only [Repo.GetCommit, hc]
      exact ⟨hg, hkeys⟩

/-- A first-parent ancestor has a strictly shorter first-parent chain. -/
theorem chain_lt_of_transGen {repo : Repo} {a b : CommitID}
    (h : Relation.TransGen (IsFirstParent repo) a b) (cb : VCS.Commit)
    (lb : List VCS.Commit) (hb : repo.GetCommit b = some cb)
    (hlb : FirstParentChain repo cb lb) :
    ∃ ca la, repo.GetCommit a = some ca ∧ FirstParentChain repo ca la ∧
      lb.length < la.length := by
  induction h generalizing cb lb with
  | single hab =>
    obtain ⟨ca, rest, hca, hp⟩ := hab
    exact ⟨ca, ca :: lb, hca, .step ca _ rest cb lb hp hb hlb, by simp⟩
  | tail _ hmb ih =>
    obtain ⟨cm, rest, hcm, hp⟩ := hmb
    obtain ⟨ca, la, hca, hla, hlt⟩ := ih cm (cm :: lb) hcm (.step cm _ rest cb lb hp hb hlb)
    exact ⟨ca, la, hca, hla, by simp at hlt; omega⟩

/-- C17. Log termination: in every state reachable from `NewRepo()` by engine calls with a
generator that never returns an id it has returned before, no commit is its own first-parent
ancestor; the first-parent chain from every commit of the graph is finite, with at most as
many commits as the graph has, and the loop of `Log` started there ends within that many
iterations; so `Log` itself returns within as many iterations as there are commits. -/
theorem log_terminates (ids : List CommitID) (repo : Repo) (h : Reachable ids repo)
    (hnd : ids.Nodup) :
    (∀ k, ¬ Relation.TransGen (IsFirstParent repo) k k) ∧
    (∀ k c, repo.GetCommit k = some c →
      ∃ chain, FirstParentChain repo c chain ∧ chain.length ≤ GoMap.len repo.commits ∧
        ∀ acc, InMemoryEngine.LogLoop repo (GoMap.len repo.commits) c acc =
          some (acc ++ chain.map LogEntry.ofCommit)) ∧
    (∃ entries, InMemoryEngine.Log (GoMap.len repo.commits) repo = some (.ok entries repo) ∧
      entries.length ≤ GoMap.len repo.commits) := by
  have hg := (h.grounded hnd).1
  have hlen := hg.len_eq_length
  have hchain : ∀ k c, repo.GetCommit k = some c →
      ∃ chain, FirstParentChain repo c chain ∧ chain.length ≤ GoMap.len repo.commits := by
    intro k c hk
    obtain ⟨chain, hch, hl⟩ := hg.chain repo (fun p v hp => hp) k c hk
    exact ⟨chain, hch, by rw [hlen]; exact hl⟩
  refine ⟨?_, ?_, ?_⟩
  · intro k hkk
    obtain ⟨x, hkx, -⟩ := Relation.TransGen.head'_iff.mp hkk
    obtain ⟨ck, rest, hck, -⟩ := hkx
    obtain ⟨lk, hlk, -⟩ := hchain k ck hck
    obtain ⟨ca, la, hca, hla, hlt⟩ := chain_lt_of_transGen hkk ck lk hck hlk
    rw [hck, Option.some.injEq] at hca
    subst hca
    rw [hla.unique hlk] at hlt
    exact Nat.lt_irrefl _ hlt
  · intro k c hk
    obtain ⟨chain, hch, hl⟩ := hchain k c hk
    exact ⟨chain, hch, hl, fun acc => LogLoop_of_chain hch _ acc hl⟩
  · cases hd : (describeHead repo).2 with
    | none =>
      refine ⟨[], ?_, by simp⟩
      simp [InMemoryEngine.Log, hd]
    | some base =>
      obtain ⟨k, hk⟩ := describeHead_mem repo base hd
      obtain ⟨chain, hch, hl⟩ := hchain k base hk
      refine ⟨chain.map LogEntry.ofCommit, ?_, by simpa using hl⟩
      simp only [InMemoryEngine.Log, hd]
      rw [LogLoop_of_chain hch _ [] hl]
      simp

theorem log_terminates_witness :
    Reachable ["child-2", "root-1"] secondCommitRepo ∧ ["child-2", "root-1"].Nodup ∧
    InMemoryEngine.Log 2 secondCommitRepo =
      some (.ok [{ ID := "child-2", Message := "second", Timestamp := 2, Parents := ["root-1"] },
                 { ID := "root-1", Message := "first", Timestamp := 1, Parents := [] }]
        secondCommitRepo) ∧
    (∀ k, ¬ Relation.TransGen (IsFirstParent secondCommitRepo) k k) ∧
    (∀ k c, secondCommitRepo.GetCommit k = some c →
      ∃ chain, FirstParentChain secondCommitRepo c chain ∧
        chain.length ≤ GoMap.len secondCommitRepo.commits ∧
        ∀ acc, InMemoryEngine.LogLoop secondCommitRepo (GoMap.len secondCommitRepo.commits) c
          acc = some (acc ++ chain.map LogEntry.ofCommit)) ∧
    (∃ entries,
      InMemoryEngine.Log (GoMap.len secondCommitRepo.commits) secondCommitRepo =
        some (.ok entries secondCommitRepo) ∧
      entries.length ≤ GoMap.len secondCommitRepo.commits) :=
  ⟨secondCommitRepo_reachable, by decide, by decide,
    log_terminates ["child-2", "root-1"] secondCommitRepo secondCommitRepo_reachable
      (by decide)⟩

/-! ## Log after Commit -/

/-- More iterations allowed do not change what the loop of `Log` returns. -/
theorem LogLoop_mono (repo : Repo) (f f' : Nat) (c : VCS.Commit) (acc r : List LogEntry)
    (h : InMemoryEngine.LogLoop repo f c acc = some r) (hle : f ≤ f') :
    InMemoryEngine.LogLoop repo f' c acc = some r := by
  induction f generalizing f' c acc with
  | zero => simp [InMemoryEngine.LogLoop] at h
  | succ n ih =>
    cases f' with
    | zero => omega
    | succ m =>
      cases hp : c.parents with
      | nil =>
        rw [LogLoop_succ_root repo n c acc hp] at h
        rw [LogLoop_succ_root repo m c acc hp]
        exact h
      | cons p rest =>
        cases hn : repo.GetCommit p with
        | none =>
          rw [LogLoop_succ_unresolved repo n c acc p rest hp hn] at h
          rw [LogLoop_succ_unresolved repo m c acc p rest hp hn]
          exact h
        | some next =>
          rw [LogLoop_succ_step repo n c acc p rest next hp hn] at h
          rw [LogLoop_succ_step repo m c acc p rest next hp hn]
          exact ih m next _ h (by omega)

/-- The loop of `Log` appends to what it is given. -/
theorem LogLoop_acc (repo : Repo) (f : Nat) (c : VCS.Commit) (acc : List LogEntry) :
    InMemoryEngine.LogLoop repo f c acc =
      (InMemoryEngine.LogLoop repo f c []).map (fun r => acc ++ r) := by
  induction f generalizing c acc with
  | zero => simp [InMemoryEngine.LogLoop]
  | succ n ih =>
    cases hp : c.parents with
    | nil =>
      rw [LogLoop_succ_root repo n c acc hp, LogLoop_succ_root repo n c [] hp]
      simp
    | cons p rest =>
      cases hn : repo.GetCommit p with
      | none =>
        rw [LogLoop_succ_unresolved repo n c acc p rest hp hn,
          LogLoop_succ_unresolved repo n c [] p rest hp hn]
        simp
      | some next =>
        rw [LogLoop_succ_step repo n c acc p rest next hp hn,
          LogLoop_succ_step repo n c [] p rest next hp hn]
        rw [ih next (acc ++ [LogEntry.ofCommit c]), ih next ([] ++ [LogEntry.ofCommit c])]
        cases InMemoryEngine.LogLoop repo n next [] with
        | none => rfl
        | some r => simp

/-- Storing a commit under a new key does not change the loop of `Log` started at an earlier
commit, when every earlier commit's parent is a key of the graph. -/
theorem LogLoop_extend {repo repo' : Repo} (hin : ReferenceIntegrity repo) (X : CommitID)
    (new : VCS.Commit) (hnew : repo.GetCommit X = none)
    (hc' : repo'.commits = GoMap.set repo.commits X new) (f : Nat) (c : VCS.Commit)
    (acc : List LogEntry) (hc : ∃ k, repo.GetCommit k = some c) :
    InMemoryEngine.LogLoop repo' f c acc = InMemoryEngine.LogLoop repo f c acc := by
  induction f generalizing c acc with
  | zero => simp [InMemoryEngine.LogLoop]
  | succ n ih =>
    obtain ⟨k, hk⟩ := hc
    rcases hin.parents k c hk with hp | ⟨p, hp, hps⟩
    · rw [LogLoop_succ_root repo n c acc hp, LogLoop_succ_root repo' n c acc hp]
    · obtain ⟨next, hnext⟩ := Option.isSome_iff_exists.mp hps
      have hpX : X ≠ p := by
        intro hh
        rw [hh, hnext] at hnew
        cases hnew
      have hnext' : repo'.GetCommit p = some next := by
        simp only [Repo.GetCommit, hc']
        rw [GoMap.get?_set_ne _ _ hpX]
        exact hnext
      rw [LogLoop_succ_step repo n c acc p [] next hp hnext,
        LogLoop_succ_step repo' n c acc p [] next hp hnext']
      exact ih next _ ⟨p, hnext⟩

/-- Under reference integrity, `currentCommit` returns the empty id exactly when `describeHead`
finds no commit. -/
theorem ReferenceIntegrity.describeHead_none {repo : Repo} (h : ReferenceIntegrity repo)
    (hid : (currentCommit repo).1 = "") : (describeHead repo).2 = none := by
  cases hB : repo.head.branchName with
  | none => simp [describeHead, hB]
  | some B =>
    cases hbr : repo.GetBranch B with
    | none => simp [describeHead, hB, hbr]
    | some br =>
      by_cases ht : br.target = ""
      · simp [describeHead, hB, hbr, ht]
      · cases hc : repo.GetCommit br.target with
        | none => simp [describeHead, hB, hbr, ht, hc]
        | some pc =>
          rw [currentCommit_on_branch repo B br hB hbr] at hid
          simp only [ht, if_false, hc] at hid
          rw [h.key_eq_id br.target pc hc] at hid
          exact absurd hid ht

/-- C18. Log grows by prepending: in a state reachable from `NewRepo()` by engine calls, if
`Log` returns `L` and then `Commit(m)` succeeds returning a non-empty id `X` that was not a
key of the graph, the next `Log` (given one more iteration, or more) returns the entry of the
new commit, with id `X`, message `m`, the commit's timestamp and parents, followed by
exactly `L`. -/
theorem log_grows_by_prepending (ids : List CommitID) (repo : Repo) (h : Reachable ids repo)
    (idGen : CommitIDGenerator) (now : Timestamp) (m : String) (X : CommitID) (repo' : Repo)
    (fuel : Nat) (L : List LogEntry)
    (hlog : InMemoryEngine.Log fuel repo = some (.ok L repo))
    (hcommit : InMemoryEngine.Commit idGen now m repo = .ok X repo')
    (hX : X ≠ "") (hnew : repo.GetCommit X = none) :
    ∃ c, repo'.GetCommit X = some c ∧ c.id = X ∧ c.message = m ∧ c.timestamp = now ∧
      ∀ fuel', fuel + 1 ≤ fuel' →
        InMemoryEngine.Log fuel' repo' =
          some (.ok ({ ID := X, Message := m, Timestamp := c.timestamp, Parents := c.parents }
            :: L) repo') := by
  have hin := h.integrity
  obtain ⟨B, hhead, hBsome⟩ := hin.head_on_branch
  obtain ⟨br, hbr⟩ := Option.isSome_iff_exists.mp hBsome
  have hB : repo.head.branchName = some B := by rw [hhead]
  obtain ⟨-, hid, hrepo'⟩ := Commit_ok_inv idGen now m repo X repo' hcommit
  have hcommits : repo'.commits = GoMap.set repo.commits X (builtCommit idGen now m repo) := by
    rw [hrepo', hid]
  have hget : repo'.GetCommit X = some (builtCommit idGen now m repo) := by
    simp only [Repo.GetCommit, hcommits, GoMap.get?_set_self]
  have hB' : repo'.head.branchName = some B := by rw [hrepo']; exact hB
  have hbr' : repo'.GetBranch B = some (br.SetTarget X) := by
    have hba : branchesAfterCommit repo (builtCommit idGen now m repo).id =
        GoMap.set repo.branches B (br.SetTarget X) := by
      simp only [branchesAfterCommit, hB, hbr, hid]
    have hbs : repo'.branches = GoMap.set repo.branches B (br.SetTarget X) := by
      rw [hrepo']
      exact hba
    show GoMap.get? repo'.branches B = _
    rw [hbs]
    exact GoMap.get?_set_self _ _ _
  have hd' : describeHead repo' = (B, some (builtCommit idGen now m repo)) :=
    describeHead_resolved repo' B (br.SetTarget X) _ hB' hbr' hX hget
  refine ⟨builtCommit idGen now m repo, hget, hid.symm, rfl, rfl, ?_⟩
  intro fuel' hf
  obtain ⟨n, rfl⟩ : ∃ n, fuel' = n + 1 := ⟨fuel' - 1, by omega⟩
  have hn : fuel ≤ n := by omega
  have hentry : LogEntry.mk X m (builtCommit idGen now m repo).timestamp
      (builtCommit idGen now m repo).parents =
      LogEntry.ofCommit (builtCommit idGen now m repo) := by
    simp only [LogEntry.ofCommit, ← hid]
    rfl
  rw [hentry]
  simp only [InMemoryEngine.Log, hd']
  by_cases hcur : (currentCommit repo).1 = ""
  · have hL : L = [] := by
      simp only [InMemoryEngine.Log, hin.describeHead_none hcur, Option.some.injEq,
        Outcome.ok.injEq, and_true] at hlog
      exact hlog.symm
    have hp : (builtCommit idGen now m repo).parents = [] := by
      simp [builtCommit, hcur]
    rw [LogLoop_succ_root repo' n _ [] hp, hL]
    rfl
  · obtain ⟨B₀, br₀, pc, hB₀, hbr₀, ht₀, hpc, hcur', -⟩ := hin.currentCommit_id hcur
    have hd : describeHead repo = (B₀, some pc) :=
      describeHead_resolved repo B₀ br₀ pc hB₀ hbr₀ ht₀ hpc
    have hloop : InMemoryEngine.LogLoop repo fuel pc [] = some L := by
      simp only [InMemoryEngine.Log, hd] at hlog
      cases hl : InMemoryEngine.LogLoop repo fuel pc [] with
      | none => simp [hl] at hlog
      | some es =>
        simp only [hl, Option.some.injEq, Outcome.ok.injEq, and_true] at hlog
        rw [hlog]
    have hp : (builtCommit idGen now m repo).parents = [br₀.target] := by
      simp [builtCommit, hcur', ht₀]
    have hXt : X ≠ br₀.target := by
      intro hh
      rw [hh, hpc] at hnew
      cases hnew
    have hpc' : repo'.GetCommit br₀.target = some pc := by
      simp only [Repo.GetCommit, hcommits]
      rw [GoMap.get?_set_ne _ _ hXt]
      exact hpc
    rw [LogLoop_succ_step repo' n _ [] br₀.target [] pc hp hpc']
    rw [LogLoop_extend hin X _ hnew hcommits n pc _ ⟨br₀.target, hpc⟩]
    rw [LogLoop_acc, LogLoop_mono repo fuel n pc [] L hloop hn]
    rfl

theorem log_grows_by_prepending_witness :
    Reachable ["root-1"] stagedSecondRepo ∧
    InMemoryEngine.Log 1 stagedSecondRepo =
      some (.ok [{ ID := "root-1", Message := "first", Timestamp := 1, Parents := [] }]
        stagedSecondRepo) ∧
    InMemoryEngine.Commit sampleIdGen 2 "second" stagedSecondRepo =
      .ok "child-2" secondCommitRepo ∧
    "child-2" ≠ "" ∧ stagedSecondRepo.GetCommit "child-2" = none ∧
    ∃ c, secondCommitRepo.GetCommit "child-2" = some c ∧ c.id = "child-2" ∧
      c.message = "second" ∧ c.timestamp = 2 ∧
      ∀ fuel', 1 + 1 ≤ fuel' →
        InMemoryEngine.Log fuel' secondCommitRepo =
          some (.ok
            ({ ID := "child-2", Message := "second", Timestamp := c.timestamp, Parents := c.parents } ::
              [{ ID := "root-1", Message := "first", Timestamp := 1, Parents := [] }])
            secondCommitRepo) :=
  ⟨stagedSecondRepo_reachable, by decide, by decide, by decide, by decide,
    log_grows_by_prepending ["root-1"] stagedSecondRepo stagedSecondRepo_reachable
      sampleIdGen 2 "second" "child-2" secondCommitRepo 1
      [{ ID := "root-1", Message := "first", Timestamp := 1, Parents := [] }]
      (by decide) (by decide) (by decide) (by decide)⟩

/-! ## The example scenario -/

/-- C15. Example scenario: from `NewRepo()`, when the generator answers `X` for the first
commit and `Y` for the second, with `X` non-empty and the two distinct, every call of
`AddFileToWorkingDirectory("a.txt","1")`, `Add("a.txt")`, `Commit("c1")`, `CreateBranch("feat")`,
`CheckoutBranch("feat")`, `AddFileToWorkingDirectory("b.txt","2")`, `Add("b.txt")`,
`Commit("c2")`, `CheckoutBranch("main")` succeeds; `Commit("c1")` returns `X`; `Status` right
after it lists `a.txt` alone, with no flag set; the commit made by `Commit("c2")` has parents
`[X]`; at the end the working directory is exactly `a.txt` with content `1`, and `Log`, given
at least one iteration, returns exactly one entry, with id `X` and message `c1`. -/
theorem example_scenario (g₁ g₂ : CommitIDGenerator) (t₁ t₂ : Timestamp)
    (compile₁ compile₂ : RegexpCompile) (X Y : CommitID)
    (hg₁ : g₁ [("a.txt", "1")] [] t₁ = X)
    (hg₂ : g₂ [("a.txt", "1"), ("b.txt", "2")] [X] t₂ = Y)
    (hX : X ≠ "") (hXY : X ≠ Y) :
    ∃ s₁ s₂ s₃ s₄ s₅ s₆ s₇ s₈ s₉ : Repo,
      InMemoryEngine.AddFileToWorkingDirectory "a.txt" "1" NewRepo = .ok () s₁ ∧
      InMemoryEngine.Add compile₁ "a.txt" s₁ = .ok () s₂ ∧
      InMemoryEngine.Commit g₁ t₁ "c1" s₂ = .ok X s₃ ∧
      InMemoryEngine.Status s₃ =
        .ok { HeadDescription := "main",
              Files := [{ Path := "a.txt", Staged := false, Modified := false,
                          Untracked := false }] } s₃ ∧
      InMemoryEngine.CreateBranch "feat" s₃ = .ok () s₄ ∧
      InMemoryEngine.CheckoutBranch "feat" s₄ = .ok () s₅ ∧
      InMemoryEngine.AddFileToWorkingDirectory "b.txt" "2" s₅ = .ok () s₆ ∧
      InMemoryEngine.Add compile₂ "b.txt" s₆ = .ok () s₇ ∧
      InMemoryEngine.Commit g₂ t₂ "c2" s₇ = .ok Y s₈ ∧
      (∃ c, s₈.GetCommit Y = some c ∧ c.message = "c2" ∧ c.parents = [X]) ∧
      InMemoryEngine.CheckoutBranch "main" s₈ = .ok () s₉ ∧
      s₉.workingDirectory.files = [("a.txt", "1")] ∧
      ∀ fuel, 1 ≤ fuel →
        InMemoryEngine.Log fuel s₉ =
          some (.ok [{ ID := X, Message := "c1", Timestamp := t₁, Parents := [] }] s₉) := by
  have hmf : ¬ ("main" : String) = "feat" := by decide
  have hab : ¬ ("a.txt" : String) = "b.txt" := by decide
  refine ⟨
    { NewRepo with workingDirectory := { files := [("a.txt", "1")] } },
    stagedFirstRepo,
    { commits := [(X, { id := X, parents := [], message := "c1", timestamp := t₁,
                        tree := [("a.txt", "1")] })]
      branches := [("main", { name := "main", target := X })]
      head := { branchName := some "main", commitID := none }
      index := { entries := [] }
      workingDirectory := { files := [("a.txt", "1")] } },
    { commits := [(X, { id := X, parents := [], message := "c1", timestamp := t₁,
                        tree := [("a.txt", "1")] })]
      branches := [("main", { name := "main", target := X }),
                   ("feat", { name := "feat", target := X })]
      head := { branchName := some "main", commitID := none }
      index := { entries := [] }
      workingDirectory := { files := [("a.txt", "1")] } },
    { commits := [(X, { id := X, parents := [], message := "c1", timestamp := t₁,
                        tree := [("a.txt", "1")] })]
      branches := [("main", { name := "main", target := X }),
                   ("feat", { name := "feat", target := X })]
      head := { branchName := some "feat", commitID := none }
      index := { entries := [] }
      workingDirectory := { files := [("a.txt", "1")] } },
    { commits := [(X, { id := X, parents := [], message := "c1", timestamp := t₁,
                        tree := [("a.txt", "1")] })]
      branches := [("main", { name := "main", target := X }),
                   ("feat", { name := "feat", target := X })]
      head := { branchName := some "feat", commitID := none }
      index := { entries := [] }
      workingDirectory := { files := [("a.txt", "1"), ("b.txt", "2")] } },
    { commits := [(X, { id := X, parents := [], message := "c1", timestamp := t₁,
                        tree := [("a.txt", "1")] })]
      branches := [("main", { name := "main", target := X }),
                   ("feat", { name := "feat", target := X })]
      head := { branchName := some "feat", commitID := none }
      index := { entries := [("b.txt", "2")] }
      workingDirectory := { files := [("a.txt", "1"), ("b.txt", "2")] } },
    { commits := [(X, { id := X, parents := [], message := "c1", timestamp := t₁,
                        tree := [("a.txt", "1")] }),
                  (Y, { id := Y, parents := [X], message := "c2", timestamp := t₂,
                        tree := [("a.txt", "1"), ("b.txt", "2")] })]
      branches := [("main", { name := "main", target := X }),
                   ("feat", { name := "feat", target := Y })]
      head := { branchName := some "feat", commitID := none }
      index := { entries := [] }
      workingDirectory := { files := [("a.txt", "1"), ("b.txt", "2")] } },
    { commits := [(X, { id := X, parents := [], message := "c1", timestamp := t₁,
                        tree := [("a.txt", "1")] }),
                  (Y, { id := Y, parents := [X], message := "c2", timestamp := t₂,
                        tree := [("a.txt", "1"), ("b.txt", "2")] })]
      branches := [("main", { name := "main", target := X }),
                   ("feat", { name := "feat", target := Y })]
      head := { branchName := some "main", commitID := none }
      index := { entries := [] }
      workingDirectory := { files := [("a.txt", "1")] } },
    ?_, ?_, ?_, ?_, ?_, ?_, ?_, ?_, ?_, ?_, ?_, ?_, ?_⟩
  · decide
  · exact Add_literal compile₁ "a.txt" _ "1" (by decide)
  · rw [Commit_eq_ok g₁ t₁ "c1" stagedFirstRepo (by decide)]
    have hcur : currentCommit stagedFirstRepo = ("", []) := by decide
    have htree : GoMap.copyInto (GoMap.copyInto [] ([] : Files)) stagedFirstRepo.index.entries =
        [("a.txt", "1")] := by decide
    have hb : builtCommit g₁ t₁ "c1" stagedFirstRepo =
        { id := X, parents := [], message := "c1", timestamp := t₁,
          tree := [("a.txt", "1")] } := by
      simp only [builtCommit, hcur, htree, ne_eq, not_true_eq_false, if_false, hg₁]
    rw [hb]
    simp [branchesAfterCommit, stagedFirstRepo, NewRepo, Repo.AddBranch, Repo.GetBranch,
      GoMap.set, GoMap.get?, DefaultBranchName, Branch.SetTarget, NewIndex,
      NewWorkingDirectory]
  · rw [Status_eq]
    simp [describeHead, statusPaths, statusCommitTree, statusEntry, Repo.GetBranch,
      Repo.GetCommit, GoMap.get?, GoMap.set, GoMap.range, GoMap.copyInto, GoMap.keysInto, hX]
  · simp [InMemoryEngine.CreateBranch, currentCommit, Repo.GetBranch, Repo.GetCommit,
      Repo.AddBranch, GoMap.get?, GoMap.set, hX, hmf]
  · simp [InMemoryEngine.CheckoutBranch, applyCommitToWorkingDirectory, Repo.GetBranch,
      Repo.GetCommit, GoMap.get?, GoMap.set, GoMap.range, hX, hmf, WorkingDirectory.Clear,
      WorkingDirectory.AddFile, Index.Clear]
  · simp [InMemoryEngine.AddFileToWorkingDirectory, WorkingDirectory.AddFile, GoMap.set, hab]
  · rw [Add_literal compile₂ "b.txt" _ "2" (by simp [GoMap.get?, hab])]
    simp [Index.AddEntry, GoMap.set]
  · rw [Commit_eq_ok g₂ t₂ "c2" _ (by simp [GoMap.len, GoMap.range])]
    simp [builtCommit, branchesAfterCommit, currentCommit, Repo.GetBranch, Repo.GetCommit,
      GoMap.get?, GoMap.set, GoMap.range, GoMap.copyInto, hX, hmf, hab, hg₂, hXY,
      Branch.SetTarget]
  · exact ⟨{ id := Y, parents := [X], message := "c2", timestamp := t₂,
             tree := [("a.txt", "1"), ("b.txt", "2")] },
      by simp [Repo.GetCommit, GoMap.get?, hXY], rfl, rfl⟩
  · simp [InMemoryEngine.CheckoutBranch, applyCommitToWorkingDirectory, Repo.GetBranch,
      Repo.GetCommit, GoMap.get?, GoMap.set, GoMap.range, hX, WorkingDirectory.Clear,
      WorkingDirectory.AddFile, Index.Clear]
  · rfl
  · intro fuel hf
    obtain ⟨n, rfl⟩ : ∃ n, fuel = n + 1 := ⟨fuel - 1, by omega⟩
    simp [InMemoryEngine.Log, InMemoryEngine.LogLoop, describeHead, Repo.GetBranch,
      Repo.GetCommit, GoMap.get?, hX]

theorem example_scenario_witness :
    sampleIdGen [("a.txt", "1")] [] 1 = "root-1" ∧
    sampleIdGen [("a.txt", "1"), ("b.txt", "2")] ["root-1"] 2 = "child-2" ∧
    "root-1" ≠ "" ∧ "root-1" ≠ "child-2" ∧
    ∃ s₁ s₂ s₃ s₄ s₅ s₆ s₇ s₈ s₉ : Repo,
      InMemoryEngine.AddFileToWorkingDirectory "a.txt" "1" NewRepo = .ok () s₁ ∧
      InMemoryEngine.Add literalOnly "a.txt" s₁ = .ok () s₂ ∧
      InMemoryEngine.Commit sampleIdGen 1 "c1" s₂ = .ok "root-1" s₃ ∧
      InMemoryEngine.Status s₃ =
        .ok { HeadDescription := "main",
              Files := [{ Path := "a.txt", Staged := false, Modified := false,
                          Untracked := false }] } s₃ ∧
      InMemoryEngine.CreateBranch "feat" s₃ = .ok () s₄ ∧
      InMemoryEngine.CheckoutBranch "feat" s₄ = .ok () s₅ ∧
      InMemoryEngine.AddFileToWorkingDirectory "b.txt" "2" s₅ = .ok () s₆ ∧
      InMemoryEngine.Add suffixRegexp "b.txt" s₆ = .ok () s₇ ∧
      InMemoryEngine.Commit sampleIdGen 2 "c2" s₇ = .ok "child-2" s₈ ∧
      (∃ c, s₈.GetCommit "child-2" = some c ∧ c.message = "c2" ∧ c.parents = ["root-1"]) ∧
      InMemoryEngine.CheckoutBranch "main" s₈ = .ok () s₉ ∧
      s₉.workingDirectory.files = [("a.txt", "1")] ∧
      ∀ fuel, 1 ≤ fuel →
        InMemoryEngine.Log fuel s₉ =
          some (.ok [{ ID := "root-1", Message := "c1", Timestamp := 1, Parents := [] }] s₉) :=
  ⟨by decide, by decide, by decide, by decide,
    example_scenario sampleIdGen sampleIdGen 1 2 literalOnly suffixRegexp "root-1" "child-2"
      (by decide) (by decide) (by decide) (by decide)⟩

/-! ## Commit and CreateBranch, stated on the stores -/

/-- The tree `currentCommit` returns when HEAD resolves through its branch to a commit. -/
theorem currentCommit_tree_resolved (repo : Repo) (B : BranchName) (br : Branch)
    (pc : VCS.Commit) (hB : repo.head.branchName = some B) (hbr : repo.GetBranch B = some br)
    (ht : br.target ≠ "") (hc : repo.GetCommit br.target = some pc) :
    (currentCommit repo).2 = pc.tree := by
  rw [currentCommit_on_branch repo B br hB hbr]
  simp [ht, hc]

/-- The tree `currentCommit` returns when HEAD does not resolve through its branch to a
commit. -/
theorem currentCommit_tree_unresolved (repo : Repo)
    (h : ¬ ∃ B br pc, repo.head.branchName = some B ∧ repo.GetBranch B = some br ∧
      br.target ≠ "" ∧ repo.GetCommit br.target = some pc) :
    (currentCommit repo).2 = [] := by
  cases hB : repo.head.branchName with
  | none => simp [currentCommit, hB]
  | some B =>
    cases hbr : repo.GetBranch B with
    | none => simp [currentCommit, hB, hbr]
    | some br =>
      rw [currentCommit_on_branch repo B br hB hbr]
      by_cases ht : br.target = ""
      · simp [ht]
      · cases hc : repo.GetCommit br.target with
        | none => simp [ht]
        | some pc => exact absurd ⟨B, br, pc, hB, hbr, ht, hc⟩ h

/-- C1. Commit content invariant: with a non-empty Index, `Commit` succeeds and the commit it
stores under the returned id has, at every path `p`: the staged content when `p` is in the
Index; otherwise, when HEAD is on a branch whose non-empty target is the key of a stored
commit, exactly what that commit's tree has at `p` (its content, or nothing); otherwise, when
there is no such commit, nothing. -/
theorem commit_tree_is_overlay (idGen : CommitIDGenerator) (now : Timestamp) (message : String)
    (repo : Repo) (h : GoMap.len repo.index.entries ≠ 0) :
    ∃ id repo' commit,
      InMemoryEngine.Commit idGen now message repo = .ok id repo' ∧
      repo'.GetCommit id = some commit ∧
      ∀ p : String,
        (∀ v, GoMap.get? repo.index.entries p = some v → GoMap.get? commit.tree p = some v) ∧
        (GoMap.get? repo.index.entries p = none →
          (∀ B br pc, repo.head.branchName = some B → repo.GetBranch B = some br →
            br.target ≠ "" → repo.GetCommit br.target = some pc →
            GoMap.get? commit.tree p = GoMap.get? pc.tree p) ∧
          ((¬ ∃ B br pc, repo.head.branchName = some B ∧ repo.GetBranch B = some br ∧
              br.target ≠ "" ∧ repo.GetCommit br.target = some pc) →
            GoMap.get? commit.tree p = none)) := by
  obtain ⟨id, repo', commit, hok, hget, hp⟩ := Commit_stores_overlay idGen now message repo h
  refine ⟨id, repo', commit, hok, hget, fun p => ⟨(hp p).1, fun hn => ⟨?_, ?_⟩⟩⟩
  · intro B br pc hB hbr ht hc
    rw [(hp p).2 hn, currentCommit_tree_resolved repo B br pc hB hbr ht hc]
  · intro hnone
    rw [(hp p).2 hn, currentCommit_tree_unresolved repo hnone]
    rfl

theorem commit_tree_is_overlay_witness :
    GoMap.len sampleRepo.index.entries ≠ 0 ∧
    sampleRepo.head.branchName = some "main" ∧
    sampleRepo.GetBranch "main" = some { name := "main", target := "c1" } ∧
    sampleRepo.GetCommit "c1" =
      some { id := "c1", parents := [], message := "first", timestamp := 1,
             tree := [("a.txt", "1"), ("b.txt", "2")] } ∧
    InMemoryEngine.Commit constIdGen 2 "second" sampleRepo = .ok "c2" sampleRepoCommitted ∧
    sampleRepoCommitted.GetCommit "c2" =
      some { id := "c2", parents := ["c1"], message := "second", timestamp := 2,
             tree := [("a.txt", "9"), ("b.txt", "2"), ("c.txt", "3")] } ∧
    ∃ id repo' commit,
      InMemoryEngine.Commit constIdGen 2 "second" sampleRepo = .ok id repo' ∧
      repo'.GetCommit id = some commit ∧
      ∀ p : String,
        (∀ v, GoMap.get? sampleRepo.index.entries p = some v →
          GoMap.get? commit.tree p = some v) ∧
        (GoMap.get? sampleRepo.index.entries p = none →
          (∀ B br pc, sampleRepo.head.branchName = some B → sampleRepo.GetBranch B = some br →
            br.target ≠ "" → sampleRepo.GetCommit br.target = some pc →
            GoMap.get? commit.tree p = GoMap.get? pc.tree p) ∧
          ((¬ ∃ B br pc, sampleRepo.head.branchName = some B ∧
              sampleRepo.GetBranch B = some br ∧
              br.target ≠ "" ∧ sampleRepo.GetCommit br.target = some pc) →
            GoMap.get? commit.tree p = none)) :=
  ⟨by decide, by decide, by decide, by decide, by decide, by decide,
    commit_tree_is_overlay constIdGen 2 "second" sampleRepo (by decide)⟩

/-- C4. Commit postcondition: in every state reachable from `NewRepo()` by engine calls, with
HEAD on the existing branch `B` and a non-empty Index, `Commit` returns the id the generator
produced for the new tree, the parent list and the clock's time; the graph then holds, under
that id, a commit with that id, the message, the clock's time, and the parent list `[P]` when
`B` targeted the existing commit `P` (a non-empty target that is a key of the graph) and the
empty list otherwise; `B` targets the new id; the Index is empty; the working directory, HEAD
and every other branch are unchanged. -/
theorem commit_postcondition (ids : List CommitID) (repo : Repo) (h : Reachable ids repo)
    (idGen : CommitIDGenerator) (now : Timestamp) (message : String)
    (B : BranchName) (br : Branch)
    (hB : repo.head.branchName = some B) (hbr : repo.GetBranch B = some br)
    (hidx : GoMap.len repo.index.entries ≠ 0) :
    ∃ repo' c,
      InMemoryEngine.Commit idGen now message repo = .ok c.id repo' ∧
      c.id = idGen c.tree c.parents now ∧
      repo'.GetCommit c.id = some c ∧
      c.message = message ∧ c.timestamp = now ∧
      c.parents =
        (if br.target ≠ "" ∧ (repo.GetCommit br.target).isSome = true then [br.target]
         else []) ∧
      repo'.GetBranch B = some { name := br.name, target := c.id } ∧
      repo'.index.entries = [] ∧
      repo'.workingDirectory = repo.workingDirectory ∧
      repo'.head = repo.head ∧
      ∀ n, n ≠ B → repo'.GetBranch n = repo.GetBranch n := by
  obtain ⟨repo', c, hok, hid, hget, hmsg, hts, hpar, hbranch, hindex, hwd, hhead, hothers⟩ :=
    Commit_postcondition_by_recorded_id idGen now message repo B br hB hbr hidx
  refine ⟨repo', c, hok, hid, hget, hmsg, hts, ?_, hbranch, hindex, hwd, hhead, hothers⟩
  rw [hpar]
  cases hc : repo.GetCommit br.target with
  | none => simp
  | some pc =>
    have hk := h.integrity.key_eq_id br.target pc hc
    by_cases ht : br.target = ""
    · simp [ht]
    · simp [ht, hk]

theorem commit_postcondition_witness :
    Reachable ["root-1"] stagedSecondRepo ∧
    stagedSecondRepo.head.branchName = some "main" ∧
    stagedSecondRepo.GetBranch "main" = some { name := "main", target := "root-1" } ∧
    GoMap.len stagedSecondRepo.index.entries ≠ 0 ∧
    InMemoryEngine.Commit sampleIdGen 2 "second" stagedSecondRepo =
      .ok "child-2" secondCommitRepo ∧
    ∃ repo' c,
      InMemoryEngine.Commit sampleIdGen 2 "second" stagedSecondRepo = .ok c.id repo' ∧
      c.id = sampleIdGen c.tree c.parents 2 ∧
      repo'.GetCommit c.id = some c ∧
      c.message = "second" ∧ c.timestamp = 2 ∧
      c.parents =
        (if "root-1" ≠ "" ∧ (stagedSecondRepo.GetCommit "root-1").isSome = true then ["root-1"]
         else []) ∧
      repo'.GetBranch "main" = some { name := "main", target := c.id } ∧
      repo'.index.entries = [] ∧
      repo'.workingDirectory = stagedSecondRepo.workingDirectory ∧
      repo'.head = stagedSecondRepo.head ∧
      ∀ n, n ≠ "main" → repo'.GetBranch n = stagedSecondRepo.GetBranch n :=
  ⟨stagedSecondRepo_reachable, by decide, by decide, by decide, by decide,
    commit_postcondition ["root-1"] stagedSecondRepo stagedSecondRepo_reachable
      sampleIdGen 2 "second" "main" { name := "main", target := "root-1" }
      (by decide) (by decide) (by decide)⟩

/-- C8. CreateBranch contract: in every state reachable from `NewRepo()` by engine calls,
`CreateBranch(n)` fails with "branch already exists" when `n` is a key of Branches; otherwise
it fails with "no current commit" when HEAD does not resolve through its branch to an
existing commit (a non-empty target that is a key of the graph); otherwise it succeeds,
Branches gains exactly the entry `n`, targeting the current commit's id, and HEAD, the
working directory, the Index, the commit graph and every other branch are unchanged. -/
theorem create_branch_contract (ids : List CommitID) (repo : Repo) (h : Reachable ids repo)
    (name : BranchName) :
    (∀ b, repo.GetBranch name = some b →
      InMemoryEngine.CreateBranch name repo = .err (.New errMsgBranchExists) repo) ∧
    (repo.GetBranch name = none →
      (¬ ∃ B br pc, repo.head.branchName = some B ∧ repo.GetBranch B = some br ∧
          br.target ≠ "" ∧ repo.GetCommit br.target = some pc) →
      InMemoryEngine.CreateBranch name repo = .err (.New errMsgNoCurrentCommit) repo) ∧
    (repo.GetBranch name = none →
      ∀ B br pc, repo.head.branchName = some B → repo.GetBranch B = some br →
        br.target ≠ "" → repo.GetCommit br.target = some pc →
        ∃ repo', InMemoryEngine.CreateBranch name repo = .ok () repo' ∧
          repo'.GetBranch name = some { name := name, target := br.target } ∧
          (∀ n, n ≠ name → repo'.GetBranch n = repo.GetBranch n) ∧
          GoMap.len repo'.branches = GoMap.len repo.branches + 1 ∧
          repo'.head = repo.head ∧
          repo'.workingDirectory = repo.workingDirectory ∧
          repo'.index = repo.index ∧
          repo'.commits = repo.commits) := by
  obtain ⟨h1, h2, h3⟩ := CreateBranch_by_recorded_id name repo
  refine ⟨h1, ?_, ?_⟩
  · intro hn hno
    apply h2 hn
    rintro ⟨B, br, pc, hB, hbr, ht, hc, -⟩
    exact hno ⟨B, br, pc, hB, hbr, ht, hc⟩
  · intro hn B br pc hB hbr ht hc
    have hk := h.integrity.key_eq_id br.target pc hc
    have hne : pc.id ≠ "" := by rw [hk]; exact ht
    obtain ⟨repo', hok, hget, hrest⟩ := h3 hn B br pc hB hbr ht hc hne
    rw [hk] at hget
    exact ⟨repo', hok, hget, hrest⟩

theorem create_branch_contract_witness :
    Reachable ["root-1"] stagedSecondRepo ∧
    stagedSecondRepo.GetBranch "feat" = none ∧
    stagedSecondRepo.head.branchName = some "main" ∧
    stagedSecondRepo.GetBranch "main" = some { name := "main", target := "root-1" } ∧
    "root-1" ≠ "" ∧
    stagedSecondRepo.GetCommit "root-1" =
      some { id := "root-1", parents := [], message := "first", timestamp := 1,
             tree := [("a.txt", "1")] } ∧
    InMemoryEngine.CreateBranch "feat" NewRepo = .err (.New errMsgNoCurrentCommit) NewRepo ∧
    InMemoryEngine.CreateBranch "main" stagedSecondRepo =
      .err (.New errMsgBranchExists) stagedSecondRepo ∧
    ∃ repo', InMemoryEngine.CreateBranch "feat" stagedSecondRepo = .ok () repo' ∧
      repo'.GetBranch "feat" = some { name := "feat", target := "root-1" } ∧
      (∀ n, n ≠ "feat" → repo'.GetBranch n = stagedSecondRepo.GetBranch n) ∧
      GoMap.len repo'.branches = GoMap.len stagedSecondRepo.branches + 1 ∧
      repo'.head = stagedSecondRepo.head ∧
      repo'.workingDirectory = stagedSecondRepo.workingDirectory ∧
      repo'.index = stagedSecondRepo.index ∧
      repo'.commits = stagedSecondRepo.commits :=
  ⟨stagedSecondRepo_reachable, by decide, by decide, by decide, by decide, by decide,
    by decide, by decide,
    (create_branch_contract ["root-1"] stagedSecondRepo stagedSecondRepo_reachable "feat").2.2
      (by decide) "main" { name := "main", target := "root-1" }
      { id := "root-1", parents := [], message := "first", timestamp := 1,
        tree := [("a.txt", "1")] }
      (by decide) (by decide) (by decide) (by decide)⟩

end VCS
